import Mathlib

/-!
Verification development for the DocMeta dependency-graph core.

The definitions below are a shallow embedding of:
  * `bin/usedby.js` (the Builder: `main`, `normalizeForLookup`, the file index),
  * `bin/lib/config.js` (`resolvePathAlias`, the `loadPathAliases` defaults),
  * `bin/graph.js` (`buildGraph`, `findCycles`, `findOrphans`, `findEntryPoints`,
    `findClusters`, `calculateBlastRadius`, `globToRegex`).

File-system access is abstracted away: the Builder operates on the list of
already-loaded records (one per `.docmeta.json` file), each carrying its
project-relative folder path (the string `'/' + path.relative(rootPath, dir)`
that the scripts compute for it).  JavaScript `Map`s are modelled as
association lists with insert-or-overwrite semantics, JavaScript string
comparison (`<`, default `sort()`) as code-unit lexicographic comparison on
the character lists, and the stable JavaScript `Array.prototype.sort` as a
stable insertion sort.
-/

namespace DocMeta

/-! ## Basic list / string helpers -/

/-- Boolean list membership via equality, mirroring `Array.includes` / `Set.has`. -/
def lmem (x : String) (l : List String) : Bool := l.any (fun y => y = x)

@[simp] theorem lmem_iff (x : String) (l : List String) : lmem x l = true ↔ x ∈ l := by
  simp only [lmem, List.any_eq_true, decide_eq_true_eq]
  constructor
  · rintro ⟨y, hy, rfl⟩; exact hy
  · intro h; exact ⟨x, h, rfl⟩

/-- `Set.add` on an insertion-ordered set. -/
def listAdd (l : List String) (x : String) : List String :=
  if lmem x l then l else l ++ [x]

@[simp] theorem mem_listAdd {l : List String} {x y : String} :
    y ∈ listAdd l x ↔ y ∈ l ∨ y = x := by
  by_cases h : lmem x l
  · have hx : x ∈ l := (lmem_iff x l).mp h
    simp only [listAdd, h, if_true]
    constructor
    · exact fun hy => Or.inl hy
    · rintro (hy | rfl)
      · exact hy
      · exact hx
  · simp [listAdd, h]

/-- JavaScript `Map.get`: the value stored at a key. -/
def mapGet {α : Type} (m : List (String × α)) (k : String) : Option α :=
  (m.find? (fun p => p.1 = k)).map (fun p => p.2)

/-- JavaScript `Map.set`: overwrite in place if the key is present,
append otherwise (iteration order is preserved). -/
def mapSet {α : Type} (m : List (String × α)) (k : String) (v : α) : List (String × α) :=
  if m.any (fun p => p.1 = k) then
    m.map (fun p => if p.1 = k then (k, v) else p)
  else m ++ [(k, v)]

theorem mapGet_nil {α : Type} (k : String) : mapGet ([] : List (String × α)) k = none := rfl

theorem mapGet_cons {α : Type} (p : String × α) (m : List (String × α)) (k : String) :
    mapGet (p :: m) k = if p.1 = k then some p.2 else mapGet m k := by
  by_cases h : p.1 = k <;> simp [mapGet, List.find?_cons, h]

theorem mapGet_append {α : Type} (m₁ m₂ : List (String × α)) (k : String) :
    mapGet (m₁ ++ m₂) k = (mapGet m₁ k).or (mapGet m₂ k) := by
  induction m₁ with
  | nil => simp [mapGet]
  | cons p t ih =>
    by_cases h : p.1 = k <;> simp [mapGet_cons, h, ih]

theorem mapGet_eq_none_of_not_any {α : Type} {m : List (String × α)} {k : String}
    (h : m.any (fun p => p.1 = k) = false) : mapGet m k = none := by
  induction m with
  | nil => rfl
  | cons p t ih =>
    simp only [List.any_cons, Bool.or_eq_false_iff] at h
    rw [mapGet_cons, if_neg (by simpa using h.1)]
    exact ih h.2

theorem mapGet_overwrite_ne {α : Type} (m : List (String × α)) {k k' : String} (v : α)
    (h : k' ≠ k) :
    mapGet (m.map (fun p => if p.1 = k then (k, v) else p)) k' = mapGet m k' := by
  induction m with
  | nil => rfl
  | cons p t ih =>
    by_cases hp : p.1 = k
    · rw [List.map_cons, if_pos hp, mapGet_cons, mapGet_cons]
      rw [if_neg (fun hc : (k, v).1 = k' => h hc.symm),
        if_neg (fun hc : p.1 = k' => h ((hp ▸ hc : k = k')).symm)]
      exact ih
    · rw [List.map_cons, if_neg hp, mapGet_cons, mapGet_cons]
      by_cases hp' : p.1 = k'
      · rw [if_pos hp', if_pos hp']
      · rw [if_neg hp', if_neg hp']; exact ih

theorem mapGet_overwrite_eq {α : Type} {m : List (String × α)} {k : String} (v : α)
    (h : m.any (fun p => p.1 = k) = true) :
    mapGet (m.map (fun p => if p.1 = k then (k, v) else p)) k = some v := by
  induction m with
  | nil => simp at h
  | cons p t ih =>
    by_cases hp : p.1 = k
    · rw [List.map_cons, if_pos hp, mapGet_cons]
      simp
    · simp only [List.any_cons, Bool.or_eq_true] at h
      rcases h with h | h
      · exact absurd (by simpa using h) hp
      · rw [List.map_cons, if_neg hp, mapGet_cons, if_neg hp]
        exact ih h

theorem mapGet_mapSet {α : Type} (m : List (String × α)) (k k' : String) (v : α) :
    mapGet (mapSet m k v) k' = if k' = k then some v else mapGet m k' := by
  by_cases hany : m.any (fun p => p.1 = k) = true
  · rw [mapSet, if_pos hany]
    by_cases h : k' = k
    · subst h; rw [if_pos rfl]; exact mapGet_overwrite_eq v hany
    · rw [if_neg h]; exact mapGet_overwrite_ne m v h
  · rw [mapSet, if_neg hany, mapGet_append]
    by_cases h : k' = k
    · subst h
      rw [mapGet_eq_none_of_not_any (Bool.eq_false_iff.mpr hany ▸ rfl)]
      simp [mapGet_cons]
    · rw [if_neg h, mapGet_cons, if_neg (fun hc => h hc.symm), mapGet_nil]
      cases mapGet m k' <;> simp

/-! ## JavaScript string comparison and the stable comparison sort

JavaScript compares strings code unit by code unit (`a < b`, the default
`Array.prototype.sort()` comparator) and `sort` is stable.  We model the
comparison lexicographically on the character list and the sort as a stable
insertion sort. -/

/-- Code-unit `a <= b` on character lists. -/
def chLeB : List Char → List Char → Bool
  | [], _ => true
  | _ :: _, [] => false
  | a :: as, b :: bs => if a = b then chLeB as bs else decide (a < b)

/-- Code-unit `a < b` on character lists (JavaScript `<` on strings). -/
def chLtB : List Char → List Char → Bool
  | [], [] => false
  | [], _ :: _ => true
  | _ :: _, [] => false
  | a :: as, b :: bs => if a = b then chLtB as bs else decide (a < b)

def strLeB (a b : String) : Bool := chLeB a.data b.data

def strLtB (a b : String) : Bool := chLtB a.data b.data

theorem chLeB_total (a b : List Char) : chLeB a b = true ∨ chLeB b a = true := by
  induction a generalizing b with
  | nil => exact Or.inl rfl
  | cons x xs ih =>
    cases b with
    | nil => exact Or.inr rfl
    | cons y ys =>
      by_cases hxy : x = y
      · subst hxy
        rcases ih ys with h | h
        · exact Or.inl (by simp [chLeB, h])
        · exact Or.inr (by simp [chLeB, h])
      · rcases lt_or_gt_of_ne hxy with h | h
        · exact Or.inl (by simp [chLeB, hxy, h])
        · exact Or.inr (by simp [chLeB, Ne.symm hxy, h])

theorem chLeB_trans {a b c : List Char} (h₁ : chLeB a b = true) (h₂ : chLeB b c = true) :
    chLeB a c = true := by
  induction a generalizing b c with
  | nil => rfl
  | cons x xs ih =>
    cases b with
    | nil => simp [chLeB] at h₁
    | cons y ys =>
      cases c with
      | nil => simp [chLeB] at h₂
      | cons z zs =>
        simp only [chLeB] at h₁ h₂ ⊢
        by_cases hxy : x = y
        · subst hxy
          rw [if_pos rfl] at h₁
          by_cases hyz : x = z
          · subst hyz
            rw [if_pos rfl] at h₂ ⊢
            exact ih h₁ h₂
          · rw [if_neg hyz] at h₂ ⊢
            exact h₂
        · rw [if_neg hxy] at h₁
          by_cases hyz : y = z
          · subst hyz
            rw [if_neg hxy]
            exact h₁
          · rw [if_neg hyz] at h₂
            have hxz : x < z := lt_trans (of_decide_eq_true h₁) (of_decide_eq_true h₂)
            rw [if_neg (ne_of_lt hxz)]
            exact decide_eq_true hxz

theorem strLeB_total (a b : String) : strLeB a b = true ∨ strLeB b a = true :=
  chLeB_total a.data b.data

theorem strLeB_trans {a b c : String} (h₁ : strLeB a b = true) (h₂ : strLeB b c = true) :
    strLeB a c = true := chLeB_trans h₁ h₂

/-- Ordered insertion used by the stable insertion sort. -/
def orderedIns {α : Type} (le : α → α → Bool) (a : α) : List α → List α
  | [] => [a]
  | b :: bs => if le a b then a :: b :: bs else b :: orderedIns le a bs

/-- Stable insertion sort: the model of JavaScript's stable `Array.prototype.sort`
with a consistent comparator. -/
def insSort {α : Type} (le : α → α → Bool) : List α → List α
  | [] => []
  | a :: as => orderedIns le a (insSort le as)

theorem orderedIns_perm {α : Type} (le : α → α → Bool) (a : α) (l : List α) :
    List.Perm (orderedIns le a l) (a :: l) := by
  induction l with
  | nil => exact List.Perm.refl _
  | cons b bs ih =>
    by_cases h : le a b = true
    · rw [orderedIns, if_pos h]
    · rw [orderedIns, if_neg h]
      exact ((ih.cons b).trans (List.Perm.swap a b bs))

theorem insSort_perm {α : Type} (le : α → α → Bool) (l : List α) :
    List.Perm (insSort le l) l := by
  induction l with
  | nil => exact List.Perm.refl _
  | cons a as ih =>
    exact (orderedIns_perm le a (insSort le as)).trans (ih.cons a)

theorem mem_insSort {α : Type} (le : α → α → Bool) (l : List α) (x : α) :
    x ∈ insSort le l ↔ x ∈ l := (insSort_perm le l).mem_iff

theorem insSort_length {α : Type} (le : α → α → Bool) (l : List α) :
    (insSort le l).length = l.length := (insSort_perm le l).length_eq

theorem insSort_nodup {α : Type} (le : α → α → Bool) {l : List α} (h : l.Nodup) :
    (insSort le l).Nodup := ((insSort_perm le l).symm.nodup h)

theorem orderedIns_sorted {α : Type} {le : α → α → Bool}
    (htot : ∀ a b, le a b = true ∨ le b a = true)
    (htrans : ∀ a b c, le a b = true → le b c = true → le a c = true)
    {l : List α} (a : α) (h : l.Pairwise (fun x y => le x y = true)) :
    (orderedIns le a l).Pairwise (fun x y => le x y = true) := by
  induction l with
  | nil => simp [orderedIns]
  | cons b bs ih =>
    rcases List.pairwise_cons.mp h with ⟨hb, hbs⟩
    by_cases hab : le a b = true
    · rw [orderedIns, if_pos hab]
      refine List.pairwise_cons.mpr ⟨?_, h⟩
      intro y hy
      rcases List.mem_cons.mp hy with rfl | hy
      · exact hab
      · exact htrans a b y hab (hb y hy)
    · rw [orderedIns, if_neg hab]
      refine List.pairwise_cons.mpr ⟨?_, ih hbs⟩
      intro y hy
      rcases List.mem_cons.mp ((orderedIns_perm le a bs).mem_iff.mp hy) with heq | hy
      · subst heq
        rcases htot y b with h' | h'
        · exact absurd h' hab
        · exact h'
      · exact hb y hy

theorem insSort_sorted {α : Type} {le : α → α → Bool}
    (htot : ∀ a b, le a b = true ∨ le b a = true)
    (htrans : ∀ a b c, le a b = true → le b c = true → le a c = true)
    (l : List α) : (insSort le l).Pairwise (fun x y => le x y = true) := by
  induction l with
  | nil => simp [insSort]
  | cons a as ih => exact orderedIns_sorted htot htrans a ih

/-! ## String primitives

These mirror the JavaScript string methods used by the scripts
(`startsWith`, `endsWith`, `includes`, `slice`).  They are defined on the
character lists so that concrete runs reduce inside the kernel. -/

def strStarts (s p : String) : Bool := p.data.isPrefixOf s.data

def strEnds (s p : String) : Bool := p.data.isSuffixOf s.data

/-- `haystack.includes(needle)`. -/
def chContains : List Char → List Char → Bool
  | hay, needle =>
    needle.isPrefixOf hay ||
      match hay with
      | [] => false
      | _ :: t => chContains t needle

def strContains (hay needle : String) : Bool := chContains hay.data needle.data

/-- `s.slice(n)` (also `s.slice(1)` on possibly empty strings). -/
def strDrop (s : String) (n : Nat) : String := String.mk (s.data.drop n)

/-- `s.slice(0, n)`. -/
def strTake (s : String) (n : Nat) : String := String.mk (s.data.take n)

def strLen (s : String) : Nat := s.data.length

theorem strStarts_iff (s p : String) : strStarts s p = true ↔ p.data <+: s.data := by
  simp [strStarts, List.isPrefixOf_iff_prefix]

/-! ## `path.posix` model

`posixNormalize` mirrors Node's `path.posix.normalize` and `posixJoin` mirrors
the two-argument `path.posix.join` (join the pieces with `'/'`, then
normalize). -/

/-- Split a character list on a separator (like `String.split`). -/
def chSplit (sep : Char) : List Char → List (List Char)
  | [] => [[]]
  | c :: cs =>
    match chSplit sep cs with
    | [] => [[]]
    | h :: t => if c = sep then [] :: h :: t else (c :: h) :: t

/-- Join with a separator (inverse of `chSplit`). -/
def chJoin (sep : Char) : List (List Char) → List Char
  | [] => []
  | [x] => x
  | x :: xs => x ++ sep :: chJoin sep xs

/-- Node's `normalizeString`: resolve `.` and `..` segments, dropping empty
segments; `allowAbove` keeps leading `..` segments (relative paths). -/
def normSegs (allowAbove : Bool) : List (List Char) → List (List Char) → List (List Char)
  | acc, [] => acc.reverse
  | acc, seg :: rest =>
    if seg = [] ∨ seg = ['.'] then normSegs allowAbove acc rest
    else if seg = ['.', '.'] then
      match acc with
      | top :: acc' =>
        if top = ['.', '.'] then
          if allowAbove then normSegs allowAbove (seg :: top :: acc') rest
          else normSegs allowAbove (top :: acc') rest
        else normSegs allowAbove acc' rest
      | [] =>
        if allowAbove then normSegs allowAbove [seg] rest
        else normSegs allowAbove [] rest
    else normSegs allowAbove (seg :: acc) rest

/-- `path.posix.normalize`. -/
def posixNormalize (p : String) : String :=
  if p = "" then "." else
  let cs := p.data
  let isAbs := cs.head? = some '/'
  let hasTrail := cs.getLast? = some '/'
  let body := chJoin '/' (normSegs (!isAbs) [] (chSplit '/' cs))
  if body = [] then
    (if isAbs then "/" else if hasTrail then "./" else ".")
  else
    let body := if hasTrail then body ++ ['/'] else body
    String.mk (if isAbs then '/' :: body else body)

/-- `path.posix.join(a, b)`: concatenate with `'/'` and normalize. -/
def posixJoin (a b : String) : String :=
  let joined := if a = "" then b else if b = "" then a else a ++ "/" ++ b
  if joined = "" then "." else posixNormalize joined

/-! ## Data model: loaded `.docmeta.json` records

A `FileEntry` is one value of the record's `files` object; fields the scripts
do not touch are carried in `rest` (string key/value pairs, standing for the
verbatim JSON text of the unknown fields).  A `Record` is one parsed
`.docmeta.json` with its project-relative folder path
(`'/' + path.relative(rootPath, dir)`). -/

structure FileEntry where
  purpose : String := ""
  exports : List String := []
  uses : List String := []
  usedBy : List String := []
  calls : List String := []
  calledBy : List String := []
  rest : List (String × String) := []
  deriving Repr, DecidableEq

structure Record where
  folderPath : String
  files : List (String × FileEntry) := []
  updated : String := ""
  rest : List (String × String) := []
  deriving Repr, DecidableEq

/-- An alias table: pattern → target templates, in insertion order
(`loadPathAliases` produces plain objects iterated in insertion order). -/
abbrev AliasTable := List (String × List String)

/-- The two default aliases `loadPathAliases` always installs first. -/
def defaultAliases : AliasTable := [("@/*", ["/*"]), ("~/*", ["/*"])]

/-! ## Reference Resolver (`config.js`, `resolvePathAlias`) -/

/-- Scan the alias entries in order (the `for (const [pattern, targets] of
Object.entries(aliases))` loop of `resolvePathAlias`).  `loadPathAliases` only
stores non-empty target lists, so the `headD ""` default is never consulted on
real alias tables. -/
def aliasScan (importPath : String) : AliasTable → Option String
  | [] => none
  | (pat, targets) :: restA =>
    let isWildcard := strEnds pat "/*"
    let patternBase := if isWildcard then strTake pat (strLen pat - 2) else pat
    if isWildcard then
      if strStarts importPath (patternBase ++ "/") then
        let remainder := strDrop importPath (strLen patternBase + 1)
        let target := targets.headD ""
        let targetBase := if strEnds target "/*" then strTake target (strLen target - 2) else target
        some (targetBase ++ "/" ++ remainder)
      else aliasScan importPath restA
    else
      if importPath = patternBase then
        let target := targets.headD ""
        some (if strEnds target "/*" then strTake target (strLen target - 2) else target)
      else aliasScan importPath restA

/-- `resolvePathAlias(importPath, aliases, fromDir, rootPath)`.  The only use
of `fromDir`/`rootPath` is the project-relative location
`'/' + path.relative(rootPath, fromDir)`, which is exactly the `folderPath`
stored on the record, so the embedding takes that string directly. -/
def resolvePathAlias (importPath : String) (aliases : AliasTable)
    (fromRelative : String) : Option String :=
  if strStarts importPath "." then
    some (posixNormalize (posixJoin fromRelative importPath))
  else
    aliasScan importPath aliases

/-! ## Graph Builder (`usedby.js`, `main`) -/

/-- The extensions stripped by `normalizeForLookup`
(`/\.(ts|tsx|js|jsx|mjs|cjs|py|go|rs)$/`). -/
def lookupExts : List String := ["ts", "tsx", "js", "jsx", "mjs", "cjs", "py", "go", "rs"]

/-- `normalizeForLookup`: strip a trailing recognized extension.  The regex
match is anchored at the end and no listed extension is a suffix of a dotted
form of another, so testing `endsWith('.' + ext)` per extension is exact. -/
def normalizeForLookup (p : String) : String :=
  match lookupExts.find? (fun e => strEnds p ("." ++ e)) with
  | some e => strTake p (strLen p - (strLen e + 1))
  | none => p

/-- The `fileName`s treated as index files
(`/^index\.(ts|tsx|js|jsx|mjs|py)$/`). -/
def isIndexFile (fn : String) : Bool :=
  ["index.ts", "index.tsx", "index.js", "index.jsx", "index.mjs", "index.py"].any
    (fun s => s = fn)

/-- Step 1 of `main`: the file index, mapping normalized lookup keys to the
`(record, fileName)` pair that owns them.  Records are identified by their
position in the loaded list (the JavaScript code keys them by `docMetaPath`,
which is in bijection with the position). -/
def buildIndex (ds : List Record) : List (String × Nat × String) :=
  (ds.enum).foldl
    (fun idx (pr : Nat × Record) =>
      pr.2.files.foldl
        (fun idx (f : String × FileEntry) =>
          let filePath := posixJoin pr.2.folderPath f.1
          let normalized := normalizeForLookup filePath
          let idx := mapSet idx normalized (pr.1, f.1)
          let idx :=
            if strStarts normalized "/" then mapSet idx (strDrop normalized 1) (pr.1, f.1)
            else idx
          if isIndexFile f.1 then
            let fnorm := normalizeForLookup pr.2.folderPath
            mapSet (mapSet idx fnorm (pr.1, f.1)) (strDrop fnorm 1) (pr.1, f.1)
          else idx)
        idx)
    []

/-- The three-way index lookup of step 3
(`fileIndex.get(normalized) || fileIndex.get(normalized.slice(1)) ||
fileIndex.get(normalized.replace(/^\//, ''))`). -/
def lookupTarget (idx : List (String × Nat × String)) (normalized : String) :
    Option (Nat × String) :=
  match mapGet idx normalized with
  | some t => some t
  | none =>
    match mapGet idx (strDrop normalized 1) with
    | some t => some t
    | none => mapGet idx (if strStarts normalized "/" then strDrop normalized 1 else normalized)

/-- Step 2 of `main`: reset every `usedBy` to `[]`. -/
def clearUsedBy (ds : List Record) : List Record :=
  ds.map fun r => { r with files := r.files.map fun f => (f.1, { f.2 with usedBy := [] }) }

/-- Mutable state threaded through step 3. -/
structure BuildSt where
  recs : List Record
  unresolved : List (String × List String)
  links : Nat
  deriving Repr, DecidableEq

def lookupFile (recs : List Record) (j : Nat) (tfn : String) : Option FileEntry :=
  (recs.get? j).bind fun r => (r.files.find? (fun f => f.1 = tfn)).map (fun f => f.2)

/-- Apply `f` to the file entry named `tfn` of record `j` (the in-place
mutation of `targetDoc.content.files[target.fileName]`). -/
def updateFile : List Record → Nat → String → (FileEntry → FileEntry) → List Record
  | [], _, _, _ => []
  | r :: rs, 0, tfn, f =>
    { r with files := r.files.map fun p => if p.1 = tfn then (p.1, f p.2) else p } :: rs
  | r :: rs, j + 1, tfn, f => r :: updateFile rs j tfn f

/-- `unresolved` bookkeeping: append the source to the list stored under the
raw reference, creating the entry if absent. -/
def unresolvedPush (m : List (String × List String)) (u thisPath : String) :
    List (String × List String) :=
  match mapGet m u with
  | some l => mapSet m u (l ++ [thisPath])
  | none => mapSet m u [thisPath]

/-- The guarded push `if (!targetFile.usedBy.includes(thisFilePath))
targetFile.usedBy.push(thisFilePath)`. -/
def pushFn (thisPath : String) (fe : FileEntry) : FileEntry :=
  if lmem thisPath fe.usedBy then fe else { fe with usedBy := fe.usedBy ++ [thisPath] }

/-- The body of the innermost loop of step 3: resolve one raw reference `u`
authored in the file at `thisPath` (inside the folder `fromRel`). -/
def processUse (aliases : AliasTable) (idx : List (String × Nat × String))
    (fromRel thisPath u : String) (st : BuildSt) : BuildSt :=
  match resolvePathAlias u aliases fromRel with
  | none => st
  | some resolved =>
    -- `if (!resolved) continue` in the JS: the empty string is falsy, so a
    -- reference resolving to "" is skipped exactly like a failed resolution.
    if resolved = "" then st else
    match lookupTarget idx (normalizeForLookup resolved) with
    | some t =>
      match lookupFile st.recs t.1 t.2 with
      | none => st
      | some fe =>
        if lmem thisPath fe.usedBy then st
        else
          { st with
            recs := updateFile st.recs t.1 t.2 (pushFn thisPath)
            links := st.links + 1 }
    | none => { st with unresolved := unresolvedPush st.unresolved u thisPath }

/-- Step 3 of `main`: walk every record, file and raw reference.  The loop
iterates the loaded structure (whose `folderPath`/file names/`uses` step 3
never mutates) while the mutations thread through the state. -/
def step3 (aliases : AliasTable) (idx : List (String × Nat × String))
    (ds0 : List Record) (st0 : BuildSt) : BuildSt :=
  ds0.foldl
    (fun st r =>
      r.files.foldl
        (fun st f =>
          let thisPath := posixJoin r.folderPath f.1
          f.2.uses.foldl (fun st u => processUse aliases idx r.folderPath thisPath u st) st)
        st)
    st0

/-- Step 4 of `main`: sort every `usedBy` list. -/
def sortUsedBy (ds : List Record) : List Record :=
  ds.map fun r =>
    { r with files := r.files.map fun f => (f.1, { f.2 with usedBy := insSort strLeB f.2.usedBy }) }

/-- Step 5 of `main`: stamp `content.updated` before writing each record back
(`now` stands for `new Date().toISOString()`). -/
def stampUpdated (now : String) (ds : List Record) : List Record :=
  ds.map fun r => { r with updated := now }

/-- The whole Builder run (`main` of `usedby.js`), on already-loaded records:
index, clear, link, sort, stamp.  The returned state carries the written-back
records, the unresolved-reference report and the created-links counter. -/
def buildFull (aliases : AliasTable) (now : String) (ds : List Record) : BuildSt :=
  let idx := buildIndex ds
  let cleared := clearUsedBy ds
  let st := step3 aliases idx cleared { recs := cleared, unresolved := [], links := 0 }
  { st with recs := stampUpdated now (sortUsedBy st.recs) }

/-- The records as the Builder writes them back. -/
def build (aliases : AliasTable) (now : String) (ds : List Record) : List Record :=
  (buildFull aliases now ds).recs

/-! ### Derived descriptions used by the theorems -/

/-- All `(folderPath, thisFilePath, rawReference)` triples in iteration
order. -/
def usesItems (ds : List Record) : List (String × String × String) :=
  ds.flatMap fun r =>
    r.files.flatMap fun f =>
      f.2.uses.map fun u => (r.folderPath, posixJoin r.folderPath f.1, u)

/-- Where a raw reference authored in folder `fromRel` lands: `resolve`,
normalize, then the three-way index lookup. -/
def landsOn (aliases : AliasTable) (idx : List (String × Nat × String))
    (fromRel u : String) : Option (Nat × String) :=
  match resolvePathAlias u aliases fromRel with
  | none => none
  | some resolved => if resolved = "" then none else lookupTarget idx (normalizeForLookup resolved)

/-- Does the reference resolve to a JS-truthy (non-empty) path?  Mirrors the
`if (!resolved) continue` guard: `null` and `""` both fail it. -/
def resolvesNE (aliases : AliasTable) (fromRel u : String) : Bool :=
  match resolvePathAlias u aliases fromRel with
  | none => false
  | some resolved => !(resolved = "")

/-- One authored reference occurrence that resolves (relative or via an
alias) to a non-empty path but misses the file index. -/
def itemMiss (aliases : AliasTable) (idx : List (String × Nat × String))
    (it : String × String × String) : Prop :=
  resolvesNE aliases it.1 it.2.2 = true ∧ landsOn aliases idx it.1 it.2.2 = none

instance (aliases : AliasTable) (idx : List (String × Nat × String))
    (it : String × String × String) : Decidable (itemMiss aliases idx it) := by
  unfold itemMiss
  infer_instance

/-- The sources recorded for an unresolved reference `u`: the `thisFilePath`
of every authored occurrence of `u` that resolves but misses the index, in
iteration order. -/
def unresolvedSources (aliases : AliasTable) (idx : List (String × Nat × String))
    (ds : List Record) (u : String) : List String :=
  (usesItems ds).filterMap fun it =>
    if it.2.2 = u ∧ itemMiss aliases idx it then some it.2.1 else none

def nonEmptyOpt (l : List String) : Option (List String) :=
  if l = [] then none else some l

/-! ## Builder frame: everything except `usedBy` and `updated` is preserved -/

/-- Every field of a file entry except `usedBy`. -/
def eSkel (fe : FileEntry) :
    String × List String × List String × List String × List String × List (String × String) :=
  (fe.purpose, fe.exports, fe.uses, fe.calls, fe.calledBy, fe.rest)

/-- Every field of a record except the `usedBy` lists and `updated`. -/
def recSkel (r : Record) :=
  (r.folderPath, r.rest, r.files.map fun f => (f.1, eSkel f.2))

def skeleton (ds : List Record) := ds.map recSkel

theorem recSkel_third (r : Record) (files' : List (String × FileEntry)) (rest' : List (String × String))
    (updated' : String)
    (h : files'.map (fun f => (f.1, eSkel f.2)) = r.files.map (fun f => (f.1, eSkel f.2)))
    (hrest : rest' = r.rest) :
    recSkel { r with files := files', rest := rest', updated := updated' } = recSkel r := by
  simp only [recSkel]
  rw [h, hrest]

theorem skeleton_clearUsedBy (ds : List Record) : skeleton (clearUsedBy ds) = skeleton ds := by
  simp only [skeleton, clearUsedBy, List.map_map]
  apply List.map_congr_left
  intro r _
  simp only [Function.comp_apply, recSkel, List.map_map]
  refine congrArg (fun l => (r.folderPath, r.rest, l)) ?_
  apply List.map_congr_left
  intro f _
  rfl

theorem skeleton_sortUsedBy (ds : List Record) : skeleton (sortUsedBy ds) = skeleton ds := by
  simp only [skeleton, sortUsedBy, List.map_map]
  apply List.map_congr_left
  intro r _
  simp only [Function.comp_apply, recSkel, List.map_map]
  refine congrArg (fun l => (r.folderPath, r.rest, l)) ?_
  apply List.map_congr_left
  intro f _
  rfl

theorem skeleton_stampUpdated (now : String) (ds : List Record) :
    skeleton (stampUpdated now ds) = skeleton ds := by
  simp only [skeleton, stampUpdated, List.map_map]
  apply List.map_congr_left
  intro r _
  rfl

theorem eSkel_pushFn (thisPath : String) (fe : FileEntry) :
    eSkel (pushFn thisPath fe) = eSkel fe := by
  by_cases h : lmem thisPath fe.usedBy
  · rw [pushFn, if_pos h]
  · rw [pushFn, if_neg h]; rfl

theorem skeleton_updateFile (recs : List Record) (j : Nat) (tfn : String)
    (f : FileEntry → FileEntry) (hf : ∀ fe, eSkel (f fe) = eSkel fe) :
    skeleton (updateFile recs j tfn f) = skeleton recs := by
  induction recs generalizing j with
  | nil => rfl
  | cons r rs ih =>
    cases j with
    | zero =>
      show skeleton (_ :: rs) = skeleton (r :: rs)
      simp only [skeleton, List.map_cons, List.cons.injEq]
      refine ⟨?_, trivial⟩
      simp only [recSkel, List.map_map]
      refine congrArg (fun l => (r.folderPath, r.rest, l)) ?_
      apply List.map_congr_left
      intro p _
      by_cases hp : p.1 = tfn
      · simp only [Function.comp_apply, if_pos hp, hf]
      · simp only [Function.comp_apply, if_neg hp]
    | succ j =>
      show skeleton (r :: updateFile rs j tfn f) = skeleton (r :: rs)
      simp only [skeleton, List.map_cons, List.cons.injEq]
      exact ⟨trivial, ih j⟩

theorem skeleton_processUse (aliases : AliasTable) (idx : List (String × Nat × String))
    (fromRel thisPath u : String) (st : BuildSt) :
    skeleton (processUse aliases idx fromRel thisPath u st).recs = skeleton st.recs := by
  cases hres : resolvePathAlias u aliases fromRel with
  | none => simp only [processUse, hres]
  | some resolved =>
    by_cases hemp : resolved = ""
    · simp only [processUse, hres, if_pos hemp]
    · cases hlt : lookupTarget idx (normalizeForLookup resolved) with
      | none => simp only [processUse, hres, if_neg hemp, hlt]
      | some t =>
        cases hlf : lookupFile st.recs t.1 t.2 with
        | none => simp only [processUse, hres, if_neg hemp, hlt, hlf]
        | some fe =>
          by_cases h : lmem thisPath fe.usedBy
          · simp only [processUse, hres, if_neg hemp, hlt, hlf, h, if_true]
          · simp only [processUse, hres, if_neg hemp, hlt, hlf, h, Bool.false_eq_true, if_false]
            exact skeleton_updateFile st.recs t.1 t.2 (pushFn thisPath) (eSkel_pushFn thisPath)

theorem skeleton_step3 (aliases : AliasTable) (idx : List (String × Nat × String))
    (ds0 : List Record) (st0 : BuildSt) :
    skeleton (step3 aliases idx ds0 st0).recs = skeleton st0.recs := by
  rw [step3]
  induction ds0 generalizing st0 with
  | nil => rfl
  | cons r rs ih =>
    rw [List.foldl_cons]
    rw [ih]
    generalize st0 = st
    induction r.files generalizing st with
    | nil => rfl
    | cons f fs ihf =>
      rw [List.foldl_cons, ihf]
      generalize st = st'
      induction f.2.uses generalizing st' with
      | nil => rfl
      | cons u us ihu =>
        rw [List.foldl_cons, ihu, skeleton_processUse]

/-- C9's core: a Builder run only rewrites `usedBy` and `updated`. -/
theorem skeleton_build (aliases : AliasTable) (now : String) (ds : List Record) :
    skeleton (build aliases now ds) = skeleton ds := by
  rw [build, buildFull]
  rw [skeleton_stampUpdated, skeleton_sortUsedBy, skeleton_step3, skeleton_clearUsedBy]

/-! ## The step-3 invariant: what ends up in each `usedBy` -/

/-- `(fn, fe)` is one of the file entries of record `j`. -/
def fileAt (recs : List Record) (j : Nat) (fn : String) (fe : FileEntry) : Prop :=
  ∃ r, recs[j]? = some r ∧ (fn, fe) ∈ r.files

theorem getElem?_updateFile (recs : List Record) (j : Nat) (tfn : String)
    (f : FileEntry → FileEntry) (j' : Nat) :
    (updateFile recs j tfn f)[j']? =
      if j' = j then
        (recs[j]?).map
          (fun r => { r with files := r.files.map fun p => if p.1 = tfn then (p.1, f p.2) else p })
      else recs[j']? := by
  induction recs generalizing j j' with
  | nil =>
    by_cases h : j' = j <;> simp [updateFile, h]
  | cons r rs ih =>
    cases j with
    | zero =>
      cases j' with
      | zero => simp [updateFile]
      | succ j' => simp [updateFile, Nat.succ_ne_zero]
    | succ j =>
      cases j' with
      | zero => simp [updateFile, (Nat.succ_ne_zero j).symm]
      | succ j' =>
        simp only [updateFile, List.getElem?_cons_succ]
        rw [ih j j']
        by_cases h : j' = j
        · simp [h]
        · simp [h, fun hc : j' + 1 = j + 1 => h (Nat.succ_injective hc)]

theorem mem_files_overwrite {files : List (String × FileEntry)} {tfn fn' : String}
    {f : FileEntry → FileEntry} {fe' : FileEntry} :
    (fn', fe') ∈ files.map (fun p => if p.1 = tfn then (p.1, f p.2) else p) ↔
      ∃ fe₀, (fn', fe₀) ∈ files ∧ fe' = (if fn' = tfn then f fe₀ else fe₀) := by
  rw [List.mem_map]
  constructor
  · rintro ⟨p, hp, heq⟩
    by_cases hptfn : p.1 = tfn
    · rw [if_pos hptfn] at heq
      rw [Prod.mk.injEq] at heq
      obtain ⟨h1, h2⟩ := heq
      refine ⟨p.2, ?_, ?_⟩
      · rw [← h1]; exact hp
      · rw [if_pos (h1 ▸ hptfn)]; exact h2.symm
    · rw [if_neg hptfn] at heq
      subst heq
      refine ⟨fe', hp, ?_⟩
      rw [if_neg (by simpa using hptfn)]
  · rintro ⟨fe₀, hmem, heq⟩
    by_cases hfn : fn' = tfn
    · exact ⟨(fn', fe₀), hmem, by
        rw [if_pos (show (fn', fe₀).1 = tfn from hfn)]
        rw [if_pos hfn] at heq
        rw [heq]⟩
    · exact ⟨(fn', fe₀), hmem, by
        rw [if_neg (show ¬ (fn', fe₀).1 = tfn from hfn)]
        rw [if_neg hfn] at heq
        rw [heq]⟩

theorem fileAt_updateFile_ne {recs : List Record} {j : Nat} {tfn : String}
    {f : FileEntry → FileEntry} {j' : Nat} {fn' : String} {fe' : FileEntry}
    (h : ¬(j' = j ∧ fn' = tfn)) :
    fileAt (updateFile recs j tfn f) j' fn' fe' ↔ fileAt recs j' fn' fe' := by
  unfold fileAt
  rw [getElem?_updateFile]
  by_cases hj : j' = j
  · subst hj
    rw [if_pos rfl]
    have hfn : fn' ≠ tfn := fun hc => h ⟨rfl, hc⟩
    cases hrec : recs[j']? with
    | none => simp
    | some r =>
      simp only [Option.map_some', Option.some.injEq]
      constructor
      · rintro ⟨r', hr', hmem⟩
        refine ⟨r, rfl, ?_⟩
        rw [← hr'] at hmem
        rcases mem_files_overwrite.mp hmem with ⟨fe₀, hmem₀, heq⟩
        rw [if_neg hfn] at heq
        exact heq ▸ hmem₀
      · rintro ⟨r', hr', hmem⟩
        cases hr'
        refine ⟨_, rfl, ?_⟩
        exact mem_files_overwrite.mpr ⟨fe', hmem, by rw [if_neg hfn]⟩
  · rw [if_neg hj]

theorem fileAt_updateFile_hit {recs : List Record} {j : Nat} {tfn : String}
    {f : FileEntry → FileEntry} {fe' : FileEntry} :
    fileAt (updateFile recs j tfn f) j tfn fe' ↔
      ∃ fe₀, fileAt recs j tfn fe₀ ∧ fe' = f fe₀ := by
  unfold fileAt
  rw [getElem?_updateFile, if_pos rfl]
  cases hrec : recs[j]? with
  | none => simp
  | some r =>
    simp only [Option.map_some', Option.some.injEq]
    constructor
    · rintro ⟨r', hr', hmem⟩
      rw [← hr'] at hmem
      rcases mem_files_overwrite.mp hmem with ⟨fe₀, hmem₀, heq⟩
      rw [if_pos rfl] at heq
      exact ⟨fe₀, ⟨r, rfl, hmem₀⟩, heq⟩
    · rintro ⟨fe₀, ⟨r', hr', hmem⟩, heq⟩
      cases hr'
      refine ⟨_, rfl, ?_⟩
      exact mem_files_overwrite.mpr ⟨fe₀, hmem, by rw [if_pos rfl]; exact heq⟩

theorem lookupFile_some_fileAt {recs : List Record} {j : Nat} {tfn : String} {fe : FileEntry}
    (h : lookupFile recs j tfn = some fe) : fileAt recs j tfn fe := by
  unfold lookupFile at h
  cases hrec : recs.get? j with
  | none => rw [hrec] at h; exact absurd h (by simp)
  | some r =>
    rw [hrec] at h
    simp only [Option.some_bind, Option.map_eq_some'] at h
    rcases h with ⟨p, hfind, hp2⟩
    have hmem : p ∈ r.files := List.mem_of_find?_eq_some hfind
    have hpred : p.1 = tfn := by
      have := List.find?_some hfind
      simpa using this
    refine ⟨r, by rw [← List.get?_eq_getElem?]; exact hrec, ?_⟩
    have : p = (tfn, fe) := by
      rw [← hpred, ← hp2]
    exact this ▸ hmem

theorem lookupFile_none_not_fileAt {recs : List Record} {j : Nat} {tfn : String} {fe : FileEntry}
    (h : lookupFile recs j tfn = none) : ¬ fileAt recs j tfn fe := by
  rintro ⟨r, hrec, hmem⟩
  unfold lookupFile at h
  rw [List.get?_eq_getElem?, hrec] at h
  simp only [Option.some_bind, Option.map_eq_none', List.find?_eq_none] at h
  have := h (tfn, fe) hmem
  simp at this

/-- The invariant carried through step 3: every file entry's `usedBy` is
duplicate-free and its membership is described by `P` (the same `P` for every
entry of the same record and name, so entries with equal keys stay equal). -/
def UsedByInv (P : Nat → String → String → Prop) (recs : List Record) : Prop :=
  ∀ j fn fe, fileAt recs j fn fe →
    fe.usedBy.Nodup ∧ ∀ p, p ∈ fe.usedBy ↔ P j fn p

theorem UsedByInv_congr {P Q : Nat → String → String → Prop} {recs : List Record}
    (hPQ : ∀ j fn p, P j fn p ↔ Q j fn p) (h : UsedByInv P recs) : UsedByInv Q recs := by
  intro j fn fe hfa
  rcases h j fn fe hfa with ⟨hnd, hmem⟩
  exact ⟨hnd, fun p => (hmem p).trans (hPQ j fn p)⟩

theorem processUse_inv {aliases : AliasTable} {idx : List (String × Nat × String)}
    {fromRel thisPath u : String} {st : BuildSt} {P : Nat → String → String → Prop}
    (h : UsedByInv P st.recs) :
    UsedByInv
      (fun j fn p => P j fn p ∨ (p = thisPath ∧ landsOn aliases idx fromRel u = some (j, fn)))
      (processUse aliases idx fromRel thisPath u st).recs := by
  cases hres : resolvePathAlias u aliases fromRel with
  | none =>
    simp only [processUse, hres]
    refine UsedByInv_congr (fun j fn p => ?_) h
    simp [landsOn, hres]
  | some resolved =>
    by_cases hemp : resolved = ""
    · simp only [processUse, hres, if_pos hemp]
      refine UsedByInv_congr (fun j fn p => ?_) h
      simp [landsOn, hres, hemp]
    · have hlands : landsOn aliases idx fromRel u = lookupTarget idx (normalizeForLookup resolved) := by
        simp [landsOn, hres, hemp]
      cases hlt : lookupTarget idx (normalizeForLookup resolved) with
      | none =>
        simp only [processUse, hres, if_neg hemp, hlt]
        refine UsedByInv_congr (fun j fn p => ?_) h
        rw [hlands, hlt]
        simp
      | some t =>
        rw [hlt] at hlands
        cases hlf : lookupFile st.recs t.1 t.2 with
        | none =>
          simp only [processUse, hres, if_neg hemp, hlt, hlf]
          intro j fn fe hfa
          rcases h j fn fe hfa with ⟨hnd, hmem⟩
          refine ⟨hnd, fun p => (hmem p).trans ?_⟩
          constructor
          · exact fun hp => Or.inl hp
          · rintro (hp | ⟨rfl, hsome⟩)
            · exact hp
            · rw [hlands] at hsome
              have ht : t = (j, fn) := Option.some.inj hsome
              rw [ht] at hlf
              exact absurd hfa (lookupFile_none_not_fileAt hlf)
        | some fe₀ =>
          have hfa₀ : fileAt st.recs t.1 t.2 fe₀ := lookupFile_some_fileAt hlf
          rcases h t.1 t.2 fe₀ hfa₀ with ⟨hnd₀, hmem₀⟩
          by_cases hcon : lmem thisPath fe₀.usedBy
          · -- the link already exists: the state is unchanged and `P` already
            -- holds at the target
            have hP : P t.1 t.2 thisPath := (hmem₀ thisPath).mp ((lmem_iff _ _).mp hcon)
            simp only [processUse, hres, if_neg hemp, hlt, hlf, hcon, if_true]
            intro j fn fe hfa
            rcases h j fn fe hfa with ⟨hnd, hmem⟩
            refine ⟨hnd, fun p => (hmem p).trans ?_⟩
            constructor
            · exact fun hp => Or.inl hp
            · rintro (hp | ⟨rfl, hsome⟩)
              · exact hp
              · rw [hlands] at hsome
                have ht : t = (j, fn) := Option.some.inj hsome
                have hj1 : t.1 = j := congrArg Prod.fst ht
                have hj2 : t.2 = fn := congrArg Prod.snd ht
                rw [← hj1, ← hj2]
                exact hP
          · -- a new link is pushed onto the target's `usedBy`
            have hnotP : ¬ P t.1 t.2 thisPath := fun hP =>
              hcon ((lmem_iff _ _).mpr ((hmem₀ thisPath).mpr hP))
            simp only [processUse, hres, if_neg hemp, hlt, hlf, hcon, Bool.false_eq_true, if_false]
            intro j fn fe hfa
            by_cases hjt : j = t.1 ∧ fn = t.2
            · obtain ⟨hj, hfn⟩ := hjt
              subst hj; subst hfn
              rcases fileAt_updateFile_hit.mp hfa with ⟨fe₁, hfa₁, hfe⟩
              rcases h t.1 t.2 fe₁ hfa₁ with ⟨hnd₁, hmem₁⟩
              have hcon₁ : ¬ lmem thisPath fe₁.usedBy = true := fun hc =>
                hnotP ((hmem₁ thisPath).mp ((lmem_iff _ _).mp hc))
              rw [pushFn, if_neg hcon₁] at hfe
              subst hfe
              constructor
              · refine List.Nodup.append hnd₁ (List.nodup_singleton thisPath) ?_
                intro x hx hx'
                rw [List.mem_singleton] at hx'
                subst hx'
                exact hcon₁ ((lmem_iff _ _).mpr hx)
              · intro p
                simp only [List.mem_append, List.mem_singleton]
                rw [hmem₁ p]
                constructor
                · rintro (hp | rfl)
                  · exact Or.inl hp
                  · exact Or.inr ⟨rfl, by rw [hlands]⟩
                · rintro (hp | ⟨rfl, _⟩)
                  · exact Or.inl hp
                  · exact Or.inr rfl
            · have hfa' := (fileAt_updateFile_ne (by
                intro hc
                exact hjt hc)).mp hfa
              rcases h j fn fe hfa' with ⟨hnd, hmem⟩
              refine ⟨hnd, fun p => (hmem p).trans ?_⟩
              constructor
              · exact fun hp => Or.inl hp
              · rintro (hp | ⟨rfl, hsome⟩)
                · exact hp
                · rw [hlands] at hsome
                  have ht : t = (j, fn) := Option.some.inj hsome
                  exact absurd ⟨congrArg Prod.fst ht.symm, congrArg Prod.snd ht.symm⟩ hjt

end DocMeta

namespace DocMeta

theorem foldl_processUse_inv (aliases : AliasTable) (idx : List (String × Nat × String))
    (items : List (String × String × String)) :
    ∀ (st : BuildSt) (P : Nat → String → String → Prop), UsedByInv P st.recs →
      UsedByInv
        (fun j fn p => P j fn p ∨
          ∃ it ∈ items, p = it.2.1 ∧ landsOn aliases idx it.1 it.2.2 = some (j, fn))
        ((items.foldl (fun st it => processUse aliases idx it.1 it.2.1 it.2.2 st) st)).recs := by
  induction items with
  | nil =>
    intro st P h
    rw [List.foldl_nil]
    refine UsedByInv_congr (fun j fn p => ?_) h
    simp
  | cons it rest ih =>
    intro st P h
    rw [List.foldl_cons]
    have hstep := @processUse_inv aliases idx it.1 it.2.1 it.2.2 st P h
    have := ih (processUse aliases idx it.1 it.2.1 it.2.2 st)
      (fun j fn p => P j fn p ∨ (p = it.2.1 ∧ landsOn aliases idx it.1 it.2.2 = some (j, fn)))
      hstep
    refine UsedByInv_congr (fun j fn p => ?_) this
    constructor
    · rintro ((hp | hit) | ⟨it', hit', hrest⟩)
      · exact Or.inl hp
      · exact Or.inr ⟨it, List.mem_cons_self it rest, hit⟩
      · exact Or.inr ⟨it', List.mem_cons_of_mem it hit', hrest⟩
    · rintro (hp | ⟨it', hit', hrest⟩)
      · exact Or.inl (Or.inl hp)
      · rcases List.mem_cons.mp hit' with rfl | hit'
        · exact Or.inl (Or.inr hrest)
        · exact Or.inr ⟨it', hit', hrest⟩

theorem step3_eq_foldl (aliases : AliasTable) (idx : List (String × Nat × String))
    (ds0 : List Record) (st0 : BuildSt) :
    step3 aliases idx ds0 st0 =
      (usesItems ds0).foldl (fun st it => processUse aliases idx it.1 it.2.1 it.2.2 st) st0 := by
  induction ds0 generalizing st0 with
  | nil => rfl
  | cons r rs ih =>
    rw [step3, List.foldl_cons, usesItems, List.flatMap_cons, List.foldl_append]
    rw [show (List.foldl (fun st f =>
        f.2.uses.foldl (fun st u => processUse aliases idx r.folderPath
          (posixJoin r.folderPath f.1) u st) st) st0 r.files) =
      List.foldl (fun st it => processUse aliases idx it.1 it.2.1 it.2.2 st) st0
        (r.files.flatMap fun f =>
          f.2.uses.map fun u => (r.folderPath, posixJoin r.folderPath f.1, u)) from ?_]
    · exact ih _
    · generalize st0 = st
      induction r.files generalizing st with
      | nil => rfl
      | cons f fs ihf =>
        rw [List.foldl_cons, List.flatMap_cons, List.foldl_append, List.foldl_map]
        rw [ihf]

theorem clearUsedBy_inv (ds : List Record) :
    UsedByInv (fun _ _ _ => False) (clearUsedBy ds) := by
  intro j fn fe hfa
  rcases hfa with ⟨r', hr', hmem⟩
  rw [clearUsedBy, List.getElem?_map] at hr'
  cases hrec : ds[j]? with
  | none => rw [hrec] at hr'; exact absurd hr' (by simp)
  | some r =>
    rw [hrec] at hr'
    simp only [Option.map_some', Option.some.injEq] at hr'
    rw [← hr'] at hmem
    simp only [List.mem_map] at hmem
    rcases hmem with ⟨p, _, heq⟩
    have : fe = { p.2 with usedBy := [] } := (Prod.mk.injEq .. ▸ heq).2.symm
    rw [this]
    simp

theorem usesItems_clearUsedBy (ds : List Record) :
    usesItems (clearUsedBy ds) = usesItems ds := by
  rw [usesItems, usesItems, clearUsedBy, List.flatMap_map]
  congr 1
  funext r
  rw [List.flatMap_map]

end DocMeta

namespace DocMeta

theorem fileAt_stampUpdated {now : String} {recs : List Record} {j : Nat} {fn : String}
    {fe : FileEntry} :
    fileAt (stampUpdated now recs) j fn fe ↔ fileAt recs j fn fe := by
  unfold fileAt stampUpdated
  rw [List.getElem?_map]
  cases hrec : recs[j]? with
  | none => simp
  | some r =>
    simp only [Option.map_some', Option.some.injEq]
    constructor
    · rintro ⟨r', hr', hmem⟩
      rw [← hr'] at hmem
      exact ⟨r, rfl, hmem⟩
    · rintro ⟨r', hr', hmem⟩
      cases hr'
      exact ⟨_, rfl, hmem⟩

theorem fileAt_sortUsedBy {recs : List Record} {j : Nat} {fn : String} {fe' : FileEntry} :
    fileAt (sortUsedBy recs) j fn fe' ↔
      ∃ fe₀, fileAt recs j fn fe₀ ∧ fe' = { fe₀ with usedBy := insSort strLeB fe₀.usedBy } := by
  unfold fileAt sortUsedBy
  rw [List.getElem?_map]
  cases hrec : recs[j]? with
  | none => simp
  | some r =>
    simp only [Option.map_some', Option.some.injEq]
    constructor
    · rintro ⟨r', hr', hmem⟩
      rw [← hr'] at hmem
      simp only [List.mem_map] at hmem
      rcases hmem with ⟨p, hp, heq⟩
      rcases Prod.mk.injEq .. ▸ heq with ⟨h1, h2⟩
      refine ⟨p.2, ⟨r, rfl, ?_⟩, h2.symm⟩
      rw [← h1]
      exact hp
    · rintro ⟨fe₀, ⟨r', hr', hmem⟩, heq⟩
      cases hr'
      refine ⟨_, rfl, ?_⟩
      simp only [List.mem_map]
      exact ⟨(fn, fe₀), hmem, by rw [heq]⟩

theorem exists_usesItems_iff (aliases : AliasTable) (idx : List (String × Nat × String))
    (ds : List Record) (j : Nat) (fn : String) (p : String) :
    (∃ it ∈ usesItems ds, p = it.2.1 ∧ landsOn aliases idx it.1 it.2.2 = some (j, fn)) ↔
    (∃ r' ∈ ds, ∃ f ∈ r'.files, p = posixJoin r'.folderPath f.1 ∧
       ∃ u ∈ f.2.uses, landsOn aliases idx r'.folderPath u = some (j, fn)) := by
  constructor
  · rintro ⟨it, hit, hp, hl⟩
    rw [usesItems] at hit
    rcases List.mem_flatMap.mp hit with ⟨r, hr, hit2⟩
    rcases List.mem_flatMap.mp hit2 with ⟨f, hf, hit3⟩
    rcases List.mem_map.mp hit3 with ⟨u, hu, heq⟩
    subst heq
    exact ⟨r, hr, f, hf, hp, u, hu, hl⟩
  · rintro ⟨r, hr, f, hf, hp, u, hu, hl⟩
    refine ⟨(r.folderPath, posixJoin r.folderPath f.1, u), ?_, hp, hl⟩
    rw [usesItems]
    exact List.mem_flatMap.mpr ⟨r, hr, List.mem_flatMap.mpr ⟨f, hf, List.mem_map.mpr ⟨u, hu, rfl⟩⟩⟩

/-- The full description of every `usedBy` list after a Builder run: it is a
sorted, duplicate-free list whose members are exactly the canonical paths of
the files with some raw reference landing on this file through the Builder's
resolution pipeline. -/
theorem build_usedBy_char (aliases : AliasTable) (now : String) (ds : List Record)
    (j : Nat) (fn : String) (fe : FileEntry)
    (hfa : fileAt (build aliases now ds) j fn fe) :
    fe.usedBy.Nodup ∧
    fe.usedBy.Pairwise (fun a b => strLeB a b = true) ∧
    ∀ p, p ∈ fe.usedBy ↔
      ∃ r' ∈ ds, ∃ f ∈ r'.files, p = posixJoin r'.folderPath f.1 ∧
        ∃ u ∈ f.2.uses, landsOn aliases (buildIndex ds) r'.folderPath u = some (j, fn) := by
  rw [build, buildFull] at hfa
  rw [fileAt_stampUpdated] at hfa
  rcases fileAt_sortUsedBy.mp hfa with ⟨fe₀, hfa₀, hfe⟩
  have hinv := foldl_processUse_inv aliases (buildIndex ds) (usesItems (clearUsedBy ds))
    { recs := clearUsedBy ds, unresolved := [], links := 0 }
    (fun _ _ _ => False) (clearUsedBy_inv ds)
  rw [← step3_eq_foldl] at hinv
  rcases hinv j fn fe₀ hfa₀ with ⟨hnd₀, hmem₀⟩
  have hfeUsed : fe.usedBy = insSort strLeB fe₀.usedBy := by rw [hfe]
  refine ⟨?_, ?_, ?_⟩
  · rw [hfeUsed]; exact insSort_nodup strLeB hnd₀
  · rw [hfeUsed]
    exact insSort_sorted (fun a b => strLeB_total a b)
      (fun a b c => strLeB_trans) fe₀.usedBy
  · intro p
    rw [hfeUsed, mem_insSort]
    rw [hmem₀ p]
    rw [usesItems_clearUsedBy] at *
    constructor
    · rintro (h | h)
      · exact absurd h (by simp)
      · exact (exists_usesItems_iff aliases (buildIndex ds) ds j fn p).mp h
    · intro h
      exact Or.inr ((exists_usesItems_iff aliases (buildIndex ds) ds j fn p).mpr h)

end DocMeta

namespace DocMeta

/-- The invariant on the `unresolved` map: the value under each key is exactly
the accumulated source list `F`. -/
def UnresInv (F : String → List String) (m : List (String × List String)) : Prop :=
  ∀ u, mapGet m u = nonEmptyOpt (F u)

theorem UnresInv_congr {F G : String → List String} {m : List (String × List String)}
    (hFG : ∀ u, F u = G u) (h : UnresInv F m) : UnresInv G m := by
  intro u
  rw [← hFG u]
  exact h u

theorem processUse_unres {aliases : AliasTable} {idx : List (String × Nat × String)}
    {fromRel thisPath u : String} {st : BuildSt} {F : String → List String}
    (h : UnresInv F st.unresolved) :
    UnresInv
      (fun u' => F u' ++
        if u' = u ∧ itemMiss aliases idx (fromRel, thisPath, u) then [thisPath] else [])
      (processUse aliases idx fromRel thisPath u st).unresolved := by
  cases hres : resolvePathAlias u aliases fromRel with
  | none =>
    simp only [processUse, hres]
    refine UnresInv_congr (fun u' => ?_) h
    rw [if_neg, List.append_nil]
    rintro ⟨_, hmiss, _⟩
    simp only [resolvesNE, hres] at hmiss
    exact absurd hmiss (by simp)
  | some resolved =>
    by_cases hemp : resolved = ""
    · simp only [processUse, hres, if_pos hemp]
      refine UnresInv_congr (fun u' => ?_) h
      rw [if_neg, List.append_nil]
      rintro ⟨_, hmiss, _⟩
      simp [resolvesNE, hres, hemp] at hmiss
    · cases hlt : lookupTarget idx (normalizeForLookup resolved) with
      | some t =>
        have hnomiss : ¬ (itemMiss aliases idx (fromRel, thisPath, u)) := by
          rintro ⟨_, hl⟩
          simp only [landsOn, hres, if_neg hemp, hlt] at hl
          exact absurd hl (by simp)
        have hsame : ∀ u', F u' ++
            (if u' = u ∧ itemMiss aliases idx (fromRel, thisPath, u) then [thisPath] else []) = F u' := by
          intro u'
          rw [if_neg (fun hc => hnomiss hc.2), List.append_nil]
        cases hlf : lookupFile st.recs t.1 t.2 with
        | none =>
          simp only [processUse, hres, if_neg hemp, hlt, hlf]
          exact UnresInv_congr (fun u' => (hsame u').symm) h
        | some fe =>
          by_cases hcon : lmem thisPath fe.usedBy
          · simp only [processUse, hres, if_neg hemp, hlt, hlf, hcon, if_true]
            exact UnresInv_congr (fun u' => (hsame u').symm) h
          · simp only [processUse, hres, if_neg hemp, hlt, hlf, hcon, Bool.false_eq_true, if_false]
            exact UnresInv_congr (fun u' => (hsame u').symm) h
      | none =>
        have hmiss : itemMiss aliases idx (fromRel, thisPath, u) := by
          constructor
          · simp [resolvesNE, hres, hemp]
          · simp only [landsOn, hres, if_neg hemp, hlt]
        simp only [processUse, hres, if_neg hemp, hlt]
        intro u'
        show mapGet (unresolvedPush st.unresolved u thisPath) u' =
          nonEmptyOpt (F u' ++
            if u' = u ∧ itemMiss aliases idx (fromRel, thisPath, u) then [thisPath] else [])
        by_cases hu : u' = u
        · subst hu
          rw [if_pos ⟨rfl, hmiss⟩]
          unfold unresolvedPush
          cases hg : mapGet st.unresolved u' with
          | some l =>
            rw [mapGet_mapSet, if_pos rfl]
            have hFl := h u'
            rw [hg] at hFl
            unfold nonEmptyOpt at hFl
            by_cases hFu : F u' = []
            · rw [if_pos hFu] at hFl; exact absurd hFl (by simp)
            · rw [if_neg hFu] at hFl
              have hl : l = F u' := Option.some.inj hFl
              rw [hl]
              unfold nonEmptyOpt
              rw [if_neg (by simp)]
          | none =>
            rw [mapGet_mapSet, if_pos rfl]
            have hFl := h u'
            rw [hg] at hFl
            unfold nonEmptyOpt at hFl
            by_cases hFu : F u' = []
            · rw [hFu]
              unfold nonEmptyOpt
              rw [if_neg (by simp)]
              rfl
            · rw [if_neg hFu] at hFl; exact absurd hFl.symm (by simp)
        · rw [if_neg (fun hc => hu hc.1), List.append_nil]
          unfold unresolvedPush
          cases hg : mapGet st.unresolved u with
          | some l =>
            rw [mapGet_mapSet, if_neg hu]
            exact h u'
          | none =>
            rw [mapGet_mapSet, if_neg hu]
            exact h u'

theorem foldl_processUse_unres (aliases : AliasTable) (idx : List (String × Nat × String))
    (items : List (String × String × String)) :
    ∀ (st : BuildSt) (F : String → List String), UnresInv F st.unresolved →
      UnresInv
        (fun u' => F u' ++ items.filterMap
          (fun it => if it.2.2 = u' ∧ itemMiss aliases idx it then some it.2.1 else none))
        ((items.foldl (fun st it => processUse aliases idx it.1 it.2.1 it.2.2 st) st)).unresolved := by
  induction items with
  | nil =>
    intro st F h
    rw [List.foldl_nil]
    refine UnresInv_congr (fun u' => ?_) h
    simp
  | cons it rest ih =>
    intro st F h
    rw [List.foldl_cons]
    have hstep := @processUse_unres aliases idx it.1 it.2.1 it.2.2 st F h
    have hit : ((it.1, it.2.1, it.2.2) : String × String × String) = it := rfl
    rw [hit] at hstep
    have := ih (processUse aliases idx it.1 it.2.1 it.2.2 st)
      (fun u' => F u' ++ if u' = it.2.2 ∧ itemMiss aliases idx it then [it.2.1] else []) hstep
    refine UnresInv_congr (fun u' => ?_) this
    rw [List.append_assoc]
    refine congrArg (fun l => F u' ++ l) ?_
    rw [List.filterMap_cons]
    by_cases hc : it.2.2 = u' ∧ itemMiss aliases idx it
    · rw [if_pos (⟨hc.1.symm, hc.2⟩ : u' = it.2.2 ∧ itemMiss aliases idx it), if_pos hc]
      rfl
    · rw [if_neg (fun hcc : u' = it.2.2 ∧ _ => hc ⟨hcc.1.symm, hcc.2⟩), if_neg hc,
        List.nil_append]

end DocMeta

namespace DocMeta

/-- C8's core: the `unresolved` report after a run maps each raw reference to
exactly the list of authoring files whose occurrence of it resolved but missed
the index; references never appearing that way have no entry. -/
theorem buildFull_unresolved_char (aliases : AliasTable) (now : String) (ds : List Record)
    (u : String) :
    mapGet (buildFull aliases now ds).unresolved u =
      nonEmptyOpt (unresolvedSources aliases (buildIndex ds) ds u) := by
  have hinit : UnresInv (fun _ => [])
      ({ recs := clearUsedBy ds, unresolved := [], links := 0 } : BuildSt).unresolved := by
    intro u'
    rfl
  have hinv := foldl_processUse_unres aliases (buildIndex ds) (usesItems (clearUsedBy ds))
    { recs := clearUsedBy ds, unresolved := [], links := 0 } (fun _ => []) hinit
  rw [← step3_eq_foldl] at hinv
  have hbf : (buildFull aliases now ds).unresolved =
      (step3 aliases (buildIndex ds) (clearUsedBy ds)
        { recs := clearUsedBy ds, unresolved := [], links := 0 }).unresolved := rfl
  rw [hbf]
  have := hinv u
  rw [usesItems_clearUsedBy] at this
  rw [this]
  rfl

end DocMeta

namespace DocMeta

/-! ## Determinism: the Builder's output depends only on folder paths,
file names and `uses` -/

/-- The part of the input the step-3 computation can observe. -/
def shape (ds : List Record) : List (String × List (String × List String)) :=
  ds.map fun r => (r.folderPath, r.files.map fun f => (f.1, f.2.uses))

theorem shape_eq_of_skeleton {ds ds' : List Record} (h : skeleton ds = skeleton ds') :
    shape ds = shape ds' := by
  have hproj : ∀ (l : List Record), shape l =
      (skeleton l).map (fun q => (q.1, q.2.2.map (fun f => (f.1, f.2.2.2.1)))) := by
    intro l
    rw [shape, skeleton, List.map_map]
    apply List.map_congr_left
    intro r _
    simp only [Function.comp_apply, recSkel, List.map_map]
    rfl
  rw [hproj ds, hproj ds', h]

theorem usesItems_eq_of_shape {ds ds' : List Record} (h : shape ds = shape ds') :
    usesItems ds = usesItems ds' := by
  have hproj : ∀ (l : List Record), usesItems l =
      (shape l).flatMap (fun q => q.2.flatMap fun f =>
        f.2.map fun u => (q.1, posixJoin q.1 f.1, u)) := by
    intro l
    rw [usesItems, shape, List.flatMap_map]
    congr 1
    funext r
    rw [List.flatMap_map]
  rw [hproj ds, hproj ds', h]

/-- Step 1 over the observable shape only. -/
def buildIndexShGo : Nat → List (String × List (String × List String)) →
    List (String × Nat × String) → List (String × Nat × String)
  | _, [], idx => idx
  | i, q :: qs, idx =>
    buildIndexShGo (i + 1) qs
      (q.2.foldl
        (fun idx f =>
          let filePath := posixJoin q.1 f.1
          let normalized := normalizeForLookup filePath
          let idx := mapSet idx normalized (i, f.1)
          let idx :=
            if strStarts normalized "/" then mapSet idx (strDrop normalized 1) (i, f.1)
            else idx
          if isIndexFile f.1 then
            let fnorm := normalizeForLookup q.1
            mapSet (mapSet idx fnorm (i, f.1)) (strDrop fnorm 1) (i, f.1)
          else idx)
        idx)

theorem buildIndex_eq_shGo (ds : List Record) :
    ∀ (i : Nat) (idx : List (String × Nat × String)),
      (List.enumFrom i ds).foldl
        (fun idx (pr : Nat × Record) =>
          pr.2.files.foldl
            (fun idx (f : String × FileEntry) =>
              let filePath := posixJoin pr.2.folderPath f.1
              let normalized := normalizeForLookup filePath
              let idx := mapSet idx normalized (pr.1, f.1)
              let idx :=
                if strStarts normalized "/" then mapSet idx (strDrop normalized 1) (pr.1, f.1)
                else idx
              if isIndexFile f.1 then
                let fnorm := normalizeForLookup pr.2.folderPath
                mapSet (mapSet idx fnorm (pr.1, f.1)) (strDrop fnorm 1) (pr.1, f.1)
              else idx)
            idx)
        idx = buildIndexShGo i (shape ds) idx := by
  induction ds with
  | nil => intro i idx; rfl
  | cons r rs ih =>
    intro i idx
    rw [List.enumFrom, List.foldl_cons]
    rw [show shape (r :: rs) = (r.folderPath, r.files.map fun f => (f.1, f.2.uses)) :: shape rs
      from rfl]
    rw [buildIndexShGo]
    rw [ih]
    congr 1
    rw [List.foldl_map]

theorem buildIndex_eq_of_shape {ds ds' : List Record} (h : shape ds = shape ds') :
    buildIndex ds = buildIndex ds' := by
  rw [buildIndex, buildIndex]
  rw [show (ds.enum) = List.enumFrom 0 ds from rfl, show (ds'.enum) = List.enumFrom 0 ds' from rfl]
  rw [buildIndex_eq_shGo ds 0 [], buildIndex_eq_shGo ds' 0 [], h]

theorem chLeB_antisymm : ∀ {a b : List Char}, chLeB a b = true → chLeB b a = true → a = b := by
  intro a
  induction a with
  | nil =>
    intro b _ h₂
    cases b with
    | nil => rfl
    | cons y ys => simp [chLeB] at h₂
  | cons x xs ih =>
    intro b h₁ h₂
    cases b with
    | nil => simp [chLeB] at h₁
    | cons y ys =>
      by_cases hxy : x = y
      · subst hxy
        rw [chLeB, if_pos rfl] at h₁ h₂
        rw [ih h₁ h₂]
      · rw [chLeB, if_neg hxy] at h₁
        rw [chLeB, if_neg (Ne.symm hxy)] at h₂
        exact absurd (of_decide_eq_true h₂) (not_lt_of_gt (of_decide_eq_true h₁))

theorem strLeB_antisymm {a b : String} (h₁ : strLeB a b = true) (h₂ : strLeB b a = true) :
    a = b := by
  cases a with
  | mk da =>
    cases b with
    | mk db =>
      exact congrArg String.mk (chLeB_antisymm h₁ h₂)

theorem sorted_nodup_ext {le : String → String → Bool}
    (hanti : ∀ a b, le a b = true → le b a = true → a = b) :
    ∀ (l₁ l₂ : List String), l₁.Pairwise (fun a b => le a b = true) →
      l₂.Pairwise (fun a b => le a b = true) → l₁.Nodup → l₂.Nodup →
      (∀ x, x ∈ l₁ ↔ x ∈ l₂) → l₁ = l₂ := by
  intro l₁
  induction l₁ with
  | nil =>
    intro l₂ _ _ _ _ hmem
    cases l₂ with
    | nil => rfl
    | cons y ys => exact absurd ((hmem y).mpr (List.mem_cons_self y ys)) (by simp)
  | cons x xs ih =>
    intro l₂ hs₁ hs₂ hn₁ hn₂ hmem
    cases l₂ with
    | nil => exact absurd ((hmem x).mp (List.mem_cons_self x xs)) (by simp)
    | cons y ys =>
      have hxy : x = y := by
        rcases List.mem_cons.mp ((hmem x).mp (List.mem_cons_self x xs)) with h | hx
        · exact h
        · rcases List.mem_cons.mp ((hmem y).mpr (List.mem_cons_self y ys)) with h | hy
          · exact h.symm
          · exact hanti x y ((List.pairwise_cons.mp hs₁).1 y hy)
              ((List.pairwise_cons.mp hs₂).1 x hx)
      subst hxy
      have htail : ∀ z, z ∈ xs ↔ z ∈ ys := by
        intro z
        constructor
        · intro hz
          rcases List.mem_cons.mp ((hmem z).mp (List.mem_cons_of_mem x hz)) with h | h
          · subst h
            exact absurd hz (List.nodup_cons.mp hn₁).1
          · exact h
        · intro hz
          rcases List.mem_cons.mp ((hmem z).mpr (List.mem_cons_of_mem x hz)) with h | h
          · subst h
            exact absurd hz (List.nodup_cons.mp hn₂).1
          · exact h
      rw [ih ys (List.pairwise_cons.mp hs₁).2 (List.pairwise_cons.mp hs₂).2
        (List.nodup_cons.mp hn₁).2 (List.nodup_cons.mp hn₂).2 htail]

end DocMeta

namespace DocMeta

/-- Just the data C2 talks about: every file's `usedBy` list, in record and
file order. -/
def usedByProj (ds : List Record) : List (String × List (String × List String)) :=
  ds.map fun r => (r.folderPath, r.files.map fun f => (f.1, f.2.usedBy))

theorem fileAt_cons_zero {r : Record} {rs : List Record} {fn : String} {fe : FileEntry} :
    fileAt (r :: rs) 0 fn fe ↔ (fn, fe) ∈ r.files := by
  unfold fileAt
  simp

theorem fileAt_cons_succ {r : Record} {rs : List Record} {j : Nat} {fn : String}
    {fe : FileEntry} : fileAt (r :: rs) (j + 1) fn fe ↔ fileAt rs j fn fe := by
  unfold fileAt
  simp

theorem usedByProj_ext : ∀ (X Y : List Record), skeleton X = skeleton Y →
    (∀ j fn feX feY, fileAt X j fn feX → fileAt Y j fn feY → feX.usedBy = feY.usedBy) →
    usedByProj X = usedByProj Y := by
  intro X
  induction X with
  | nil =>
    intro Y hskel _
    cases Y with
    | nil => rfl
    | cons r' rs' => exact absurd hskel (by simp [skeleton])
  | cons r rs ih =>
    intro Y hskel hub
    cases Y with
    | nil => exact absurd hskel (by simp [skeleton])
    | cons r' rs' =>
      simp only [skeleton, List.map_cons, List.cons.injEq] at hskel
      obtain ⟨hhead, htail⟩ := hskel
      simp only [recSkel, Prod.mk.injEq] at hhead
      obtain ⟨hfp, _, hfiles⟩ := hhead
      simp only [usedByProj, List.map_cons, List.cons.injEq]
      refine ⟨?_, ?_⟩
      · rw [Prod.mk.injEq]
        refine ⟨hfp, ?_⟩
        have hub0 : ∀ fn feX feY, (fn, feX) ∈ r.files → (fn, feY) ∈ r'.files →
            feX.usedBy = feY.usedBy := by
          intro fn feX feY hX hY
          exact hub 0 fn feX feY (fileAt_cons_zero.mpr hX) (fileAt_cons_zero.mpr hY)
        clear hub htail ih hfp
        -- walk the two file lists in lock step, using the name equality from
        -- `hfiles` and the per-name usedBy equality from `hub0`
        revert hfiles hub0
        generalize r'.files = fl'
        induction r.files generalizing fl' with
        | nil =>
          intro hfiles _
          cases fl' with
          | nil => rfl
          | cons g gs => exact absurd hfiles (by simp)
        | cons f fs ihf =>
          intro hfiles hub0
          cases fl' with
          | nil => exact absurd hfiles (by simp)
          | cons g gs =>
            simp only [List.map_cons, List.cons.injEq, Prod.mk.injEq] at hfiles
            obtain ⟨⟨hname, _⟩, hrest⟩ := hfiles
            simp only [List.map_cons, List.cons.injEq]
            refine ⟨?_, ?_⟩
            · rw [Prod.mk.injEq]
              refine ⟨hname, ?_⟩
              refine hub0 f.1 f.2 g.2 ?_ ?_
              · exact (Prod.mk.eta ▸ List.mem_cons_self f fs)
              · rw [hname]
                exact (Prod.mk.eta ▸ List.mem_cons_self g gs)
            · refine ihf gs hrest ?_
              intro fn feX feY hX hY
              exact hub0 fn feX feY (List.mem_cons_of_mem f hX) (List.mem_cons_of_mem g hY)
      · refine ih rs' htail ?_
        intro j fn feX feY hX hY
        exact hub (j + 1) fn feX feY (fileAt_cons_succ.mpr hX) (fileAt_cons_succ.mpr hY)

/-- C2's core: a second Builder run on the first run's output reproduces the
same `usedBy` lists, in the same order. -/
theorem build_idempotent_usedBy (aliases : AliasTable) (now₁ now₂ : String) (ds : List Record) :
    usedByProj (build aliases now₂ (build aliases now₁ ds)) = usedByProj (build aliases now₁ ds) := by
  set ds1 := build aliases now₁ ds with hds1
  have hskel1 : skeleton ds1 = skeleton ds := skeleton_build aliases now₁ ds
  have hshape1 : shape ds1 = shape ds := shape_eq_of_skeleton hskel1
  have hidx : buildIndex ds1 = buildIndex ds := buildIndex_eq_of_shape hshape1
  have hitems : usesItems ds1 = usesItems ds := usesItems_eq_of_shape hshape1
  refine usedByProj_ext _ _ (skeleton_build aliases now₂ ds1) ?_
  intro j fn feX feY hX hY
  rcases build_usedBy_char aliases now₂ ds1 j fn feX hX with ⟨hndX, hsX, hmemX⟩
  -- the second operand `feY` is an entry of `ds1 = build aliases now₁ ds`
  rcases build_usedBy_char aliases now₁ ds j fn feY (hds1 ▸ hY) with ⟨hndY, hsY, hmemY⟩
  refine sorted_nodup_ext (fun a b => strLeB_antisymm) feX.usedBy feY.usedBy hsX hsY hndX hndY ?_
  intro p
  rw [hmemX p, hmemY p]
  rw [← exists_usesItems_iff, ← exists_usesItems_iff]
  rw [hidx, hitems]

end DocMeta

namespace DocMeta

/-! ## `graph.js`: the dependency graph and its analyses -/

/-- One node of the analyzer's graph (`buildGraph`'s per-file value). -/
structure GNode where
  purpose : String := ""
  exports : List String := []
  uses : List String := []
  usedBy : List String := []
  calls : List String := []
  calledBy : List String := []
  deriving Repr, DecidableEq

/-- The analyzer's `nodes` map: canonical path → node, in insertion order. -/
abbrev Graph := List (String × GNode)

/-- `buildGraph` on already-loaded records: index every file by
`normalizedFolderPath + '/' + fileName` (plain concatenation, with the root
folder written as the empty prefix). -/
def graphOfRecords (ds : List Record) : Graph :=
  ds.foldl
    (fun nodes r =>
      let nfp := if r.folderPath = "/" then "" else r.folderPath
      r.files.foldl
        (fun nodes f =>
          mapSet nodes (nfp ++ "/" ++ f.1)
            { purpose := f.2.purpose, exports := f.2.exports, uses := f.2.uses,
              usedBy := f.2.usedBy, calls := f.2.calls, calledBy := f.2.calledBy })
        nodes)
    []

/-! ### Cycle detection (`findCycles`) -/

/-- The mutable state of the cycle sweep: found cycles, the visited set, the
recursion stack and the path stack. -/
structure CycSt where
  cycles : List (List String) := []
  visited : List String := []
  recStack : List String := []
  pathSt : List String := []
  deriving Repr, DecidableEq

/-- `cycle.join(' -> ')`, the dedup key for cycles. -/
def cycleKey (c : List String) : String := String.intercalate " -> " c

/-- Rotate a closed walk so that it starts at its lexicographically smallest
member: the `reduce`-computed index of the first minimum over
`cycle.slice(0, -1)`, then `cycle.slice(minIdx, -1).concat(cycle.slice(0,
minIdx + 1))`. -/
def normalizeCycle (cycle : List String) : List String :=
  let core := cycle.dropLast
  let minIdx := (core.enum).foldl
    (fun m pr => if strLtB pr.2 (core.getD m "") = true then pr.1 else m) 0
  core.drop minIdx ++ cycle.take (minIdx + 1)

/-- Record a normalized cycle unless its key was already seen. -/
def addCycle (cycles : List (List String)) (nc : List String) : List (List String) :=
  if cycles.any (fun c => cycleKey c = cycleKey nc) then cycles else cycles ++ [nc]

/-- The loose reference resolution of the cycle sweep: the first node whose
path ends with or contains the raw reference text. -/
def findFirstMatch (nodes : Graph) (dep : String) : Option String :=
  (nodes.find? (fun p => strEnds p.1 dep || strContains p.1 dep)).map (fun p => p.1)

/-- `dfsUses`.  The fuel bounds the recursion depth; every nested call either
returns at once or marks an unvisited node first, so a depth of
`nodes.length + 1` is never exhausted. -/
def dfsUses (nodes : Graph) : Nat → String → CycSt → CycSt
  | 0, _, st => st
  | fuel + 1, node, st =>
    if lmem node st.recStack then
      match st.pathSt.findIdx? (fun x => x = node) with
      | some cycleStart =>
        let cyc := st.pathSt.drop cycleStart ++ [node]
        { st with cycles := addCycle st.cycles (normalizeCycle cyc) }
      | none => st
    else if lmem node st.visited then st
    else
      let st := { st with
        visited := node :: st.visited
        recStack := node :: st.recStack
        pathSt := st.pathSt ++ [node] }
      let st :=
        match mapGet nodes node with
        | none => st
        | some nd =>
          nd.uses.foldl
            (fun st dep =>
              match findFirstMatch nodes dep with
              | some fp => dfsUses nodes fuel fp st
              | none => st)
            st
      { st with pathSt := st.pathSt.dropLast, recStack := st.recStack.erase node }

/-- `findCycles`: sweep `dfsUses` from every node, resetting the visited,
recursion-stack and path state but keeping the accumulated cycles. -/
def findCycles (nodes : Graph) : List (List String) :=
  nodes.foldl
    (fun acc p =>
      (dfsUses nodes (nodes.length + 1) p.1
        { cycles := acc, visited := [], recStack := [], pathSt := [] }).cycles)
    []

/-! ### Orphans and entry points -/

/-- `uses.some(u => u.startsWith('.') || u.startsWith('@/') || u.startsWith('~/'))`. -/
def hasInternalDeps (nd : GNode) : Bool :=
  nd.uses.any (fun u => strStarts u "." || strStarts u "@/" || strStarts u "~/")

structure OrphanInfo where
  path : String
  purpose : String
  uses : Nat
  deriving Repr, DecidableEq

/-- `findOrphans`: unused, not HTTP-called, not an entry-point pattern, but
with at least one internal-prefix reference; sorted by path. -/
def findOrphans (nodes : Graph) (pats : List (String → Bool)) : List OrphanInfo :=
  let orphans := nodes.foldl
    (fun acc p =>
      if p.2.usedBy.length = 0 then
        if p.2.calledBy.length > 0 then acc
        else if pats.any (fun t => t p.1) then acc
        else if hasInternalDeps p.2 then
          acc ++ [{ path := p.1, purpose := p.2.purpose, uses := p.2.uses.length }]
        else acc
      else acc)
    []
  insSort (fun a b => strLeB a.path b.path) orphans

structure EntryInfo where
  path : String
  purpose : String
  dependents : Nat
  deriving Repr, DecidableEq

/-- `/\/(cli|main|index|server|app|page)\.[jt]sx?$/.test(filePath)`. -/
def isLikelyEntryName (fp : String) : Bool :=
  (["cli", "main", "index", "server", "app", "page"]).any fun n =>
    (["js", "jsx", "ts", "tsx"]).any fun e => strEnds fp ("/" ++ n ++ "." ++ e)

/-- `findEntryPoints`: nodes with no internal-prefix references, sorted by
number of dependents (most first). -/
def findEntryPoints (nodes : Graph) : List EntryInfo :=
  let eps := nodes.foldl
    (fun acc p =>
      if hasInternalDeps p.2 then acc
      else
        let isLikelyEntry := isLikelyEntryName p.1 || strStarts p.1 "/bin/" ||
          strStarts p.1 "/app/" || decide (p.2.usedBy.length > 0)
        if isLikelyEntry || p.2.usedBy.length = 0 then
          acc ++ [{ path := p.1, purpose := p.2.purpose, dependents := p.2.usedBy.length }]
        else acc)
    []
  insSort (fun a b => b.dependents ≤ a.dependents) eps

end DocMeta

namespace DocMeta

/-! ### Cluster detection (`findClusters`) -/

/-- The analyzer's loose import resolution: exact path match, `@/`/`~/` alias
candidates, relative basename candidates, then a substring match.  The
`fromDir` parameter mirrors the unused second parameter of the source. -/
def resolveImport (nodes : Graph) (importPath : String) (fromDir : String) : Option String :=
  match nodes.find? (fun p => p.1 = importPath) with
  | some p => some p.1
  | none =>
    let aliasCand : Option String :=
      if strStarts importPath "@/" || strStarts importPath "~/" then
        let aliasPath := "/" ++ strDrop importPath 2
        (nodes.find? (fun p =>
          p.1 = aliasPath || p.1 = aliasPath ++ ".ts" || p.1 = aliasPath ++ ".tsx" ||
          p.1 = aliasPath ++ ".js" || p.1 = aliasPath ++ ".jsx" ||
          p.1 = aliasPath ++ "/index.ts" || p.1 = aliasPath ++ "/index.tsx" ||
          p.1 = aliasPath ++ "/index.js")).map (fun p => p.1)
      else none
    match aliasCand with
    | some fp => some fp
    | none =>
      let relCand : Option String :=
        if strStarts importPath "." then
          let b1 := if strStarts importPath "./" then strDrop importPath 2 else importPath
          let baseName := if strStarts b1 "../" then strDrop b1 3 else b1
          (nodes.find? (fun p =>
            strEnds p.1 ("/" ++ baseName ++ ".js") || strEnds p.1 ("/" ++ baseName ++ ".ts") ||
            strEnds p.1 ("/" ++ baseName ++ ".tsx") || strEnds p.1 ("/" ++ baseName) ||
            strEnds p.1 ("/" ++ baseName ++ "/index.js") ||
            strEnds p.1 ("/" ++ baseName ++ "/index.ts"))).map (fun p => p.1)
        else none
      match relCand with
      | some fp => some fp
      | none => (nodes.find? (fun p => strContains p.1 importPath)).map (fun p => p.1)

/-- Step 1 of `findClusters`: the entry-point set (insertion-ordered). -/
def clusterEntryPoints (nodes : Graph) (pats : List (String → Bool)) : List String :=
  let e1 := nodes.foldl
    (fun acc p => if pats.any (fun t => t p.1) then listAdd acc p.1 else acc) []
  nodes.foldl
    (fun acc p =>
      if p.2.usedBy.length = 0 then
        if p.2.calledBy.length > 0 then listAdd acc p.1
        else if hasInternalDeps p.2 then acc
        else listAdd acc p.1
      else acc)
    e1

/-- Step 2 of `findClusters`: the recursive `traverse`, with a per-entry-point
fresh `visited` set and a shared `reachable` set. -/
def traverseGo (nodes : Graph) : Nat → String → List String × List String →
    List String × List String
  | 0, _, s => s
  | fuel + 1, fp, s =>
    if lmem fp s.1 then s
    else
      let s := (fp :: s.1, listAdd s.2 fp)
      match mapGet nodes fp with
      | none => s
      | some nd =>
        nd.uses.foldl
          (fun s dep =>
            match resolveImport nodes dep fp with
            | some r => if (mapGet nodes r).isSome then traverseGo nodes fuel r s else s
            | none => s)
          s

/-- All nodes reachable from the entry points by forward `uses` traversal. -/
def reachableFrom (nodes : Graph) (eps : List String) : List String :=
  eps.foldl (fun reach ep => (traverseGo nodes (nodes.length + 1) ep ([], reach)).2) []

/-- Step 3 of `findClusters`: the isolated set, in node order. -/
def isolatedList (nodes : Graph) (pats : List (String → Bool)) : List String :=
  let reach := reachableFrom nodes (clusterEntryPoints nodes pats)
  nodes.foldl (fun acc p => if lmem p.1 reach then acc else acc ++ [p.1]) []

/-- The BFS of `buildCluster`: pop the queue front, collect isolated files,
enqueue their isolated dependencies and dependents.  Returns the cluster and
the updated `assigned` set.  The fuel bounds the number of loop iterations;
every file is expanded at most once, so `2 +` the total number of `uses` and
`usedBy` edges is never exhausted. -/
def bfsGo (nodes : Graph) (isolated : List String) :
    Nat → List String → List String → List String → List String × List String
  | 0, _, cluster, assigned => (cluster, assigned)
  | _ + 1, [], cluster, assigned => (cluster, assigned)
  | fuel + 1, file :: queue, cluster, assigned =>
    if lmem file cluster || !lmem file isolated then
      bfsGo nodes isolated fuel queue cluster assigned
    else
      let cluster := cluster ++ [file]
      let assigned := listAdd assigned file
      match mapGet nodes file with
      | none => bfsGo nodes isolated fuel queue cluster assigned
      | some nd =>
        let q1 := nd.uses.foldl
          (fun q dep =>
            match resolveImport nodes dep file with
            | some r => if lmem r isolated && !lmem r cluster then q ++ [r] else q
            | none => q)
          queue
        let q2 := nd.usedBy.foldl
          (fun q user => if lmem user isolated && !lmem user cluster then q ++ [user] else q)
          q1
        bfsGo nodes isolated fuel q2 cluster assigned

/-- The loop-iteration budget for `bfsGo`. -/
def graphEdgesBound (nodes : Graph) : Nat :=
  nodes.foldl (fun a p => a + p.2.uses.length + p.2.usedBy.length) 0

structure ClusterFile where
  path : String
  purpose : String
  uses : Nat
  usedBy : Nat
  deriving Repr, DecidableEq

structure Cluster where
  size : Nat
  files : List ClusterFile
  deriving Repr, DecidableEq

/-- The emitted file records of one cluster, sorted by path. -/
def clusterFilesOf (nodes : Graph) (fps : List String) : List ClusterFile :=
  insSort (fun a b => strLeB a.path b.path)
    (fps.map (fun f =>
      let nd := (mapGet nodes f).getD {}
      { path := f, purpose := nd.purpose, uses := nd.uses.length,
        usedBy := nd.usedBy.length }))

/-- One iteration of the cluster loop: skip already-assigned files, otherwise
run `buildCluster` from the file and push the cluster if it is nonempty. -/
def clusterStep (nodes : Graph) (isolated : List String)
    (acc : List Cluster × List String) (file : String) : List Cluster × List String :=
  if lmem file acc.2 then acc
  else
    let pr := bfsGo nodes isolated (2 + graphEdgesBound nodes) [file] [] acc.2
    if pr.1.length > 0 then
      let clusterFiles := clusterFilesOf nodes pr.1
      (acc.1 ++ [{ size := clusterFiles.length, files := clusterFiles }], pr.2)
    else (acc.1, pr.2)

/-- `findClusters`: group the isolated files into connected components over
the union of the (loosely resolved) `uses` edges and the `usedBy` edges,
restricted to the isolated set; emit the groups sorted largest first. -/
def findClusters (nodes : Graph) (pats : List (String → Bool)) : List Cluster :=
  let isolated := isolatedList nodes pats
  if isolated.length = 0 then []
  else
    let acc := isolated.foldl (clusterStep nodes isolated) ([], [])
    insSort (fun a b => b.size ≤ a.size) acc.1

/-! ### Blast radius (`calculateBlastRadius`) -/

structure BRState where
  visited : List String := []
  direct : List String := []
  transitive : List String := []
  httpCallers : List String := []
  deriving Repr, DecidableEq

/-- The recursive `collectDependents`.  The fuel bounds the recursion depth;
every nested call marks a previously unvisited dependent, so `1 +` the number
of `usedBy` entries plus one for the target is never exhausted. -/
def brGo (nodes : Graph) : Nat → String → Nat → BRState → BRState
  | 0, _, _, st => st
  | fuel + 1, fp, depth, st =>
    if lmem fp st.visited then st
    else
      let st := { st with visited := fp :: st.visited }
      match mapGet nodes fp with
      | none => st
      | some nd =>
        let st := nd.usedBy.foldl
          (fun s dep =>
            if lmem dep s.visited then s
            else
              let s := if depth = 0 then { s with direct := s.direct ++ [dep] }
                       else { s with transitive := s.transitive ++ [dep] }
              brGo nodes fuel dep (depth + 1) s)
          st
        if depth = 0 then
          { st with httpCallers := st.httpCallers ++
              nd.calledBy.filter (fun c => !lmem c st.visited && !lmem c st.direct) }
        else st

/-- The recursion-depth budget for `brGo`. -/
def brFuel (nodes : Graph) : Nat :=
  2 + (nodes.flatMap (fun p => p.2.usedBy)).length

structure BlastRadius where
  file : String
  purpose : String
  direct : List String
  transitive : List String
  httpCallers : List String
  total : Nat
  deriving Repr, DecidableEq

/-- Target location in `calculateBlastRadius`: exact match on the
slash-prefixed path, else the first suffix/substring match. -/
def brActual (nodes : Graph) (targetPath : String) : Option String :=
  let normalized := if strStarts targetPath "/" then targetPath else "/" ++ targetPath
  if (mapGet nodes normalized).isSome then some normalized
  else (nodes.find? (fun p => strEnds p.1 targetPath || strContains p.1 targetPath)).map
    (fun p => p.1)

/-- `calculateBlastRadius`: locate the target, collect dependents, then sort
each list; `none` models the `{ error: ... }` result. -/
def calculateBlastRadius (nodes : Graph) (targetPath : String) : Option BlastRadius :=
  match brActual nodes targetPath with
  | none => none
  | some actualPath =>
    let st := brGo nodes (brFuel nodes) actualPath 0 {}
    some
      { file := actualPath
        purpose := ((mapGet nodes actualPath).getD {}).purpose
        direct := insSort strLeB st.direct
        transitive := insSort strLeB st.transitive
        httpCallers := insSort strLeB st.httpCallers
        total := st.direct.length + st.transitive.length + st.httpCallers.length }

end DocMeta

namespace DocMeta

/-! ## Concrete scenarios -/

/-- Scenario A of the spec: `/src/a.js → ./b → ./c → ./a`. -/
def cycleRecords : List Record :=
  [{ folderPath := "/src",
     files := [("a.js", { uses := ["./b"] }),
               ("b.js", { uses := ["./c"] }),
               ("c.js", { uses := ["./a"] })] }]

/-- The record written back for `cycleRecords` ("T" stands for the
timestamp). -/
def cycleBuiltRec : Record :=
  { folderPath := "/src",
    files := [("a.js", { uses := ["./b"], usedBy := ["/src/c.js"] }),
              ("b.js", { uses := ["./c"], usedBy := ["/src/a.js"] }),
              ("c.js", { uses := ["./a"], usedBy := ["/src/b.js"] })],
    updated := "T" }

/-- Scenario D of the spec: a single file using `./missing`. -/
def missingRecords : List Record :=
  [{ folderPath := "/src", files := [("app.js", { uses := ["./missing"] })] }]

/-- A file whose only reference is the external package `react`. -/
def externalRecords : List Record :=
  [{ folderPath := "/src", files := [("app.js", { uses := ["react"] })] }]

/-! ## C1 -/

/-- C1: for every set of loaded records, immediately after the Builder
completes a run, every node's `usedBy` list is exactly (duplicate-free,
sorted) the set of canonical paths of the files with at least one raw
reference in their `uses` that resolves — through the Builder's pipeline of
`resolvePathAlias`, extension-stripping normalization and the three-way index
lookup — to that node; the characterization never mentions the input `usedBy`
lists, so `usedBy` is fully recomputed from scratch on every run. -/
theorem c1_usedBy_after_build (aliases : AliasTable) (now : String) (ds : List Record)
    (j : Nat) (rec : Record) (fn : String) (fe : FileEntry)
    (hrec : (build aliases now ds)[j]? = some rec) (hmem : (fn, fe) ∈ rec.files) :
    fe.usedBy.Nodup ∧
    fe.usedBy.Pairwise (fun a b => strLeB a b = true) ∧
    ∀ p, p ∈ fe.usedBy ↔
      ∃ r' ∈ ds, ∃ f ∈ r'.files, p = posixJoin r'.folderPath f.1 ∧
        ∃ u ∈ f.2.uses, landsOn aliases (buildIndex ds) r'.folderPath u = some (j, fn) :=
  build_usedBy_char aliases now ds j fn fe ⟨rec, hrec, hmem⟩

theorem c1_usedBy_after_build_witness :
    ({ uses := ["./c"], usedBy := ["/src/a.js"] } : FileEntry).usedBy.Nodup ∧
    ({ uses := ["./c"], usedBy := ["/src/a.js"] } : FileEntry).usedBy.Pairwise
      (fun a b => strLeB a b = true) ∧
    ∀ p, p ∈ ({ uses := ["./c"], usedBy := ["/src/a.js"] } : FileEntry).usedBy ↔
      ∃ r' ∈ cycleRecords, ∃ f ∈ r'.files, p = posixJoin r'.folderPath f.1 ∧
        ∃ u ∈ f.2.uses,
          landsOn defaultAliases (buildIndex cycleRecords) r'.folderPath u = some (0, "b.js") :=
  c1_usedBy_after_build defaultAliases "T" cycleRecords 0 cycleBuiltRec "b.js"
    { uses := ["./c"], usedBy := ["/src/a.js"] } (by decide) (by decide)

/-! ## C2 -/

/-- C2: for every input record set, running the Builder twice consecutively
with unchanged inputs produces identical `usedBy` lists — the second run
yields the same members in the same order as the first run, for every file of
every record. -/
theorem c2_build_idempotent (aliases : AliasTable) (now₁ now₂ : String) (ds : List Record) :
    usedByProj (build aliases now₂ (build aliases now₁ ds)) =
      usedByProj (build aliases now₁ ds) :=
  build_idempotent_usedBy aliases now₁ now₂ ds

/-! ## C8 -/

/-- C8 counterexample: the raw reference `react` does not land on any indexed
node, yet the completed run's unresolved map is empty — references that fail
alias resolution are skipped silently, so not *every* non-landing reference
is recorded. -/
theorem c8_counterexample :
    (buildFull defaultAliases "T" externalRecords).unresolved = [] ∧
    landsOn defaultAliases (buildIndex externalRecords) "/src" "react" = none ∧
    resolvePathAlias "react" defaultAliases "/src" = none := by
  refine ⟨?_, ?_, ?_⟩ <;> decide

/-- C8 (amended): every raw reference that *resolves* (relative, or through an
alias) to a non-empty path but does not land on an indexed node is recorded
in the unresolved diagnostic map, keyed by the reference with the list of
its referencing nodes, and the run always completes; references that fail
alias resolution (external packages) or resolve to the empty string (`if
(!resolved) continue` — the empty string is falsy) are skipped silently.
In particular `/src/app.js` with
`uses: ["./missing"]` yields a completed build whose unresolved report is
exactly `"./missing" -> ["/src/app.js"]`. -/
theorem c8_amended :
    (∀ (aliases : AliasTable) (now : String) (ds : List Record) (u : String),
      mapGet (buildFull aliases now ds).unresolved u =
        nonEmptyOpt (unresolvedSources aliases (buildIndex ds) ds u)) ∧
    (buildFull defaultAliases "T" missingRecords).unresolved =
      [("./missing", ["/src/app.js"])] := by
  refine ⟨buildFull_unresolved_char, ?_⟩
  decide

/-! ## C9 -/

/-- C9: the Builder's write-back mutates only each file entry's `usedBy`
field and the record-level `updated` timestamp: the folder path, every
record-level unknown field, the file names and order, and every file's
`purpose`, `exports`, `uses`, `calls`, `calledBy` and unknown fields are
written back unchanged, while `updated` is set to the run's timestamp. -/
theorem c9_build_frame (aliases : AliasTable) (now : String) (ds : List Record) :
    skeleton (build aliases now ds) = skeleton ds ∧
    ∀ r ∈ build aliases now ds, r.updated = now := by
  refine ⟨skeleton_build aliases now ds, ?_⟩
  intro r hr
  have hb : build aliases now ds = stampUpdated now
      (sortUsedBy (step3 aliases (buildIndex ds) (clearUsedBy ds)
        { recs := clearUsedBy ds, unresolved := [], links := 0 }).recs) := rfl
  rw [hb, stampUpdated] at hr
  rcases List.mem_map.mp hr with ⟨r₀, _, heq⟩
  rw [← heq]

end DocMeta

namespace DocMeta

theorem c9_build_frame_witness :
    skeleton (build defaultAliases "T" cycleRecords) = skeleton cycleRecords ∧
    cycleBuiltRec.updated = "T" :=
  ⟨(c9_build_frame defaultAliases "T" cycleRecords).1,
   (c9_build_frame defaultAliases "T" cycleRecords).2 cycleBuiltRec (by decide)⟩

/-! ## Membership in accumulating folds -/

theorem mem_foldl_pushIf {α β : Type} [DecidableEq β] (cond : α → Bool) (g : α → β) :
    ∀ (l : List α) (acc : List β) (x : β),
      x ∈ l.foldl (fun acc p => if cond p then acc ++ [g p] else acc) acc ↔
        x ∈ acc ∨ ∃ p ∈ l, cond p = true ∧ x = g p := by
  intro l
  induction l with
  | nil =>
    intro acc x
    simp
  | cons p ps ih =>
    intro acc x
    rw [List.foldl_cons]
    by_cases hc : cond p = true
    · rw [if_pos hc, ih]
      constructor
      · rintro (hx | hrest)
        · rcases List.mem_append.mp hx with hx | hx
          · exact Or.inl hx
          · exact Or.inr ⟨p, List.mem_cons_self p ps, hc, (List.mem_singleton.mp hx)⟩
        · rcases hrest with ⟨q, hq, hcq, hxq⟩
          exact Or.inr ⟨q, List.mem_cons_of_mem p hq, hcq, hxq⟩
      · rintro (hx | ⟨q, hq, hcq, hxq⟩)
        · exact Or.inl (List.mem_append.mpr (Or.inl hx))
        · rcases List.mem_cons.mp hq with rfl | hq
          · exact Or.inl (List.mem_append.mpr (Or.inr (List.mem_singleton.mpr hxq)))
          · exact Or.inr ⟨q, hq, hcq, hxq⟩
    · rw [if_neg hc, ih]
      constructor
      · rintro (hx | ⟨q, hq, hcq, hxq⟩)
        · exact Or.inl hx
        · exact Or.inr ⟨q, List.mem_cons_of_mem p hq, hcq, hxq⟩
      · rintro (hx | ⟨q, hq, hcq, hxq⟩)
        · exact Or.inl hx
        · rcases List.mem_cons.mp hq with rfl | hq
          · exact absurd hcq hc
          · exact Or.inr ⟨q, hq, hcq, hxq⟩


/-! ## C6 -/

/-- The entry-point classifier of spec section 4.3: a pattern match, or the
zero-inbound-and-zero-internal-references heuristic.  (Definition written to
the spec's words, for comparison against `findOrphans`.) -/
def entryPoint43 (pats : List (String → Bool)) (p : String) (nd : GNode) : Prop :=
  pats.any (fun t => t p) = true ∨ (nd.usedBy = [] ∧ hasInternalDeps nd = false)

/-- The four stacked guards of `findOrphans`, as one condition. -/
def orphanCond (pats : List (String → Bool)) (q : String × GNode) : Bool :=
  decide (q.2.usedBy.length = 0) && !(decide (q.2.calledBy.length > 0)) &&
    !(pats.any (fun t => t q.1)) && hasInternalDeps q.2

theorem mem_findOrphans {nodes : Graph} {pats : List (String → Bool)} {o : OrphanInfo} :
    o ∈ findOrphans nodes pats ↔
      ∃ q ∈ nodes, orphanCond pats q = true ∧
        o = { path := q.1, purpose := q.2.purpose, uses := q.2.uses.length } := by
  have hbody : (fun (acc : List OrphanInfo) (p : String × GNode) =>
      if p.2.usedBy.length = 0 then
        if p.2.calledBy.length > 0 then acc
        else if pats.any (fun t => t p.1) then acc
        else if hasInternalDeps p.2 then
          acc ++ [{ path := p.1, purpose := p.2.purpose, uses := p.2.uses.length }]
        else acc
      else acc) =
      (fun acc q =>
        if orphanCond pats q then
          acc ++ [{ path := q.1, purpose := q.2.purpose, uses := q.2.uses.length }]
        else acc) := by
    funext acc q
    by_cases h1 : q.2.usedBy.length = 0
    · by_cases h2 : q.2.calledBy.length > 0
      · simp [orphanCond, h1, h2]
      · by_cases h3 : pats.any (fun t => t q.1) = true
        · simp [orphanCond, h1, h2, h3]
        · by_cases h4 : hasInternalDeps q.2 = true
          · simp [orphanCond, h1, h2, h3, h4]
          · simp [orphanCond, h1, h2, h3, h4]
    · simp [orphanCond, h1]
  show o ∈ insSort (fun a b => strLeB a.path b.path) (nodes.foldl _ []) ↔ _
  rw [mem_insSort, hbody, mem_foldl_pushIf]
  simp

/-- C6: a node is reported as an orphan iff its `usedBy` is empty, it is not
an entry point in the sense of the spec's classifier (pattern match or the
zero-internal-references heuristic), it has at least one internally-prefixed
reference (`.`/`@/`/`~/`) in `uses`, and its `calledBy` set is empty; in
particular a node with zero internal references is never reported even when
nothing uses it. -/
theorem c6_orphans_iff (nodes : Graph) (pats : List (String → Bool)) (p : String) :
    (∃ o ∈ findOrphans nodes pats, o.path = p) ↔
      ∃ nd, (p, nd) ∈ nodes ∧ nd.usedBy = [] ∧ nd.calledBy = [] ∧
        ¬ entryPoint43 pats p nd ∧ hasInternalDeps nd = true := by
  constructor
  · rintro ⟨o, ho, hop⟩
    rcases mem_findOrphans.mp ho with ⟨q, hq, hcond, hoq⟩
    simp only [orphanCond, Bool.and_eq_true, decide_eq_true_eq, Bool.not_eq_true',
      decide_eq_false_iff_not] at hcond
    obtain ⟨⟨⟨hlen, hcb⟩, hpat⟩, hint⟩ := hcond
    have hpath : q.1 = p := by rw [← hop, hoq]
    refine ⟨q.2, by rw [← hpath]; exact (Prod.mk.eta ▸ hq), ?_, ?_, ?_, hint⟩
    · exact List.length_eq_zero.mp hlen
    · exact List.length_eq_zero.mp (Nat.eq_zero_of_not_pos hcb)
    · rintro (hpats | ⟨_, hnint⟩)
      · rw [hpath] at hpat
        exact absurd hpats (by simp [hpat])
      · rw [hint] at hnint
        exact Bool.true_eq_false ▸ hnint ▸ rfl
  · rintro ⟨nd, hmem, hub, hcb, hnep, hint⟩
    refine ⟨{ path := p, purpose := nd.purpose, uses := nd.uses.length }, ?_, rfl⟩
    refine mem_findOrphans.mpr ⟨(p, nd), hmem, ?_, rfl⟩
    have hpat : pats.any (fun t => t p) = false := by
      cases hp : pats.any (fun t => t p) with
      | true => exact absurd (Or.inl hp) hnep
      | false => rfl
    simp [orphanCond, hub, hcb, hpat, hint]

/-! ## C10 -/

/-- The push condition of `findEntryPoints`, as one condition. -/
theorem mem_findEntryPoints {nodes : Graph} {e : EntryInfo} :
    e ∈ findEntryPoints nodes ↔
      ∃ q ∈ nodes, hasInternalDeps q.2 = false ∧
        e = { path := q.1, purpose := q.2.purpose, dependents := q.2.usedBy.length } := by
  have hbody : (fun (acc : List EntryInfo) (p : String × GNode) =>
      if hasInternalDeps p.2 then acc
      else
        let isLikelyEntry := isLikelyEntryName p.1 || strStarts p.1 "/bin/" ||
          strStarts p.1 "/app/" || decide (p.2.usedBy.length > 0)
        if isLikelyEntry || p.2.usedBy.length = 0 then
          acc ++ [{ path := p.1, purpose := p.2.purpose, dependents := p.2.usedBy.length }]
        else acc) =
      (fun acc q =>
        if !hasInternalDeps q.2 then
          acc ++ [{ path := q.1, purpose := q.2.purpose, dependents := q.2.usedBy.length }]
        else acc) := by
    funext acc q
    by_cases h1 : hasInternalDeps q.2 = true
    · simp [h1]
    · rcases Nat.eq_zero_or_pos q.2.usedBy.length with hlen | hlen
      · simp [h1, hlen]
      · have : decide (q.2.usedBy.length > 0) = true := decide_eq_true hlen
        simp [h1, this, Nat.pos_iff_ne_zero.mp hlen]
  show e ∈ insSort (fun a b => b.dependents ≤ a.dependents) (nodes.foldl _ []) ↔ _
  rw [mem_insSort, hbody, mem_foldl_pushIf]
  simp

/-- C10: the entry-points listing contains a node iff none of its raw
references starts with `.`, `@/` or `~/`; the name-pattern and inbound-edge
conditions never exclude such a node, because it is pushed both when its
`usedBy` is non-empty and when it is empty. -/
theorem c10_entryPoints_iff (nodes : Graph) (p : String) :
    (∃ e ∈ findEntryPoints nodes, e.path = p) ↔
      ∃ nd, (p, nd) ∈ nodes ∧ ∀ u ∈ nd.uses,
        strStarts u "." = false ∧ strStarts u "@/" = false ∧ strStarts u "~/" = false := by
  constructor
  · rintro ⟨e, he, hep⟩
    rcases mem_findEntryPoints.mp he with ⟨q, hq, hint, heq⟩
    have hpath : q.1 = p := by rw [← hep, heq]
    refine ⟨q.2, by rw [← hpath]; exact (Prod.mk.eta ▸ hq), ?_⟩
    intro u hu
    have hall : ∀ x ∈ q.2.uses,
        (strStarts x "." = false ∧ strStarts x "@/" = false) ∧ strStarts x "~/" = false := by
      simpa [hasInternalDeps] using hint
    exact ⟨(hall u hu).1.1, (hall u hu).1.2, (hall u hu).2⟩
  · rintro ⟨nd, hmem, hpref⟩
    refine ⟨{ path := p, purpose := nd.purpose, dependents := nd.usedBy.length },
      mem_findEntryPoints.mpr ⟨(p, nd), hmem, ?_, rfl⟩, rfl⟩
    rw [hasInternalDeps, List.any_eq_false]
    intro u hu
    rcases hpref u hu with ⟨h1, h2, h3⟩
    simp [h1, h2, h3]

/-! ## C3 -/

/-- C3 counterexample: on the three-node scenario the build produces exactly
the claimed `usedBy` lists, yet cycle analysis on the built graph reports no
cycles at all (the claim demands exactly one). -/
theorem c3_counterexample :
    build defaultAliases "T" cycleRecords = [cycleBuiltRec] ∧
    findCycles (graphOfRecords (build defaultAliases "T" cycleRecords)) = [] := by
  refine ⟨?_, ?_⟩ <;> decide

/-- C3 (amended): after a build of the three-node scenario,
`a.usedBy = ["/src/c.js"]`, `b.usedBy = ["/src/a.js"]`,
`c.usedBy = ["/src/b.js"]`, and cycle analysis on the built graph reports no
cycles: its loose suffix/containment resolver never matches the relative
references `./a`, `./b`, `./c` against any canonical path, so the cycle is
not discovered. -/
theorem c3_amended :
    mapGet (graphOfRecords (build defaultAliases "T" cycleRecords)) "/src/a.js" =
      some { uses := ["./b"], usedBy := ["/src/c.js"] } ∧
    mapGet (graphOfRecords (build defaultAliases "T" cycleRecords)) "/src/b.js" =
      some { uses := ["./c"], usedBy := ["/src/a.js"] } ∧
    mapGet (graphOfRecords (build defaultAliases "T" cycleRecords)) "/src/c.js" =
      some { uses := ["./a"], usedBy := ["/src/b.js"] } ∧
    findCycles (graphOfRecords (build defaultAliases "T" cycleRecords)) = [] ∧
    findFirstMatch (graphOfRecords (build defaultAliases "T" cycleRecords)) "./b" = none := by
  refine ⟨?_, ?_, ?_, ?_, ?_⟩ <;> decide

end DocMeta

namespace DocMeta

/-! ## C4: the blast-radius DFS invariant -/

theorem length_filter_le_of_imp {α : Type} {p q : α → Bool}
    (himp : ∀ x, q x = true → p x = true) (l : List α) :
    (l.filter q).length ≤ (l.filter p).length := by
  induction l with
  | nil => exact Nat.le_refl _
  | cons a t ih =>
    by_cases hq : q a = true
    · rw [List.filter_cons_of_pos hq, List.filter_cons_of_pos (himp a hq)]
      exact Nat.succ_le_succ ih
    · rw [List.filter_cons_of_neg (by simpa using hq)]
      by_cases hp : p a = true
      · rw [List.filter_cons_of_pos hp]
        exact Nat.le_succ_of_le ih
      · rw [List.filter_cons_of_neg (by simpa using hp)]
        exact ih

theorem length_filter_lt {α : Type} [DecidableEq α] {p q : α → Bool}
    (himp : ∀ x, q x = true → p x = true) {l : List α} {x₀ : α}
    (hx₀ : x₀ ∈ l) (hp : p x₀ = true) (hq : q x₀ = false) :
    (l.filter q).length < (l.filter p).length := by
  induction l with
  | nil => cases hx₀
  | cons a t ih =>
    rcases List.mem_cons.mp hx₀ with rfl | hx₀
    · rw [List.filter_cons_of_pos hp, List.filter_cons_of_neg (by simp [hq])]
      exact Nat.lt_succ_of_le (length_filter_le_of_imp himp t)
    · by_cases hqa : q a = true
      · rw [List.filter_cons_of_pos hqa, List.filter_cons_of_pos (himp a hqa)]
        exact Nat.succ_lt_succ (ih hx₀)
      · rw [List.filter_cons_of_neg (by simpa using hqa)]
        by_cases hpa : p a = true
        · rw [List.filter_cons_of_pos hpa]
          exact Nat.lt_succ_of_lt (ih hx₀)
        · rw [List.filter_cons_of_neg (by simpa using hpa)]
          exact ih hx₀

/-- The termination measure of the blast-radius DFS: how many relevant paths
are still unvisited. -/
def brMeasure (U vis : List String) : Nat :=
  (U.filter (fun x => !lmem x vis)).length

theorem brMeasure_mono {U vis vis' : List String} (h : ∀ x ∈ vis, x ∈ vis') :
    brMeasure U vis' ≤ brMeasure U vis := by
  refine length_filter_le_of_imp (fun x hx => ?_) U
  simp only [Bool.not_eq_true'] at hx ⊢
  cases hmem : lmem x vis with
  | false => rfl
  | true =>
    exact absurd ((lmem_iff x vis').mpr (h x ((lmem_iff x vis).mp hmem))) (by simp [hx])

theorem brMeasure_strict {U vis : List String} {fp : String} (hU : fp ∈ U)
    (hvis : ¬ fp ∈ vis) : brMeasure U (fp :: vis) < brMeasure U vis := by
  refine length_filter_lt (fun x hx => ?_) hU ?_ ?_
  · simp only [Bool.not_eq_true'] at hx ⊢
    cases hmem : lmem x vis with
    | false => rfl
    | true =>
      have : x ∈ fp :: vis := List.mem_cons_of_mem fp ((lmem_iff x vis).mp hmem)
      exact absurd ((lmem_iff x (fp :: vis)).mpr this) (by simp [hx])
  · simp only [Bool.not_eq_true']
    cases hmem : lmem fp vis with
    | false => rfl
    | true => exact absurd ((lmem_iff fp vis).mp hmem) hvis
  · simp

theorem mapGet_some_mem {α : Type} {m : List (String × α)} {k : String} {v : α}
    (h : mapGet m k = some v) : ∃ pr ∈ m, pr.1 = k ∧ pr.2 = v := by
  rw [mapGet] at h
  cases hfind : m.find? (fun p => p.1 = k) with
  | none => rw [hfind] at h; cases h
  | some pr =>
    rw [hfind] at h
    exact ⟨pr, List.mem_of_find?_eq_some hfind, by simpa using List.find?_some hfind,
      Option.some.inj h⟩

theorem nodup_push_left {d t : List String} {dep : String} (h : (d ++ t).Nodup)
    (hdep : ¬ dep ∈ d ++ t) : ((d ++ [dep]) ++ t).Nodup := by
  have hperm : List.Perm ((d ++ [dep]) ++ t) ((d ++ t) ++ [dep]) := by
    rw [List.append_assoc, List.append_assoc]
    exact List.Perm.append_left d (List.perm_append_comm)
  refine hperm.symm.nodup ?_
  refine List.Nodup.append h (List.nodup_singleton dep) ?_
  intro x hx hx'
  rw [List.mem_singleton] at hx'
  subst hx'
  exact hdep hx

theorem nodup_push_right {d t : List String} {dep : String} (h : (d ++ t).Nodup)
    (hdep : ¬ dep ∈ d ++ t) : (d ++ (t ++ [dep])).Nodup := by
  have hperm : List.Perm (d ++ (t ++ [dep])) ((d ++ t) ++ [dep]) := by
    rw [List.append_assoc]
  refine hperm.symm.nodup ?_
  refine List.Nodup.append h (List.nodup_singleton dep) ?_
  intro x hx hx'
  rw [List.mem_singleton] at hx'
  subst hx'
  exact hdep hx

/-- What any `brGo` call guarantees, given enough fuel: `direct` and
`transitive` stay jointly duplicate-free and inside the visited set, the
visited set only grows, `direct` grows only during the root (depth-0) call
and only with dependents of the current node, and `httpCallers` changes only
at the end of the root call, by the filtered `calledBy` push over the final
visited and direct sets. -/
theorem brGo_spec (nodes : Graph) (U : List String)
    (hUB : ∀ q ∈ nodes, ∀ x ∈ q.2.usedBy, x ∈ U) :
    ∀ (fuel : Nat) (fp : String) (depth : Nat) (st : BRState),
      fp ∈ U →
      brMeasure U st.visited < fuel →
      (st.direct ++ st.transitive).Nodup →
      (∀ x ∈ st.direct ++ st.transitive, x ∈ st.visited ∨ x = fp) →
      ((brGo nodes fuel fp depth st).direct ++
          (brGo nodes fuel fp depth st).transitive).Nodup ∧
      (∀ x ∈ (brGo nodes fuel fp depth st).direct ++ (brGo nodes fuel fp depth st).transitive,
        x ∈ (brGo nodes fuel fp depth st).visited) ∧
      (∀ x ∈ st.visited, x ∈ (brGo nodes fuel fp depth st).visited) ∧
      (∃ newD, (brGo nodes fuel fp depth st).direct = st.direct ++ newD ∧
        (depth ≠ 0 → newD = []) ∧
        (∀ x ∈ newD, ∃ nd, mapGet nodes fp = some nd ∧ x ∈ nd.usedBy)) ∧
      (∃ newT, (brGo nodes fuel fp depth st).transitive = st.transitive ++ newT) ∧
      (depth ≠ 0 → (brGo nodes fuel fp depth st).httpCallers = st.httpCallers) ∧
      (depth = 0 → ¬ fp ∈ st.visited → ∀ nd, mapGet nodes fp = some nd →
        (brGo nodes fuel fp depth st).httpCallers = st.httpCallers ++
          nd.calledBy.filter (fun c => !lmem c (brGo nodes fuel fp depth st).visited &&
            !lmem c (brGo nodes fuel fp depth st).direct)) := by
  intro fuel
  induction fuel with
  | zero =>
    intro fp depth st _ hfuel _ _
    exact absurd hfuel (Nat.not_lt_zero _)
  | succ fuel ih =>
    intro fp depth st hfpU hfuel hnodup hslack
    by_cases hvis : lmem fp st.visited
    · have hbr : brGo nodes (fuel + 1) fp depth st = st := by
        rw [brGo, if_pos hvis]
      rw [hbr]
      refine ⟨hnodup, ?_, fun x hx => hx, ⟨[], by simp, fun _ => rfl, by simp⟩,
        ⟨[], by simp⟩, fun _ => rfl, ?_⟩
      · intro x hx
        rcases hslack x hx with h | rfl
        · exact h
        · exact (lmem_iff x st.visited).mp hvis
      · intro _ hfp _ _
        exact absurd ((lmem_iff fp st.visited).mp hvis) hfp
    · have hvis' : ¬ fp ∈ st.visited := fun h => hvis ((lmem_iff fp st.visited).mpr h)
      have hmark : ∀ x ∈ st.direct ++ st.transitive, x ∈ fp :: st.visited := by
        intro x hx
        rcases hslack x hx with h | heq
        · exact List.mem_cons_of_mem fp h
        · rw [heq]; exact List.mem_cons_self fp st.visited
      cases hnode : mapGet nodes fp with
      | none =>
        have hbr : brGo nodes (fuel + 1) fp depth st =
            { st with visited := fp :: st.visited } := by
          rw [brGo, if_neg (by simpa using hvis)]
          simp only [hnode]
        rw [hbr]
        refine ⟨hnodup, hmark, fun x hx => List.mem_cons_of_mem fp hx,
          ⟨[], by simp, fun _ => rfl, by simp⟩, ⟨[], by simp⟩, fun _ => rfl, ?_⟩
        intro _ _ nd hcontra
        simp at hcontra
      | some nd =>
        have hdeps : ∀ x ∈ nd.usedBy, x ∈ U := by
          intro x hx
          rcases mapGet_some_mem hnode with ⟨pr, hprmem, _, hpr2⟩
          exact hUB pr hprmem x (by rw [hpr2]; exact hx)
        have hdepsUsed : ∀ x ∈ nd.usedBy, ∃ nd', mapGet nodes fp = some nd' ∧ x ∈ nd'.usedBy :=
          fun x hx => ⟨nd, hnode, hx⟩
        have hfuel₁ : brMeasure U (fp :: st.visited) < fuel :=
          Nat.lt_of_lt_of_le (brMeasure_strict hfpU hvis') (Nat.le_of_lt_succ hfuel)
        -- the fold over the dependents preserves the invariant
        have haux : ∀ (deps : List String) (s : BRState),
            (∀ x ∈ deps, x ∈ U) →
            (∀ x ∈ deps, ∃ nd', mapGet nodes fp = some nd' ∧ x ∈ nd'.usedBy) →
            brMeasure U s.visited < fuel →
            (s.direct ++ s.transitive).Nodup →
            (∀ x ∈ s.direct ++ s.transitive, x ∈ s.visited) →
            ((deps.foldl
                (fun s dep =>
                  if lmem dep s.visited then s
                  else
                    brGo nodes fuel dep (depth + 1)
                      (if depth = 0 then { s with direct := s.direct ++ [dep] }
                       else { s with transitive := s.transitive ++ [dep] }))
                s).direct ++
              (deps.foldl
                (fun s dep =>
                  if lmem dep s.visited then s
                  else
                    brGo nodes fuel dep (depth + 1)
                      (if depth = 0 then { s with direct := s.direct ++ [dep] }
                       else { s with transitive := s.transitive ++ [dep] }))
                s).transitive).Nodup ∧
            (∀ x ∈ (deps.foldl
                (fun s dep =>
                  if lmem dep s.visited then s
                  else
                    brGo nodes fuel dep (depth + 1)
                      (if depth = 0 then { s with direct := s.direct ++ [dep] }
                       else { s with transitive := s.transitive ++ [dep] }))
                s).direct ++ (deps.foldl
                (fun s dep =>
                  if lmem dep s.visited then s
                  else
                    brGo nodes fuel dep (depth + 1)
                      (if depth = 0 then { s with direct := s.direct ++ [dep] }
                       else { s with transitive := s.transitive ++ [dep] }))
                s).transitive,
              x ∈ (deps.foldl
                (fun s dep =>
                  if lmem dep s.visited then s
                  else
                    brGo nodes fuel dep (depth + 1)
                      (if depth = 0 then { s with direct := s.direct ++ [dep] }
                       else { s with transitive := s.transitive ++ [dep] }))
                s).visited) ∧
            (∀ x ∈ s.visited, x ∈ (deps.foldl
                (fun s dep =>
                  if lmem dep s.visited then s
                  else
                    brGo nodes fuel dep (depth + 1)
                      (if depth = 0 then { s with direct := s.direct ++ [dep] }
                       else { s with transitive := s.transitive ++ [dep] }))
                s).visited) ∧
            (∃ newD, (deps.foldl
                (fun s dep =>
                  if lmem dep s.visited then s
                  else
                    brGo nodes fuel dep (depth + 1)
                      (if depth = 0 then { s with direct := s.direct ++ [dep] }
                       else { s with transitive := s.transitive ++ [dep] }))
                s).direct = s.direct ++ newD ∧ (depth ≠ 0 → newD = []) ∧
              (∀ x ∈ newD, ∃ nd', mapGet nodes fp = some nd' ∧ x ∈ nd'.usedBy)) ∧
            (∃ newT, (deps.foldl
                (fun s dep =>
                  if lmem dep s.visited then s
                  else
                    brGo nodes fuel dep (depth + 1)
                      (if depth = 0 then { s with direct := s.direct ++ [dep] }
                       else { s with transitive := s.transitive ++ [dep] }))
                s).transitive = s.transitive ++ newT) ∧
            (deps.foldl
                (fun s dep =>
                  if lmem dep s.visited then s
                  else
                    brGo nodes fuel dep (depth + 1)
                      (if depth = 0 then { s with direct := s.direct ++ [dep] }
                       else { s with transitive := s.transitive ++ [dep] }))
                s).httpCallers = s.httpCallers := by
          intro deps
          induction deps with
          | nil =>
            intro s _ _ _ hnds hins
            exact ⟨hnds, hins, fun x hx => hx, ⟨[], by simp, fun _ => rfl, by simp⟩,
              ⟨[], by simp⟩, rfl⟩
          | cons dep rest ihd =>
            intro s hU' hUsed hfuels hnds hins
            rw [List.foldl_cons]
            by_cases hdv : lmem dep s.visited
            · rw [if_pos hdv]
              exact ihd s (fun x hx => hU' x (List.mem_cons_of_mem dep hx))
                (fun x hx => hUsed x (List.mem_cons_of_mem dep hx)) hfuels hnds hins
            · rw [if_neg (by simpa using hdv)]
              have hdv' : ¬ dep ∈ s.visited := fun h => hdv ((lmem_iff dep s.visited).mpr h)
              have hdM : ¬ dep ∈ s.direct ++ s.transitive := fun h => hdv' (hins dep h)
              -- invariants of the pushed state
              have hspvis : (if depth = 0 then { s with direct := s.direct ++ [dep] }
                  else { s with transitive := s.transitive ++ [dep] }).visited = s.visited := by
                by_cases hd0 : depth = 0 <;> simp [hd0]
              have hspnd : ((if depth = 0 then { s with direct := s.direct ++ [dep] }
                  else { s with transitive := s.transitive ++ [dep] }).direct ++
                  (if depth = 0 then { s with direct := s.direct ++ [dep] }
                  else { s with transitive := s.transitive ++ [dep] }).transitive).Nodup := by
                by_cases hd0 : depth = 0
                · simp only [hd0, if_pos rfl]
                  exact nodup_push_left hnds hdM
                · simp only [hd0, if_neg hd0]
                  exact nodup_push_right hnds hdM
              have hspslack : ∀ x ∈ (if depth = 0 then { s with direct := s.direct ++ [dep] }
                  else { s with transitive := s.transitive ++ [dep] }).direct ++
                  (if depth = 0 then { s with direct := s.direct ++ [dep] }
                  else { s with transitive := s.transitive ++ [dep] }).transitive,
                  x ∈ (if depth = 0 then { s with direct := s.direct ++ [dep] }
                  else { s with transitive := s.transitive ++ [dep] }).visited ∨ x = dep := by
                by_cases hd0 : depth = 0
                · simp only [hd0, if_pos rfl]
                  intro x hx
                  rcases List.mem_append.mp hx with hx | hx
                  · rcases List.mem_append.mp hx with hx | hx
                    · exact Or.inl (hins x (List.mem_append.mpr (Or.inl hx)))
                    · exact Or.inr (List.mem_singleton.mp hx)
                  · exact Or.inl (hins x (List.mem_append.mpr (Or.inr hx)))
                · simp only [hd0, if_neg hd0]
                  intro x hx
                  rcases List.mem_append.mp hx with hx | hx
                  · exact Or.inl (hins x (List.mem_append.mpr (Or.inl hx)))
                  · rcases List.mem_append.mp hx with hx | hx
                    · exact Or.inl (hins x (List.mem_append.mpr (Or.inr hx)))
                    · exact Or.inr (List.mem_singleton.mp hx)
              have hspfuel : brMeasure U (if depth = 0 then { s with direct := s.direct ++ [dep] }
                  else { s with transitive := s.transitive ++ [dep] }).visited < fuel := by
                rw [hspvis]; exact hfuels
              have hdepU : dep ∈ U := hU' dep (List.mem_cons_self dep rest)
              have hcall := ih dep (depth + 1)
                (if depth = 0 then { s with direct := s.direct ++ [dep] }
                 else { s with transitive := s.transitive ++ [dep] })
                hdepU hspfuel hspnd hspslack
              obtain ⟨hc1, hc2, hc3, ⟨nD, hnD, hnD0, _⟩, ⟨nT, hnT⟩, hc6, _⟩ := hcall
              have hnDnil : nD = [] := hnD0 (Nat.succ_ne_zero depth)
              -- state after the recursive call
              set s' := brGo nodes fuel dep (depth + 1)
                (if depth = 0 then { s with direct := s.direct ++ [dep] }
                 else { s with transitive := s.transitive ++ [dep] }) with hs'
              have hfuels' : brMeasure U s'.visited < fuel := by
                refine Nat.lt_of_le_of_lt (brMeasure_mono ?_) hfuels
                intro x hx
                refine hc3 x ?_
                rw [hspvis]
                exact hx
              have hrest := ihd s' (fun x hx => hU' x (List.mem_cons_of_mem dep hx))
                (fun x hx => hUsed x (List.mem_cons_of_mem dep hx)) hfuels' hc1 hc2
              obtain ⟨hr1, hr2, hr3, ⟨mD, hmD, hmD0, hmDuses⟩, ⟨mT, hmT⟩, hr6⟩ := hrest
              refine ⟨hr1, hr2, ?_, ?_, ?_, ?_⟩
              · intro x hx
                refine hr3 x (hc3 x ?_)
                rw [hspvis]
                exact hx
              · by_cases hd0 : depth = 0
                · refine ⟨dep :: (nD ++ mD), ?_, fun hdne => absurd hd0 hdne, ?_⟩
                  · rw [hmD, hnD]
                    simp only [hd0, if_pos rfl]
                    simp [List.append_assoc]
                  · intro x hx
                    rcases List.mem_cons.mp hx with rfl | hx
                    · exact hUsed x (List.mem_cons_self x rest)
                    · rcases List.mem_append.mp hx with hx | hx
                      · rw [hnDnil] at hx; cases hx
                      · exact hmDuses x hx
                · refine ⟨mD, ?_, fun _ => hmD0 hd0, hmDuses⟩
                  rw [hmD, hnD, hnDnil]
                  simp only [hd0, if_neg hd0]
                  simp
              · by_cases hd0 : depth = 0
                · refine ⟨nT ++ mT, ?_⟩
                  rw [hmT, hnT]
                  simp only [hd0, if_pos rfl]
                  simp [List.append_assoc]
                · refine ⟨dep :: (nT ++ mT), ?_⟩
                  rw [hmT, hnT]
                  simp only [hd0, if_neg hd0]
                  simp [List.append_assoc]
              · rw [hr6, hc6 (Nat.succ_ne_zero depth)]
                by_cases hd0 : depth = 0 <;> simp [hd0]
        -- assemble the call from the marked state and the fold
        have hspec := haux nd.usedBy { st with visited := fp :: st.visited } hdeps hdepsUsed
          hfuel₁ hnodup hmark
        obtain ⟨ha1, ha2, ha3, ⟨newD, hnewD, hnewD0, hnewDuses⟩, ⟨newT, hnewT⟩, ha6⟩ := hspec
        have hbr : brGo nodes (fuel + 1) fp depth st =
            (if depth = 0 then
              { (nd.usedBy.foldl
                  (fun s dep =>
                    if lmem dep s.visited then s
                    else
                      brGo nodes fuel dep (depth + 1)
                        (if depth = 0 then { s with direct := s.direct ++ [dep] }
                         else { s with transitive := s.transitive ++ [dep] }))
                  { st with visited := fp :: st.visited }) with
                httpCallers := (nd.usedBy.foldl
                  (fun s dep =>
                    if lmem dep s.visited then s
                    else
                      brGo nodes fuel dep (depth + 1)
                        (if depth = 0 then { s with direct := s.direct ++ [dep] }
                         else { s with transitive := s.transitive ++ [dep] }))
                  { st with visited := fp :: st.visited }).httpCallers ++
                  nd.calledBy.filter (fun c =>
                    !lmem c (nd.usedBy.foldl
                      (fun s dep =>
                        if lmem dep s.visited then s
                        else
                          brGo nodes fuel dep (depth + 1)
                            (if depth = 0 then { s with direct := s.direct ++ [dep] }
                             else { s with transitive := s.transitive ++ [dep] }))
                      { st with visited := fp :: st.visited }).visited &&
                    !lmem c (nd.usedBy.foldl
                      (fun s dep =>
                        if lmem dep s.visited then s
                        else
                          brGo nodes fuel dep (depth + 1)
                            (if depth = 0 then { s with direct := s.direct ++ [dep] }
                             else { s with transitive := s.transitive ++ [dep] }))
                      { st with visited := fp :: st.visited }).direct) }
            else
              (nd.usedBy.foldl
                (fun s dep =>
                  if lmem dep s.visited then s
                  else
                    brGo nodes fuel dep (depth + 1)
                      (if depth = 0 then { s with direct := s.direct ++ [dep] }
                       else { s with transitive := s.transitive ++ [dep] }))
                { st with visited := fp :: st.visited })) := by
          rw [brGo, if_neg (by simpa using hvis)]
          simp only [hnode]
        have hnewDuses' : ∀ x ∈ newD, ∃ nd₁, some nd = some nd₁ ∧ x ∈ nd₁.usedBy := by
          intro x hx
          obtain ⟨nd₁, h1, h2⟩ := hnewDuses x hx
          exact ⟨nd₁, hnode ▸ h1, h2⟩
        rw [hbr]
        by_cases hd0 : depth = 0
        · rw [if_pos hd0]
          refine ⟨ha1, ha2, ?_, ?_, ?_, ?_, ?_⟩
          · intro x hx
            exact ha3 x (List.mem_cons_of_mem fp hx)
          · exact ⟨newD, hnewD, fun hdne => absurd hd0 hdne, hnewDuses'⟩
          · exact ⟨newT, hnewT⟩
          · intro hdne
            exact absurd hd0 hdne
          · intro _ _ nd' hnd'
            have : nd' = nd := (Option.some.inj hnd').symm
            subst this
            rw [ha6]
        · rw [if_neg hd0]
          refine ⟨ha1, ha2, ?_, ?_, ?_, ?_, ?_⟩
          · intro x hx
            exact ha3 x (List.mem_cons_of_mem fp hx)
          · exact ⟨newD, hnewD, fun _ => hnewD0 hd0, hnewDuses'⟩
          · exact ⟨newT, hnewT⟩
          · intro _
            exact ha6
          · intro hdz
            exact absurd hdz hd0

/-- A root call on a path absent from the index only marks it visited. -/
theorem brRoot_none (nodes : Graph) (fp : String) (hnode : mapGet nodes fp = none) :
    brGo nodes (brFuel nodes) fp 0 {} = { visited := [fp] } := by
  obtain ⟨f, hf⟩ : ∃ f, brFuel nodes = f + 1 :=
    ⟨1 + (nodes.flatMap (fun p => p.2.usedBy)).length, by rw [brFuel]; omega⟩
  rw [hf, brGo]
  rw [if_neg (by simp [lmem])]
  simp only [hnode]

/-- The blast-radius counterexample graph: `/t` is used by `/a` and `/b`,
and `/a` is in turn used by `/b`.  Both `/a` and `/b` are at
`usedBy`-distance 1 from `/t`. -/
def gBR : Graph :=
  [("/t", { usedBy := ["/a", "/b"] }),
   ("/a", { usedBy := ["/b"] }),
   ("/b", {})]

/-- C4 counterexample: in `gBR` the node `/b` sits in the target's own
`usedBy` list, i.e. at `usedBy`-distance 1 from `/t`, yet the blast radius
reports it as `transitive`: the depth-first traversal reaches it through
`/a` first and classifies by discovery depth, not by distance. -/
theorem c4_counterexample :
    calculateBlastRadius gBR "/t" =
      some { file := "/t", purpose := "", direct := ["/a"], transitive := ["/b"],
             httpCallers := [], total := 2 } ∧
    (mapGet gBR "/t").map GNode.usedBy = some ["/a", "/b"] := by
  decide

/-- C4 (amended): whenever the blast radius succeeds, `direct` and
`transitive` are each duplicate-free, sorted, disjoint from each other and
from `httpCallers`; `total` is the sum of the three lengths; every `direct`
entry comes from the located node's own `usedBy` list and every
`httpCallers` entry from its `calledBy` list.  (`direct` need not contain
all distance-1 dependents: entries are classified by depth-first discovery
depth, so a distance-1 dependent first discovered through a longer path
lands in `transitive`.) -/
theorem c4_amended (nodes : Graph) (targetPath : String) (r : BlastRadius)
    (h : calculateBlastRadius nodes targetPath = some r) :
    r.direct.Nodup ∧ r.transitive.Nodup ∧
    (∀ x ∈ r.direct, ¬ x ∈ r.transitive) ∧
    (∀ x ∈ r.httpCallers, ¬ x ∈ r.direct ∧ ¬ x ∈ r.transitive) ∧
    List.Pairwise (fun a b => strLeB a b = true) r.direct ∧
    List.Pairwise (fun a b => strLeB a b = true) r.transitive ∧
    List.Pairwise (fun a b => strLeB a b = true) r.httpCallers ∧
    r.total = r.direct.length + r.transitive.length + r.httpCallers.length ∧
    (∀ nd, mapGet nodes r.file = some nd →
      (∀ x ∈ r.direct, x ∈ nd.usedBy) ∧ (∀ x ∈ r.httpCallers, x ∈ nd.calledBy)) := by
  cases hloc : brActual nodes targetPath with
  | none =>
    rw [calculateBlastRadius] at h
    rw [hloc] at h
    cases h
  | some actualPath =>
    rw [calculateBlastRadius] at h
    rw [hloc] at h
    obtain rfl := Option.some.inj h
    have hUB : ∀ q ∈ nodes, ∀ x ∈ q.2.usedBy,
        x ∈ actualPath :: nodes.flatMap (fun p => p.2.usedBy) :=
      fun q hq x hx => List.mem_cons_of_mem _ (List.mem_flatMap.mpr ⟨q, hq, hx⟩)
    have hfuel : brMeasure (actualPath :: nodes.flatMap (fun p => p.2.usedBy))
        (({} : BRState)).visited < brFuel nodes := by
      have h1 : brMeasure (actualPath :: nodes.flatMap (fun p => p.2.usedBy)) [] ≤
          (actualPath :: nodes.flatMap (fun p => p.2.usedBy)).length := by
        rw [brMeasure]
        exact List.length_filter_le _ _
      simp only [List.length_cons] at h1
      show brMeasure (actualPath :: nodes.flatMap (fun p => p.2.usedBy)) [] < brFuel nodes
      rw [brFuel]
      omega
    obtain ⟨hB1, hB2, _hB3, ⟨newD, hnewD, _hnewD0, hnewDuses⟩, ⟨newT, hnewT⟩, _hB6, hB7⟩ :=
      brGo_spec nodes (actualPath :: nodes.flatMap (fun p => p.2.usedBy)) hUB
        (brFuel nodes) actualPath 0 {} (List.mem_cons_self _ _) hfuel
        (by simp) (by intro x hx; simp at hx)
    obtain ⟨hndD, hndT, hdisj⟩ := List.nodup_append.mp hB1
    have hHC : ∀ x ∈ (brGo nodes (brFuel nodes) actualPath 0 {}).httpCallers,
        ¬ x ∈ (brGo nodes (brFuel nodes) actualPath 0 {}).direct ∧
        ¬ x ∈ (brGo nodes (brFuel nodes) actualPath 0 {}).transitive ∧
        (∀ nd, mapGet nodes actualPath = some nd → x ∈ nd.calledBy) := by
      cases hnode : mapGet nodes actualPath with
      | none =>
        intro x hx
        rw [brRoot_none nodes actualPath hnode] at hx
        simp at hx
      | some nd =>
        have heq := hB7 rfl (by simp) nd hnode
        intro x hx
        rw [heq] at hx
        have hx' : x ∈ nd.calledBy ∧
            lmem x (brGo nodes (brFuel nodes) actualPath 0 {}).visited = false ∧
            lmem x (brGo nodes (brFuel nodes) actualPath 0 {}).direct = false := by
          simpa using hx
        obtain ⟨hxcb, hv, hd⟩ := hx'
        have hxnv : ¬ x ∈ (brGo nodes (brFuel nodes) actualPath 0 {}).visited := by
          intro hmem
          rw [(lmem_iff x _).mpr hmem] at hv
          cases hv
        have hxnd : ¬ x ∈ (brGo nodes (brFuel nodes) actualPath 0 {}).direct := by
          intro hmem
          rw [(lmem_iff x _).mpr hmem] at hd
          cases hd
        refine ⟨hxnd, ?_, ?_⟩
        · intro hmem
          exact hxnv (hB2 x (List.mem_append_right _ hmem))
        · intro nd' hnd'
          rw [← Option.some.inj hnd']
          exact hxcb
    refine ⟨?_, ?_, ?_, ?_, ?_, ?_, ?_, ?_, ?_⟩
    · show (insSort strLeB (brGo nodes (brFuel nodes) actualPath 0 {}).direct).Nodup
      exact insSort_nodup strLeB hndD
    · show (insSort strLeB (brGo nodes (brFuel nodes) actualPath 0 {}).transitive).Nodup
      exact insSort_nodup strLeB hndT
    · intro x hx hx'
      exact hdisj ((mem_insSort strLeB _ x).mp hx) ((mem_insSort strLeB _ x).mp hx')
    · intro x hx
      have hx' := (mem_insSort strLeB _ x).mp hx
      obtain ⟨h1, h2, _⟩ := hHC x hx'
      exact ⟨fun hm => h1 ((mem_insSort strLeB _ x).mp hm),
        fun hm => h2 ((mem_insSort strLeB _ x).mp hm)⟩
    · exact insSort_sorted (fun a b => strLeB_total a b) (fun a b c => strLeB_trans) _
    · exact insSort_sorted (fun a b => strLeB_total a b) (fun a b c => strLeB_trans) _
    · exact insSort_sorted (fun a b => strLeB_total a b) (fun a b c => strLeB_trans) _
    · show (brGo nodes (brFuel nodes) actualPath 0 {}).direct.length +
        (brGo nodes (brFuel nodes) actualPath 0 {}).transitive.length +
        (brGo nodes (brFuel nodes) actualPath 0 {}).httpCallers.length =
        (insSort strLeB (brGo nodes (brFuel nodes) actualPath 0 {}).direct).length +
        (insSort strLeB (brGo nodes (brFuel nodes) actualPath 0 {}).transitive).length +
        (insSort strLeB (brGo nodes (brFuel nodes) actualPath 0 {}).httpCallers).length
      rw [insSort_length, insSort_length, insSort_length]
    · intro nd hnd
      refine ⟨?_, ?_⟩
      · intro x hx
        have hx' := (mem_insSort strLeB _ x).mp hx
        rw [hnewD] at hx'
        obtain ⟨nd', hnd', hxnd'⟩ := hnewDuses x (by simpa using hx')
        rw [hnd] at hnd'
        rw [Option.some.inj hnd']
        exact hxnd'
      · intro x hx
        obtain ⟨_, _, h3⟩ := hHC x ((mem_insSort strLeB _ x).mp hx)
        exact h3 nd hnd

/-- The blast radius that `gBR` actually produces for target `/t`. -/
def brWitR : BlastRadius :=
  { file := "/t", purpose := "", direct := ["/a"], transitive := ["/b"],
    httpCallers := [], total := 2 }

/-- C4 (amended) instantiated on the concrete graph `gBR`. -/
theorem c4_amended_witness :
    calculateBlastRadius gBR "/t" = some brWitR ∧
    (brWitR.direct.Nodup ∧ brWitR.transitive.Nodup ∧
     (∀ x ∈ brWitR.direct, ¬ x ∈ brWitR.transitive) ∧
     (∀ x ∈ brWitR.httpCallers, ¬ x ∈ brWitR.direct ∧ ¬ x ∈ brWitR.transitive) ∧
     List.Pairwise (fun a b => strLeB a b = true) brWitR.direct ∧
     List.Pairwise (fun a b => strLeB a b = true) brWitR.transitive ∧
     List.Pairwise (fun a b => strLeB a b = true) brWitR.httpCallers ∧
     brWitR.total = brWitR.direct.length + brWitR.transitive.length +
       brWitR.httpCallers.length ∧
     (∀ nd, mapGet gBR brWitR.file = some nd →
       (∀ x ∈ brWitR.direct, x ∈ nd.usedBy) ∧
       (∀ x ∈ brWitR.httpCallers, x ∈ nd.calledBy))) :=
  ⟨by decide, c4_amended gBR "/t" brWitR (by decide)⟩

/-- What the `buildCluster` BFS guarantees for any fuel: the cluster only
grows, new cluster members come from the isolated set, the assigned set only
grows, new assigned files are cluster members, and new cluster members are
assigned. -/
theorem bfsGo_spec (nodes : Graph) (isolated : List String) :
    ∀ (fuel : Nat) (queue cluster assigned : List String),
      (∀ x ∈ cluster, x ∈ (bfsGo nodes isolated fuel queue cluster assigned).1) ∧
      (∀ x ∈ (bfsGo nodes isolated fuel queue cluster assigned).1,
        x ∈ cluster ∨ x ∈ isolated) ∧
      (∀ x ∈ assigned, x ∈ (bfsGo nodes isolated fuel queue cluster assigned).2) ∧
      (∀ x ∈ (bfsGo nodes isolated fuel queue cluster assigned).2,
        x ∈ assigned ∨ x ∈ (bfsGo nodes isolated fuel queue cluster assigned).1) ∧
      (∀ x ∈ (bfsGo nodes isolated fuel queue cluster assigned).1,
        x ∈ cluster ∨ x ∈ (bfsGo nodes isolated fuel queue cluster assigned).2) := by
  intro fuel
  induction fuel with
  | zero =>
    intro queue cluster assigned
    exact ⟨fun x hx => hx, fun x hx => Or.inl hx, fun x hx => hx,
      fun x hx => Or.inl hx, fun x hx => Or.inl hx⟩
  | succ fuel ih =>
    intro queue cluster assigned
    cases queue with
    | nil =>
      exact ⟨fun x hx => hx, fun x hx => Or.inl hx, fun x hx => hx,
        fun x hx => Or.inl hx, fun x hx => Or.inl hx⟩
    | cons file queue =>
      by_cases hc : (lmem file cluster || !lmem file isolated) = true
      · have hbr : bfsGo nodes isolated (fuel + 1) (file :: queue) cluster assigned =
            bfsGo nodes isolated fuel queue cluster assigned := by
          rw [bfsGo, if_pos hc]
        rw [hbr]
        exact ih queue cluster assigned
      · have hfileiso : file ∈ isolated := by
          by_contra hno
          apply hc
          have hli : lmem file isolated = false := by
            cases hl : lmem file isolated
            · rfl
            · exact absurd ((lmem_iff _ _).mp hl) hno
          simp [hli]
        cases hn : mapGet nodes file with
        | none =>
          have hbr : bfsGo nodes isolated (fuel + 1) (file :: queue) cluster assigned =
              bfsGo nodes isolated fuel queue (cluster ++ [file]) (listAdd assigned file) := by
            rw [bfsGo, if_neg hc]
            simp only [hn]
          rw [hbr]
          obtain ⟨i1, i2, i3, i4, i5⟩ := ih queue (cluster ++ [file]) (listAdd assigned file)
          refine ⟨fun x hx => i1 x (List.mem_append_left _ hx), ?_,
            fun x hx => i3 x (mem_listAdd.mpr (Or.inl hx)), ?_, ?_⟩
          · intro x hx
            rcases i2 x hx with h | h
            · rcases List.mem_append.mp h with h' | h'
              · exact Or.inl h'
              · rw [List.mem_singleton] at h'
                subst h'
                exact Or.inr hfileiso
            · exact Or.inr h
          · intro x hx
            rcases i4 x hx with h | h
            · rcases mem_listAdd.mp h with h' | h'
              · exact Or.inl h'
              · subst h'
                exact Or.inr (i1 _ (List.mem_append_right _ (List.mem_singleton_self _)))
            · exact Or.inr h
          · intro x hx
            rcases i5 x hx with h | h
            · rcases List.mem_append.mp h with h' | h'
              · exact Or.inl h'
              · rw [List.mem_singleton] at h'
                subst h'
                exact Or.inr (i3 _ (mem_listAdd.mpr (Or.inr rfl)))
            · exact Or.inr h
        | some nd =>
          have hbr : bfsGo nodes isolated (fuel + 1) (file :: queue) cluster assigned =
              bfsGo nodes isolated fuel
                (nd.usedBy.foldl
                  (fun q user =>
                    if lmem user isolated && !lmem user (cluster ++ [file]) then q ++ [user]
                    else q)
                  (nd.uses.foldl
                    (fun q dep =>
                      match resolveImport nodes dep file with
                      | some r =>
                        if lmem r isolated && !lmem r (cluster ++ [file]) then q ++ [r] else q
                      | none => q)
                    queue))
                (cluster ++ [file]) (listAdd assigned file) := by
            rw [bfsGo, if_neg hc]
            simp only [hn]
          rw [hbr]
          obtain ⟨i1, i2, i3, i4, i5⟩ := ih
            (nd.usedBy.foldl
              (fun q user =>
                if lmem user isolated && !lmem user (cluster ++ [file]) then q ++ [user]
                else q)
              (nd.uses.foldl
                (fun q dep =>
                  match resolveImport nodes dep file with
                  | some r =>
                    if lmem r isolated && !lmem r (cluster ++ [file]) then q ++ [r] else q
                  | none => q)
                queue))
            (cluster ++ [file]) (listAdd assigned file)
          refine ⟨fun x hx => i1 x (List.mem_append_left _ hx), ?_,
            fun x hx => i3 x (mem_listAdd.mpr (Or.inl hx)), ?_, ?_⟩
          · intro x hx
            rcases i2 x hx with h | h
            · rcases List.mem_append.mp h with h' | h'
              · exact Or.inl h'
              · rw [List.mem_singleton] at h'
                subst h'
                exact Or.inr hfileiso
            · exact Or.inr h
          · intro x hx
            rcases i4 x hx with h | h
            · rcases mem_listAdd.mp h with h' | h'
              · exact Or.inl h'
              · subst h'
                exact Or.inr (i1 _ (List.mem_append_right _ (List.mem_singleton_self _)))
            · exact Or.inr h
          · intro x hx
            rcases i5 x hx with h | h
            · rcases List.mem_append.mp h with h' | h'
              · exact Or.inl h'
              · rw [List.mem_singleton] at h'
                subst h'
                exact Or.inr (i3 _ (mem_listAdd.mpr (Or.inr rfl)))
            · exact Or.inr h

/-- A `buildCluster` run started on an isolated file puts that file into the
cluster. -/
theorem bfsGo_start (nodes : Graph) (isolated : List String) (fuel : Nat)
    (hf : fuel ≠ 0) (file : String) (assigned : List String) (hiso : file ∈ isolated) :
    file ∈ (bfsGo nodes isolated fuel [file] [] assigned).1 := by
  obtain ⟨f, rfl⟩ := Nat.exists_eq_succ_of_ne_zero hf
  have hc : (lmem file ([] : List String) || !lmem file isolated) = false := by
    simp [lmem, hiso]
  rw [bfsGo]
  rw [if_neg (by simp [hc])]
  cases hn : mapGet nodes file with
  | none =>
    simp only [hn]
    exact (bfsGo_spec nodes isolated f _ _ _).1 file
      (List.mem_append_right _ (List.mem_singleton_self _))
  | some nd =>
    simp only [hn]
    exact (bfsGo_spec nodes isolated f _ _ _).1 file
      (List.mem_append_right _ (List.mem_singleton_self _))

theorem clusterFilesOf_path {nodes : Graph} {fps : List String} {f : ClusterFile}
    (h : f ∈ clusterFilesOf nodes fps) : f.path ∈ fps := by
  rw [clusterFilesOf] at h
  rcases List.mem_map.mp ((mem_insSort _ _ _).mp h) with ⟨x, hx, rfl⟩
  exact hx

theorem clusterFilesOf_cover (nodes : Graph) {fps : List String} {x : String}
    (hx : x ∈ fps) : ∃ f ∈ clusterFilesOf nodes fps, f.path = x := by
  rw [clusterFilesOf]
  exact ⟨_, (mem_insSort _ _ _).mpr (List.mem_map_of_mem _ hx), rfl⟩

theorem clusterFilesOf_sorted (nodes : Graph) (fps : List String) :
    (clusterFilesOf nodes fps).Pairwise (fun a b => strLeB a.path b.path = true) :=
  insSort_sorted (fun (a b : ClusterFile) => strLeB_total a.path b.path)
    (fun (a b c : ClusterFile) (h1 : strLeB a.path b.path = true)
      (h2 : strLeB b.path c.path = true) => strLeB_trans h1 h2) _

/-- The invariant of the cluster loop: every assigned file appears in some
emitted cluster, every emitted cluster is well-formed (consistent size,
nonempty, path-sorted, drawn from the isolated set), every processed file
ends up assigned, and the assigned set only grows. -/
theorem clusterFold_spec (nodes : Graph) (iso : List String) :
    ∀ (l : List String) (acc : List Cluster × List String),
      (∀ x ∈ acc.2, ∃ cl ∈ acc.1, ∃ f ∈ cl.files, f.path = x) →
      (∀ cl ∈ acc.1, cl.size = cl.files.length ∧ cl.files ≠ [] ∧
        cl.files.Pairwise (fun a b => strLeB a.path b.path = true) ∧
        ∀ f ∈ cl.files, f.path ∈ iso) →
      (∀ x ∈ l, x ∈ iso) →
      (∀ x ∈ (l.foldl (clusterStep nodes iso) acc).2,
        ∃ cl ∈ (l.foldl (clusterStep nodes iso) acc).1, ∃ f ∈ cl.files, f.path = x) ∧
      (∀ cl ∈ (l.foldl (clusterStep nodes iso) acc).1, cl.size = cl.files.length ∧
        cl.files ≠ [] ∧ cl.files.Pairwise (fun a b => strLeB a.path b.path = true) ∧
        ∀ f ∈ cl.files, f.path ∈ iso) ∧
      (∀ x ∈ l, x ∈ (l.foldl (clusterStep nodes iso) acc).2) ∧
      (∀ x ∈ acc.2, x ∈ (l.foldl (clusterStep nodes iso) acc).2) := by
  intro l
  induction l with
  | nil =>
    intro acc h1 h2 _
    exact ⟨h1, h2, fun x hx => absurd hx (List.not_mem_nil x), fun x hx => hx⟩
  | cons file l ihl =>
    intro acc h1 h2 hl
    have hfileiso : file ∈ iso := hl file (List.mem_cons_self file l)
    obtain ⟨s1, s2, s3, s4⟩ :
        (∀ x ∈ (clusterStep nodes iso acc file).2,
          ∃ cl ∈ (clusterStep nodes iso acc file).1, ∃ f ∈ cl.files, f.path = x) ∧
        (∀ cl ∈ (clusterStep nodes iso acc file).1, cl.size = cl.files.length ∧
          cl.files ≠ [] ∧ cl.files.Pairwise (fun a b => strLeB a.path b.path = true) ∧
          ∀ f ∈ cl.files, f.path ∈ iso) ∧
        file ∈ (clusterStep nodes iso acc file).2 ∧
        (∀ x ∈ acc.2, x ∈ (clusterStep nodes iso acc file).2) := by
      by_cases ha : lmem file acc.2 = true
      · have hstep : clusterStep nodes iso acc file = acc := by
          rw [clusterStep, if_pos ha]
        rw [hstep]
        exact ⟨h1, h2, (lmem_iff file acc.2).mp ha, fun x hx => hx⟩
      · obtain ⟨b1, b2, b3, b4, b5⟩ :=
          bfsGo_spec nodes iso (2 + graphEdgesBound nodes) [file] [] acc.2
        have hstart :
            file ∈ (bfsGo nodes iso (2 + graphEdgesBound nodes) [file] [] acc.2).1 :=
          bfsGo_start nodes iso (2 + graphEdgesBound nodes) (by omega) file acc.2 hfileiso
        have hlen :
            (bfsGo nodes iso (2 + graphEdgesBound nodes) [file] [] acc.2).1.length > 0 :=
          List.length_pos.mpr (List.ne_nil_of_mem hstart)
        have hstep : clusterStep nodes iso acc file =
            (acc.1 ++ [Cluster.mk
                (clusterFilesOf nodes
                  (bfsGo nodes iso (2 + graphEdgesBound nodes) [file] [] acc.2).1).length
                (clusterFilesOf nodes
                  (bfsGo nodes iso (2 + graphEdgesBound nodes) [file] [] acc.2).1)],
             (bfsGo nodes iso (2 + graphEdgesBound nodes) [file] [] acc.2).2) := by
          simp only [clusterStep]
          rw [if_neg ha, if_pos hlen]
        rw [hstep]
        refine ⟨?_, ?_, ?_, b3⟩
        · intro x hx
          rcases b4 x hx with hx' | hx'
          · obtain ⟨cl, hcl, f, hf, hfp⟩ := h1 x hx'
            exact ⟨cl, List.mem_append_left _ hcl, f, hf, hfp⟩
          · obtain ⟨f, hf, hfp⟩ := clusterFilesOf_cover nodes hx'
            exact ⟨_, List.mem_append_right _ (List.mem_singleton_self _), f, hf, hfp⟩
        · intro cl hcl
          rcases List.mem_append.mp hcl with hcl' | hcl'
          · exact h2 cl hcl'
          · rw [List.mem_singleton] at hcl'
            subst hcl'
            refine ⟨rfl, ?_, clusterFilesOf_sorted nodes _, ?_⟩
            · obtain ⟨f, hf, _⟩ := clusterFilesOf_cover nodes hstart
              exact List.ne_nil_of_mem hf
            · intro f hf
              rcases b2 f.path (clusterFilesOf_path hf) with h | h
              · exact absurd h (List.not_mem_nil _)
              · exact h
        · rcases b5 file hstart with h | h
          · exact absurd h (List.not_mem_nil file)
          · exact h
    obtain ⟨k1, k2, k3, k4⟩ := ihl (clusterStep nodes iso acc file) s1 s2
      (fun x hx => hl x (List.mem_cons_of_mem file hx))
    rw [List.foldl_cons]
    refine ⟨k1, k2, ?_, fun x hx => k4 x (s4 x hx)⟩
    intro x hx
    rcases List.mem_cons.mp hx with rfl | hx'
    · exact k4 _ s3
    · exact k3 x hx'

/-- The cluster counterexample graph: `/x`'s `usedBy` points at `/y`, while
`/y`'s own `usedBy` names only a path outside the graph. -/
def gCl : Graph :=
  [("/y", { usedBy := ["/ghost"] }),
   ("/x", { usedBy := ["/y"] })]

/-- C5 counterexample: on `gCl` with no entry-point patterns both nodes are
isolated, and `/y` is emitted in two clusters: first in its own singleton
cluster, then again inside the cluster grown from `/x`, whose `usedBy` edge
reaches `/y` (`buildCluster` consults its per-cluster set but never the
global `assigned` set), so the clusters are not a partition. -/
theorem c5_counterexample :
    isolatedList gCl [] = ["/y", "/x"] ∧
    findClusters gCl [] =
      [{ size := 2, files := [{ path := "/x", purpose := "", uses := 0, usedBy := 1 },
                              { path := "/y", purpose := "", uses := 0, usedBy := 1 }] },
       { size := 1, files := [{ path := "/y", purpose := "", uses := 0, usedBy := 1 }] }] := by
  decide

/-- C5 (amended): the emitted clusters cover the isolated set exactly — every
isolated file appears in some cluster and every cluster member is isolated —
and each cluster is nonempty, has a consistent size, and lists its files
path-sorted, with the clusters ordered largest first.  (The clusters need
not be disjoint: `buildCluster` never consults the global `assigned` set, so
a file can be collected into a second cluster, as `c5_counterexample`
shows.) -/
theorem c5_amended (nodes : Graph) (pats : List (String → Bool)) :
    (∀ p ∈ isolatedList nodes pats,
      ∃ cl ∈ findClusters nodes pats, ∃ f ∈ cl.files, f.path = p) ∧
    (∀ cl ∈ findClusters nodes pats, ∀ f ∈ cl.files, f.path ∈ isolatedList nodes pats) ∧
    (∀ cl ∈ findClusters nodes pats, cl.size = cl.files.length ∧ cl.files ≠ [] ∧
      cl.files.Pairwise (fun a b => strLeB a.path b.path = true)) ∧
    (findClusters nodes pats).Pairwise (fun a b => b.size ≤ a.size) := by
  by_cases hiso : (isolatedList nodes pats).length = 0
  · have hnil : isolatedList nodes pats = [] := List.length_eq_zero.mp hiso
    have hfc : findClusters nodes pats = [] := by
      simp only [findClusters]
      rw [if_pos hiso]
    rw [hfc, hnil]
    exact ⟨fun p hp => absurd hp (List.not_mem_nil p),
      fun cl hcl => absurd hcl (List.not_mem_nil cl),
      fun cl hcl => absurd hcl (List.not_mem_nil cl), List.Pairwise.nil⟩
  · have hfc : findClusters nodes pats = insSort (fun a b => b.size ≤ a.size)
        ((isolatedList nodes pats).foldl
          (clusterStep nodes (isolatedList nodes pats)) ([], [])).1 := by
      simp only [findClusters]
      rw [if_neg hiso]
    obtain ⟨k1, k2, k3, _⟩ := clusterFold_spec nodes (isolatedList nodes pats)
      (isolatedList nodes pats) ([], [])
      (by intro x hx; exact absurd hx (List.not_mem_nil x))
      (by intro cl hcl; exact absurd hcl (List.not_mem_nil cl))
      (fun x hx => hx)
    refine ⟨?_, ?_, ?_, ?_⟩
    · intro p hp
      obtain ⟨cl, hcl, f, hf, hfp⟩ := k1 p (k3 p hp)
      refine ⟨cl, ?_, f, hf, hfp⟩
      rw [hfc]
      exact (mem_insSort _ _ _).mpr hcl
    · intro cl hcl f hf
      rw [hfc] at hcl
      exact (k2 cl ((mem_insSort _ _ _).mp hcl)).2.2.2 f hf
    · intro cl hcl
      rw [hfc] at hcl
      obtain ⟨hsz, hne, hsort, _⟩ := k2 cl ((mem_insSort _ _ _).mp hcl)
      exact ⟨hsz, hne, hsort⟩
    · rw [hfc]
      have htot : ∀ a b : Cluster,
          (decide (b.size ≤ a.size)) = true ∨ (decide (a.size ≤ b.size)) = true := by
        intro a b
        rcases Nat.le_total b.size a.size with h | h
        · exact Or.inl (decide_eq_true h)
        · exact Or.inr (decide_eq_true h)
      have htr : ∀ a b c : Cluster, (decide (b.size ≤ a.size)) = true →
          (decide (c.size ≤ b.size)) = true → (decide (c.size ≤ a.size)) = true := by
        intro a b c h1 h2
        exact decide_eq_true (Nat.le_trans (of_decide_eq_true h2) (of_decide_eq_true h1))
      have hs := insSort_sorted htot htr
        ((isolatedList nodes pats).foldl
          (clusterStep nodes (isolatedList nodes pats)) ([], [])).1
      exact hs.imp (fun h => of_decide_eq_true h)

end DocMeta

namespace DocMeta

/-! ### Glob translation (`globToRegex`)

`globToRegex` builds a regex source string by a chain of global string
replacements and compiles it with `new RegExp`; the matcher is
`regex.test(path)`, an *unanchored* search.  The replacements are embedded
as `escChar` (the character-class escape pass) and `repAll` (one
left-to-right non-overlapping global replace); the compiled matcher is
embedded by parsing the emitted regex dialect into `RE` tokens and running
the `reTest` interpreter. -/

/-- The escape pass: prefix every character of the class
`[.+^$\x7b\x7d()|[\]\\]` with a backslash (`*` and `?` are left alone). -/
def classChar (c : Char) : Bool :=
  c = '.' || c = '+' || c = '^' || c = '$' || c = '\x7b' || c = '\x7d' ||
    c = '(' || c = ')' || c = '|' || c = '[' || c = ']' || c = '\\'

def escChar (c : Char) : List Char :=
  if classChar c then ['\\', c] else [c]

/-- One global replace `s.replace(/pat/g, repl)`: scan left to right, replace
non-overlapping occurrences, never rescanning the replacement.  The fuel
bounds the scan; every step consumes at least one input character, so the
input length is always enough fuel for a nonempty pattern. -/
def repAll (pat repl : List Char) : Nat → List Char → List Char
  | 0, s => s
  | _ + 1, [] => []
  | fuel + 1, c :: rest =>
    if pat.isPrefixOf (c :: rest) then
      repl ++ repAll pat repl fuel (List.drop pat.length (c :: rest))
    else c :: repAll pat repl fuel rest

/-- The `{{GLOBSTAR_SLASH}}` placeholder. -/
def gsSlashMark : List Char :=
  ['\x7b', '\x7b', 'G', 'L', 'O', 'B', 'S', 'T', 'A', 'R', '_', 'S', 'L', 'A',
   'S', 'H', '\x7d', '\x7d']

/-- The `{{GLOBSTAR}}` placeholder. -/
def gsMark : List Char :=
  ['\x7b', '\x7b', 'G', 'L', 'O', 'B', 'S', 'T', 'A', 'R', '\x7d', '\x7d']

/-- Does the pattern end in one of the four recognized extensions? -/
def extCheck (pattern : String) : Bool :=
  strEnds pattern ".js" || strEnds pattern ".ts" || strEnds pattern ".tsx" ||
    strEnds pattern ".jsx"

/-- The regex source built by `globToRegex`, without the final `$` anchor:
escape pass, the five global replaces, then the `/` prefix for patterns not
starting with `*`. -/
def globToRegexCore (pattern : String) : String :=
  let s1 := pattern.data.flatMap escChar
  let s2 := repAll ['*', '*', '/'] gsSlashMark s1.length s1
  let s3 := repAll ['*', '*'] gsMark s2.length s2
  let s4 := repAll ['*'] ['[', '^', '/', ']', '*'] s3.length s3
  let s5 := repAll gsSlashMark ['(', '?', ':', '.', '*', '/', ')', '?'] s4.length s4
  let s6 := repAll gsMark ['.', '*'] s5.length s5
  if strStarts pattern "*" then String.mk s6 else String.mk ('/' :: s6)

/-- The full regex source of `globToRegex`, with the `$` anchor appended for
patterns ending in a recognized extension. -/
def globToRegexStr (pattern : String) : String :=
  globToRegexCore pattern ++ (if extCheck pattern then "$" else "")

/-- The tokens of the regex dialect that `globToRegex` emits: a literal
character, an optional character (`c?` — the unescaped `?` quantifier),
`[^/]*`, `.*`, and `(?:.*/)?`. -/
inductive RE where
  | lit (c : Char)
  | opt (c : Char)
  | anyNoSlash
  | anyStar
  | optDirs
  deriving Repr, DecidableEq

/-- Regex metacharacters: a bare occurrence outside the recognized token
forms is refused by the parser. -/
def reMeta (c : Char) : Bool :=
  c = '.' || c = '+' || c = '^' || c = '$' || c = '\x7b' || c = '\x7d' ||
    c = '(' || c = ')' || c = '|' || c = '[' || c = ']' || c = '\\' ||
    c = '*' || c = '?'

/-- The raw tokens of the emitted dialect; `qmark` is a bare `?`, merged
into an optional-character token by `mergeQ`. -/
inductive RE0 where
  | lit (c : Char)
  | qmark
  | anyNoSlash
  | anyStar
  | optDirs
  deriving Repr, DecidableEq

/-- Tokenize the emitted regex source.  The fuel bounds the scan; every token
consumes at least one character, so `length + 1` is always enough. -/
def parseRe0 : Nat → List Char → Option (List RE0)
  | 0, _ => none
  | fuel + 1, s =>
    match s with
    | [] => some []
    | c :: rest =>
      if c = '\\' then
        match rest with
        | [] => none
        | d :: rest' => (parseRe0 fuel rest').map (fun rs => RE0.lit d :: rs)
      else if c = '[' then
        match rest with
        | d1 :: d2 :: d3 :: d4 :: rest' =>
          if d1 = '^' && d2 = '/' && d3 = ']' && d4 = '*' then
            (parseRe0 fuel rest').map (fun rs => RE0.anyNoSlash :: rs)
          else none
        | _ => none
      else if c = '(' then
        match rest with
        | d1 :: d2 :: d3 :: d4 :: d5 :: d6 :: d7 :: rest' =>
          if d1 = '?' && d2 = ':' && d3 = '.' && d4 = '*' && d5 = '/' && d6 = ')' &&
              d7 = '?' then
            (parseRe0 fuel rest').map (fun rs => RE0.optDirs :: rs)
          else none
        | _ => none
      else if c = '.' then
        match rest with
        | d1 :: rest' =>
          if d1 = '*' then (parseRe0 fuel rest').map (fun rs => RE0.anyStar :: rs)
          else none
        | [] => none
      else if c = '?' then (parseRe0 fuel rest).map (fun rs => RE0.qmark :: rs)
      else if reMeta c then none
      else (parseRe0 fuel rest).map (fun rs => RE0.lit c :: rs)

/-- Attach each bare `?` to the literal before it (the JS `c?` quantifier);
any other bare `?` use falls outside the dialect. -/
def mergeQ : List RE0 → Option (List RE)
  | [] => some []
  | RE0.lit c :: RE0.qmark :: rest => (mergeQ rest).map (fun rs => RE.opt c :: rs)
  | RE0.lit c :: rest => (mergeQ rest).map (fun rs => RE.lit c :: rs)
  | RE0.qmark :: _ => none
  | RE0.anyNoSlash :: rest => (mergeQ rest).map (fun rs => RE.anyNoSlash :: rs)
  | RE0.anyStar :: rest => (mergeQ rest).map (fun rs => RE.anyStar :: rs)
  | RE0.optDirs :: rest => (mergeQ rest).map (fun rs => RE.optDirs :: rs)

/-- Parse the emitted regex source (without the `$` anchor) into tokens. -/
def parseRe (s : List Char) : Option (List RE) :=
  (parseRe0 (s.length + 1) s).bind mergeQ

/-- All suffixes of a character list, longest first. -/
def suffixes : List Char → List (List Char)
  | [] => [[]]
  | c :: rest => (c :: rest) :: suffixes rest

/-- The suffixes reachable by consuming only non-`/` characters. -/
def nonSlashSuffixes : List Char → List (List Char)
  | [] => [[]]
  | c :: rest => (c :: rest) :: (if c = '/' then [] else nonSlashSuffixes rest)

/-- The suffixes that start right after a `/`. -/
def slashSuffixes : List Char → List (List Char)
  | [] => []
  | c :: rest => (if c = '/' then [rest] else []) ++ slashSuffixes rest

/-- The possible remainders after matching a token sequence against a prefix
of the input. -/
def reRems : List RE → List Char → List (List Char)
  | [], s => [s]
  | RE.lit c :: rs, s =>
    match s with
    | [] => []
    | d :: t => if d = c then reRems rs t else []
  | RE.opt c :: rs, s =>
    reRems rs s ++
      (match s with
       | [] => []
       | d :: t => if d = c then reRems rs t else [])
  | RE.anyNoSlash :: rs, s => (nonSlashSuffixes s).flatMap (fun t => reRems rs t)
  | RE.anyStar :: rs, s => (suffixes s).flatMap (fun t => reRems rs t)
  | RE.optDirs :: rs, s =>
    reRems rs s ++ (slashSuffixes s).flatMap (fun t => reRems rs t)

/-- `regex.test(path)`: search for a match starting at any position; with the
`$` anchor the match must end at the end of the input. -/
def reTest (seq : List RE) (endAnchor : Bool) (s : List Char) : Bool :=
  (suffixes s).any (fun st => (reRems seq st).any (fun rem => !endAnchor || rem.isEmpty))

/-- The compiled matcher of `globToRegex`: parse the emitted regex source and
run the interpreter; `none` models a source outside the emitted dialect. -/
def globTest (pattern path : String) : Option Bool :=
  (parseRe (globToRegexCore pattern).data).map
    (fun seq => reTest seq (extCheck pattern) path.data)

/-- C7 counterexample: the compiled matchers are not anchored at the start of
the path — the pattern `app/**/route.ts` gets a `/` prefix but matches
`/src/app/api/route.ts`, which does not start with `/app` — and the `?`
metacharacter is not escaped, so `a?.js` matches `/.js` (the `a` becomes
optional) even though the path contains neither `a` nor `?` literally. -/
theorem c7_counterexample :
    globToRegexStr "app/**/route.ts" = "/app/(?:.*/)?route\\.ts$" ∧
    globTest "app/**/route.ts" "/src/app/api/route.ts" = some true ∧
    strStarts "/src/app/api/route.ts" "/app" = false ∧
    globToRegexStr "a?.js" = "/a?\\.js$" ∧
    globTest "a?.js" "/.js" = some true ∧
    strContains "/.js" "a" = false ∧
    strContains "/.js" "?" = false := by
  decide

/-! ### The well-formed glob fragment

A glob is a list of pieces: a literal character, `*`, `**`, or `**/`.  The
well-formedness conditions keep the replace chain and the emitted regex
unambiguous: literals avoid `*` and `?` (every other character, braces
included, goes through the escape pass or stands for itself), `*` and `**`
are never directly followed by another star piece, and `**` is never
directly followed by a literal `/` (that spelling is the `**/` piece).
`**/` may be followed by anything — in particular `**/` then `*`, as in the
shipped default pattern `pages/**/*.tsx`. -/

inductive Piece where
  | plit (c : Char)
  | pstar
  | pglobstar
  | pglobstarslash
  deriving Repr, DecidableEq

/-- The pattern text of a piece. -/
def pieceStr : Piece → List Char
  | Piece.plit c => [c]
  | Piece.pstar => ['*']
  | Piece.pglobstar => ['*', '*']
  | Piece.pglobstarslash => ['*', '*', '/']

/-- The pattern text of a glob. -/
def rendGlob (g : List Piece) : List Char := g.flatMap pieceStr

def pieceIsStar : Piece → Bool
  | Piece.plit _ => false
  | _ => true

def wfPiece : Piece → Bool
  | Piece.plit c => !(c = '*' || c = '?')
  | _ => true

def wfAdj : Piece → Piece → Bool
  | Piece.pstar, q => !pieceIsStar q
  | Piece.pglobstar, q => !pieceIsStar q && !(q = Piece.plit '/')
  | _, _ => true

/-- Well-formedness of a glob. -/
def WFGlob (g : List Piece) : Prop :=
  (∀ p ∈ g, wfPiece p = true) ∧ List.Chain' (fun a b => wfAdj a b = true) g

/-- The per-piece image after the escape pass. -/
def pieceEsc : Piece → List Char
  | Piece.plit c => escChar c
  | Piece.pstar => ['*']
  | Piece.pglobstar => ['*', '*']
  | Piece.pglobstarslash => ['*', '*', '/']

/-- After replacing `**/` with its placeholder. -/
def pieceF2 : Piece → List Char
  | Piece.plit c => escChar c
  | Piece.pstar => ['*']
  | Piece.pglobstar => ['*', '*']
  | Piece.pglobstarslash => gsSlashMark

/-- After replacing `**` with its placeholder. -/
def pieceF3 : Piece → List Char
  | Piece.plit c => escChar c
  | Piece.pstar => ['*']
  | Piece.pglobstar => gsMark
  | Piece.pglobstarslash => gsSlashMark

/-- After replacing `*` with `[^/]*`. -/
def pieceF4 : Piece → List Char
  | Piece.plit c => escChar c
  | Piece.pstar => ['[', '^', '/', ']', '*']
  | Piece.pglobstar => gsMark
  | Piece.pglobstarslash => gsSlashMark

/-- After expanding the `**/` placeholder. -/
def pieceF5 : Piece → List Char
  | Piece.plit c => escChar c
  | Piece.pstar => ['[', '^', '/', ']', '*']
  | Piece.pglobstar => gsMark
  | Piece.pglobstarslash => ['(', '?', ':', '.', '*', '/', ')', '?']

/-- After expanding the `**` placeholder: the final regex body. -/
def pieceF6 : Piece → List Char
  | Piece.plit c => escChar c
  | Piece.pstar => ['[', '^', '/', ']', '*']
  | Piece.pglobstar => ['.', '*']
  | Piece.pglobstarslash => ['(', '?', ':', '.', '*', '/', ')', '?']

/-- The intended token translation of a piece, following the spec's reading
of the emitted regex. -/
def pieceRe : Piece → List RE
  | Piece.plit c => [RE.lit c]
  | Piece.pstar => [RE.anyNoSlash]
  | Piece.pglobstar => [RE.anyStar]
  | Piece.pglobstarslash => [RE.optDirs]

theorem not_prefix_head {a c : Char} {as s : List Char} (h : c ≠ a) :
    (a :: as).isPrefixOf (c :: s) = false := by
  show (a == c && as.isPrefixOf s) = false
  rw [beq_eq_false_iff_ne.mpr (Ne.symm h)]
  rw [Bool.false_and]

theorem noStart_of_head_notin {p₀ : Char} {ps : List Char} :
    ∀ (b : List Char), ¬ p₀ ∈ b → ∀ (t : List Char) (k : Nat), k < b.length →
      (p₀ :: ps).isPrefixOf (b.drop k ++ t) = false := by
  intro b
  induction b with
  | nil =>
    intro _ t k hk
    exact absurd hk (by simp)
  | cons c b' ih =>
    intro h t k hk
    cases k with
    | zero =>
      exact not_prefix_head (fun hc => h (hc ▸ List.mem_cons_self c b'))
    | succ k =>
      exact ih (fun hc => h (List.mem_cons_of_mem c hc)) t k (Nat.lt_of_succ_lt_succ hk)

theorem isPrefixOf_append_self : ∀ (p t : List Char), p.isPrefixOf (p ++ t) = true := by
  intro p
  induction p with
  | nil => intro t; cases t <;> rfl
  | cons c p' ih =>
    intro t
    show (c == c && p'.isPrefixOf (p' ++ t)) = true
    rw [beq_self_eq_true, ih t, Bool.and_self]

theorem repAll_skip (pat repl : List Char) (fuel : Nat) (c : Char) (s : List Char)
    (h : pat.isPrefixOf (c :: s) = false) :
    repAll pat repl (fuel + 1) (c :: s) = c :: repAll pat repl fuel s := by
  rw [repAll, if_neg (by simp [h])]

theorem repAll_hit (pat repl : List Char) (fuel : Nat) (t : List Char)
    (hne : pat ≠ []) :
    repAll pat repl (fuel + 1) (pat ++ t) = repl ++ repAll pat repl fuel t := by
  obtain ⟨c, cs, rfl⟩ := List.exists_cons_of_ne_nil hne
  have hpre : (c :: cs).isPrefixOf (c :: (cs ++ t)) = true :=
    isPrefixOf_append_self (c :: cs) t
  show repAll (c :: cs) repl (fuel + 1) (c :: (cs ++ t)) = _
  rw [repAll, if_pos hpre]
  have hdrop : List.drop (c :: cs).length (c :: (cs ++ t)) = t := by
    rw [List.length_cons, List.drop_succ_cons, List.drop_left]
  rw [hdrop]

theorem wfPlit {c : Char} (h : wfPiece (Piece.plit c) = true) :
    c ≠ '*' ∧ c ≠ '?' := by
  simp only [wfPiece, Bool.not_eq_true', Bool.or_eq_false_iff, decide_eq_false_iff_not] at h
  exact ⟨h.1, h.2⟩

/-- The rendered tail of a glob cannot start with `p₀` when its first piece
is a literal other than `p₀` (under any stage map that renders literals with
`escChar`). -/
theorem tail_not_prefix (p₀ : Char) (ps : List Char) (fIn : Piece → List Char)
    (hfIn : ∀ c, fIn (Piece.plit c) = escChar c)
    (hp₀ : p₀ ≠ '\\')
    (g' : List Piece)
    (hq : ∀ q, g'.head? = some q → pieceIsStar q = false ∧ q ≠ Piece.plit p₀) :
    (p₀ :: ps).isPrefixOf (g'.flatMap fIn) = false := by
  cases g' with
  | nil => rfl
  | cons q g'' =>
    obtain ⟨hqs, hqne⟩ := hq q rfl
    cases q with
    | plit d =>
      rw [List.flatMap_cons, hfIn d]
      have hd : d ≠ p₀ := fun h => hqne (by rw [h])
      by_cases hcl : classChar d = true
      · rw [escChar, if_pos hcl]
        exact not_prefix_head (Ne.symm hp₀)
      · rw [escChar, if_neg hcl]
        exact not_prefix_head hd
    | pstar => exact Bool.noConfusion hqs
    | pglobstar => exact Bool.noConfusion hqs
    | pglobstarslash => exact Bool.noConfusion hqs

/-- Facts about the piece after a star piece, from well-formedness and the
adjacency condition. -/
theorem headStarFacts {g' : List Piece} (hwf' : ∀ q ∈ g', wfPiece q = true)
    {p : Piece} (hadj : ∀ b ∈ g'.head?, wfAdj p b = true)
    (hstar : ∀ q, wfAdj p q = true → pieceIsStar q = false) :
    ∀ q, g'.head? = some q →
      pieceIsStar q = false ∧ q ≠ Piece.plit '*' := by
  intro q hq
  have hmem : q ∈ g' := List.mem_of_mem_head? (by rw [hq]; rfl)
  have hwfq := hwf' q hmem
  have hadjq := hadj q (by rw [hq]; rfl)
  refine ⟨hstar q hadjq, ?_⟩
  intro h
  rw [h] at hwfq
  exact absurd hwfq (by decide)

theorem bnot_true {b : Bool} (h : (!b) = true) : b = false := by
  cases b
  · rfl
  · exact absurd h (by decide)

theorem repAll_safe_block (pat repl : List Char) :
    ∀ (b t : List Char),
      (∀ k, k < b.length → pat.isPrefixOf (b.drop k ++ t) = false) →
      ∀ (fuel : Nat),
        repAll pat repl (b.length + fuel) (b ++ t) = b ++ repAll pat repl fuel t := by
  intro b
  induction b with
  | nil =>
    intro t _ fuel
    rw [List.length_nil, Nat.zero_add]
    rfl
  | cons c b' ih =>
    intro t hsafe fuel
    have hlen : (c :: b').length + fuel = (b'.length + fuel) + 1 := by
      rw [List.length_cons]
      omega
    rw [hlen]
    have h0 : pat.isPrefixOf (c :: (b' ++ t)) = false := hsafe 0 (by simp)
    rw [show ((c :: b') ++ t) = c :: (b' ++ t) from rfl]
    rw [repAll_skip pat repl (b'.length + fuel) c (b' ++ t) h0]
    rw [ih t (fun k hk => hsafe (k + 1) (by simp; omega)) fuel]
    rfl

/-- Stage 2 of the replace chain: `**/` becomes its placeholder, piece by
piece. -/
theorem stage2_eq (g : List Piece) :
    (∀ p ∈ g, wfPiece p = true) → List.Chain' (fun a b => wfAdj a b = true) g →
    ∀ fuel, (g.flatMap pieceEsc).length ≤ fuel →
      repAll ['*', '*', '/'] gsSlashMark fuel (g.flatMap pieceEsc) =
        g.flatMap pieceF2 := by
  induction g with
  | nil =>
    intro _ _ fuel _
    cases fuel <;> rfl
  | cons p g' ih =>
    intro hwf hchain fuel hfuel
    have hwf' : ∀ q ∈ g', wfPiece q = true := fun q hq => hwf q (List.mem_cons_of_mem p hq)
    have hchain' : List.Chain' (fun a b => wfAdj a b = true) g' := hchain.tail
    have hadj : ∀ b ∈ g'.head?, wfAdj p b = true := (List.chain'_cons'.mp hchain).1
    cases p with
    | plit c =>
      obtain ⟨hc1, _⟩ := wfPlit (hwf _ (List.mem_cons_self _ _))
      have hlen : (escChar c).length + (g'.flatMap pieceEsc).length ≤ fuel := by
        have h2 : (escChar c ++ g'.flatMap pieceEsc).length ≤ fuel := hfuel
        rw [List.length_append] at h2
        exact h2
      have hstar : ¬ '*' ∈ escChar c := by
        rw [escChar]
        by_cases hcl : classChar c = true
        · rw [if_pos hcl]
          intro hmem
          rcases List.mem_cons.mp hmem with h | h
          · exact absurd h (by decide)
          · rw [List.mem_singleton] at h
            exact hc1 h.symm
        · rw [if_neg hcl]
          intro hmem
          rw [List.mem_singleton] at hmem
          exact hc1 hmem.symm
      have hsafe : ∀ k, k < (escChar c).length →
          (['*', '*', '/'] : List Char).isPrefixOf
            ((escChar c).drop k ++ g'.flatMap pieceEsc) = false :=
        noStart_of_head_notin (escChar c) hstar _
      obtain ⟨f', rfl⟩ : ∃ f', fuel = (escChar c).length + f' :=
        ⟨fuel - (escChar c).length, by omega⟩
      show repAll ['*', '*', '/'] gsSlashMark ((escChar c).length + f')
          (escChar c ++ g'.flatMap pieceEsc) = escChar c ++ g'.flatMap pieceF2
      rw [repAll_safe_block _ _ _ _ hsafe f']
      rw [ih hwf' hchain' f' (by omega)]
    | pstar =>
      have hlen : 1 + (g'.flatMap pieceEsc).length ≤ fuel := by
        have h2 : ((['*'] : List Char) ++ g'.flatMap pieceEsc).length ≤ fuel := hfuel
        rw [List.length_append] at h2
        exact h2
      have hq := headStarFacts hwf' hadj
        (fun q h => bnot_true (show (!pieceIsStar q) = true from h))
      have hsafe : ∀ k, k < (['*'] : List Char).length →
          (['*', '*', '/'] : List Char).isPrefixOf
            ((['*'] : List Char).drop k ++ g'.flatMap pieceEsc) = false := by
        intro k hk
        have hk' : k < 1 := hk
        have hk0 : k = 0 := by omega
        subst hk0
        show (('*' == '*') && (['*', '/'] : List Char).isPrefixOf (g'.flatMap pieceEsc)) =
          false
        rw [beq_self_eq_true, Bool.true_and]
        exact tail_not_prefix '*' ['/'] pieceEsc (fun c => rfl) (by decide) g'
          (fun q h => ⟨(hq q h).1, (hq q h).2⟩)
      obtain ⟨f', rfl⟩ : ∃ f', fuel = 1 + f' := ⟨fuel - 1, by omega⟩
      show repAll ['*', '*', '/'] gsSlashMark ((['*'] : List Char).length + f')
          (['*'] ++ g'.flatMap pieceEsc) = ['*'] ++ g'.flatMap pieceF2
      rw [repAll_safe_block _ _ _ _ hsafe f']
      rw [ih hwf' hchain' f' (by omega)]
    | pglobstar =>
      have hlen : 2 + (g'.flatMap pieceEsc).length ≤ fuel := by
        have h2 : ((['*', '*'] : List Char) ++ g'.flatMap pieceEsc).length ≤ fuel := hfuel
        rw [List.length_append] at h2
        exact h2
      have hstarq : ∀ q, wfAdj Piece.pglobstar q = true → pieceIsStar q = false := by
        intro q h
        have h' : (!pieceIsStar q && !(q = Piece.plit '/')) = true := h
        rw [Bool.and_eq_true] at h'
        exact bnot_true h'.1
      have hq := headStarFacts hwf' hadj hstarq
      have hslash : ∀ q, g'.head? = some q → q ≠ Piece.plit '/' := by
        intro q h
        have hadjq := hadj q (by rw [h]; rfl)
        have h' : (!pieceIsStar q && !(q = Piece.plit '/')) = true := hadjq
        rw [Bool.and_eq_true] at h'
        have h'' := bnot_true h'.2
        exact fun he => by
          rw [he] at h''
          simp at h''
      have hsafe : ∀ k, k < (['*', '*'] : List Char).length →
          (['*', '*', '/'] : List Char).isPrefixOf
            ((['*', '*'] : List Char).drop k ++ g'.flatMap pieceEsc) = false := by
        intro k hk
        have hk' : k < 2 := hk
        rcases (by omega : k = 0 ∨ k = 1) with rfl | rfl
        · show (('*' == '*') && (('*' == '*') &&
            (['/'] : List Char).isPrefixOf (g'.flatMap pieceEsc))) = false
          rw [beq_self_eq_true, Bool.true_and, Bool.true_and]
          exact tail_not_prefix '/' [] pieceEsc (fun c => rfl) (by decide) g'
            (fun q h => ⟨(hq q h).1, hslash q h⟩)
        · show (('*' == '*') && (['*', '/'] : List Char).isPrefixOf (g'.flatMap pieceEsc)) =
            false
          rw [beq_self_eq_true, Bool.true_and]
          exact tail_not_prefix '*' ['/'] pieceEsc (fun c => rfl) (by decide) g'
            (fun q h => ⟨(hq q h).1, (hq q h).2⟩)
      obtain ⟨f', rfl⟩ : ∃ f', fuel = 2 + f' := ⟨fuel - 2, by omega⟩
      show repAll ['*', '*', '/'] gsSlashMark ((['*', '*'] : List Char).length + f')
          (['*', '*'] ++ g'.flatMap pieceEsc) = ['*', '*'] ++ g'.flatMap pieceF2
      rw [repAll_safe_block _ _ _ _ hsafe f']
      rw [ih hwf' hchain' f' (by omega)]
    | pglobstarslash =>
      have hlen : 3 + (g'.flatMap pieceEsc).length ≤ fuel := by
        have h2 : ((['*', '*', '/'] : List Char) ++ g'.flatMap pieceEsc).length ≤ fuel :=
          hfuel
        rw [List.length_append] at h2
        exact h2
      obtain ⟨f', rfl⟩ : ∃ f', fuel = f' + 1 := ⟨fuel - 1, by omega⟩
      show repAll ['*', '*', '/'] gsSlashMark (f' + 1)
          (['*', '*', '/'] ++ g'.flatMap pieceEsc) = gsSlashMark ++ g'.flatMap pieceF2
      rw [repAll_hit _ _ f' _ (by decide)]
      rw [ih hwf' hchain' f' (by omega)]

/-- Stepping one safe block through a stage. -/
theorem stage_cons_safe (pat repl : List Char) (fIn fOut : Piece → List Char)
    (b : List Char) (g' : List Piece) (fuel : Nat)
    (hb : (b ++ g'.flatMap fIn).length ≤ fuel)
    (hsafe : ∀ k, k < b.length → pat.isPrefixOf (b.drop k ++ g'.flatMap fIn) = false)
    (hrec : ∀ f', (g'.flatMap fIn).length ≤ f' →
      repAll pat repl f' (g'.flatMap fIn) = g'.flatMap fOut) :
    repAll pat repl fuel (b ++ g'.flatMap fIn) = b ++ g'.flatMap fOut := by
  have hlen : b.length + (g'.flatMap fIn).length ≤ fuel := by
    rw [← List.length_append]
    exact hb
  obtain ⟨f', rfl⟩ : ∃ f', fuel = b.length + f' := ⟨fuel - b.length, by omega⟩
  rw [repAll_safe_block _ _ _ _ hsafe f']
  rw [hrec f' (by omega)]

/-- Stepping one hit block (the pattern itself) through a stage. -/
theorem stage_cons_hit (pat repl : List Char) (fIn fOut : Piece → List Char)
    (g' : List Piece) (fuel : Nat) (hne : pat ≠ [])
    (hb : (pat ++ g'.flatMap fIn).length ≤ fuel)
    (hrec : ∀ f', (g'.flatMap fIn).length ≤ f' →
      repAll pat repl f' (g'.flatMap fIn) = g'.flatMap fOut) :
    repAll pat repl fuel (pat ++ g'.flatMap fIn) = repl ++ g'.flatMap fOut := by
  have hlen : pat.length + (g'.flatMap fIn).length ≤ fuel := by
    rw [← List.length_append]
    exact hb
  have hp : 1 ≤ pat.length := by
    cases pat
    · exact absurd rfl hne
    · simp
  obtain ⟨f', rfl⟩ : ∃ f', fuel = f' + 1 := ⟨fuel - 1, by omega⟩
  rw [repAll_hit _ _ f' _ hne]
  rw [hrec f' (by omega)]

/-- An escaped literal block cannot start a match of a pattern led by `p₀`,
for `p₀` neither the backslash nor the literal itself. -/
theorem escChar_safe (c p₀ : Char) (hc : c ≠ p₀) (hb : p₀ ≠ '\\') (ps t : List Char) :
    ∀ k, k < (escChar c).length →
      ((p₀ :: ps) : List Char).isPrefixOf ((escChar c).drop k ++ t) = false := by
  apply noStart_of_head_notin
  rw [escChar]
  by_cases hcl : classChar c = true
  · rw [if_pos hcl]
    intro hmem
    rcases List.mem_cons.mp hmem with h | h
    · exact hb h
    · rw [List.mem_singleton] at h
      exact hc h.symm
  · rw [if_neg hcl]
    intro hmem
    rw [List.mem_singleton] at hmem
    exact hc hmem.symm

/-- The rendered tail of a glob cannot continue a placeholder match that has
already consumed one `\x7b`: every piece's block either does not start with
`\x7b` (escaped literals start with the backslash, a bare literal is never a
brace since braces are escaped, `[^/]*` starts with the bracket), or starts
with the two braces of a placeholder, whose second character clashes with
the `G` expected next.  Works for any stage map rendering `*` as `[^/]*`,
`**` as its placeholder, and `**/` as either its placeholder or its final
expansion. -/
theorem tail_not_braceG (ps2 : List Char) (fIn : Piece → List Char)
    (hlit : ∀ c, fIn (Piece.plit c) = escChar c)
    (hstar : fIn Piece.pstar = ['[', '^', '/', ']', '*'])
    (hgs : fIn Piece.pglobstar = gsMark)
    (hgss : fIn Piece.pglobstarslash = gsSlashMark ∨
      fIn Piece.pglobstarslash = ['(', '?', ':', '.', '*', '/', ')', '?']) :
    ∀ (g' : List Piece),
      (('\x7b' :: 'G' :: ps2) : List Char).isPrefixOf (g'.flatMap fIn) = false := by
  intro g'
  cases g' with
  | nil => rfl
  | cons q g'' =>
    rw [List.flatMap_cons]
    cases q with
    | plit d =>
      rw [hlit d]
      by_cases hcl : classChar d = true
      · rw [escChar, if_pos hcl]
        exact not_prefix_head (by decide)
      · rw [escChar, if_neg hcl]
        refine not_prefix_head (fun hd => hcl ?_)
        rw [hd]
        decide
    | pstar =>
      rw [hstar]
      exact not_prefix_head (by decide)
    | pglobstar =>
      rw [hgs, gsMark]
      show (('\x7b' == '\x7b') && (('G' :: ps2) : List Char).isPrefixOf
        ('\x7b' :: (['G', 'L', 'O', 'B', 'S', 'T', 'A', 'R', '\x7d', '\x7d'] ++
          g''.flatMap fIn))) = false
      rw [beq_self_eq_true, Bool.true_and]
      exact not_prefix_head (by decide)
    | pglobstarslash =>
      rcases hgss with h | h
      · rw [h, gsSlashMark]
        show (('\x7b' == '\x7b') && (('G' :: ps2) : List Char).isPrefixOf
          ('\x7b' :: (['G', 'L', 'O', 'B', 'S', 'T', 'A', 'R', '_', 'S', 'L', 'A',
            'S', 'H', '\x7d', '\x7d'] ++ g''.flatMap fIn))) = false
        rw [beq_self_eq_true, Bool.true_and]
        exact not_prefix_head (by decide)
      · rw [h]
        exact not_prefix_head (by decide)

/-- An escaped literal block cannot start a match of a placeholder pattern
`\x7b\x7bG…`, even when the literal is itself a brace: a match at the
backslash fails on the first character, and a match at the escaped brace
fails inside the rendered tail (`tail_not_braceG`). -/
theorem escBrace_safe (fIn : Piece → List Char) (ps2 : List Char)
    (hlit : ∀ c, fIn (Piece.plit c) = escChar c)
    (hstar : fIn Piece.pstar = ['[', '^', '/', ']', '*'])
    (hgs : fIn Piece.pglobstar = gsMark)
    (hgss : fIn Piece.pglobstarslash = gsSlashMark ∨
      fIn Piece.pglobstarslash = ['(', '?', ':', '.', '*', '/', ')', '?'])
    (c : Char) (g' : List Piece) :
    ∀ k, k < (escChar c).length →
      (('\x7b' :: '\x7b' :: 'G' :: ps2) : List Char).isPrefixOf
        ((escChar c).drop k ++ g'.flatMap fIn) = false := by
  by_cases hcb : c = '\x7b'
  · subst hcb
    intro k hk
    have hk2 : k < 2 := hk
    rcases (by omega : k = 0 ∨ k = 1) with rfl | rfl
    · show (('\x7b' :: '\x7b' :: 'G' :: ps2) : List Char).isPrefixOf
        ('\\' :: '\x7b' :: g'.flatMap fIn) = false
      exact not_prefix_head (by decide)
    · show (('\x7b' :: '\x7b' :: 'G' :: ps2) : List Char).isPrefixOf
        ('\x7b' :: g'.flatMap fIn) = false
      show (('\x7b' == '\x7b') && (('\x7b' :: 'G' :: ps2) : List Char).isPrefixOf
        (g'.flatMap fIn)) = false
      rw [beq_self_eq_true, Bool.true_and]
      exact tail_not_braceG ps2 fIn hlit hstar hgs hgss g'
  · exact escChar_safe c '\x7b' hcb (by decide) _ _

/-- Stage 3: `**` becomes its placeholder. -/
theorem stage3_eq (g : List Piece) :
    (∀ p ∈ g, wfPiece p = true) → List.Chain' (fun a b => wfAdj a b = true) g →
    ∀ fuel, (g.flatMap pieceF2).length ≤ fuel →
      repAll ['*', '*'] gsMark fuel (g.flatMap pieceF2) = g.flatMap pieceF3 := by
  induction g with
  | nil =>
    intro _ _ fuel _
    cases fuel <;> rfl
  | cons p g' ih =>
    intro hwf hchain fuel hfuel
    have hwf' : ∀ q ∈ g', wfPiece q = true := fun q hq => hwf q (List.mem_cons_of_mem p hq)
    have hchain' : List.Chain' (fun a b => wfAdj a b = true) g' := hchain.tail
    have hadj : ∀ b ∈ g'.head?, wfAdj p b = true := (List.chain'_cons'.mp hchain).1
    have hrec : ∀ f', (g'.flatMap pieceF2).length ≤ f' →
        repAll ['*', '*'] gsMark f' (g'.flatMap pieceF2) = g'.flatMap pieceF3 :=
      fun f' hf' => ih hwf' hchain' f' hf'
    cases p with
    | plit c =>
      obtain ⟨hc1, _⟩ := wfPlit (hwf _ (List.mem_cons_self _ _))
      exact stage_cons_safe _ _ pieceF2 pieceF3 (escChar c) g' fuel hfuel
        (escChar_safe c '*' hc1 (by decide) _ _) hrec
    | pstar =>
      have hq := headStarFacts hwf' hadj
        (fun q h => bnot_true (show (!pieceIsStar q) = true from h))
      refine stage_cons_safe _ _ pieceF2 pieceF3 ['*'] g' fuel hfuel ?_ hrec
      intro k hk
      have hk' : k < 1 := hk
      have hk0 : k = 0 := by omega
      subst hk0
      show (('*' == '*') && (['*'] : List Char).isPrefixOf (g'.flatMap pieceF2)) = false
      rw [beq_self_eq_true, Bool.true_and]
      exact tail_not_prefix '*' [] pieceF2 (fun c => rfl) (by decide) g'
        (fun q h => ⟨(hq q h).1, (hq q h).2⟩)
    | pglobstar =>
      exact stage_cons_hit _ _ pieceF2 pieceF3 g' fuel (by decide) hfuel hrec
    | pglobstarslash =>
      exact stage_cons_safe _ _ pieceF2 pieceF3 gsSlashMark g' fuel hfuel
        (noStart_of_head_notin gsSlashMark (by decide) _) hrec

/-- Stage 4: `*` becomes `[^/]*`. -/
theorem stage4_eq (g : List Piece) :
    (∀ p ∈ g, wfPiece p = true) → List.Chain' (fun a b => wfAdj a b = true) g →
    ∀ fuel, (g.flatMap pieceF3).length ≤ fuel →
      repAll ['*'] ['[', '^', '/', ']', '*'] fuel (g.flatMap pieceF3) =
        g.flatMap pieceF4 := by
  induction g with
  | nil =>
    intro _ _ fuel _
    cases fuel <;> rfl
  | cons p g' ih =>
    intro hwf hchain fuel hfuel
    have hwf' : ∀ q ∈ g', wfPiece q = true := fun q hq => hwf q (List.mem_cons_of_mem p hq)
    have hchain' : List.Chain' (fun a b => wfAdj a b = true) g' := hchain.tail
    have hrec : ∀ f', (g'.flatMap pieceF3).length ≤ f' →
        repAll ['*'] ['[', '^', '/', ']', '*'] f' (g'.flatMap pieceF3) =
          g'.flatMap pieceF4 :=
      fun f' hf' => ih hwf' hchain' f' hf'
    cases p with
    | plit c =>
      obtain ⟨hc1, _⟩ := wfPlit (hwf _ (List.mem_cons_self _ _))
      exact stage_cons_safe _ _ pieceF3 pieceF4 (escChar c) g' fuel hfuel
        (escChar_safe c '*' hc1 (by decide) _ _) hrec
    | pstar =>
      exact stage_cons_hit _ _ pieceF3 pieceF4 g' fuel (by decide) hfuel hrec
    | pglobstar =>
      exact stage_cons_safe _ _ pieceF3 pieceF4 gsMark g' fuel hfuel
        (noStart_of_head_notin gsMark (by decide) _) hrec
    | pglobstarslash =>
      exact stage_cons_safe _ _ pieceF3 pieceF4 gsSlashMark g' fuel hfuel
        (noStart_of_head_notin gsSlashMark (by decide) _) hrec

/-- Stage 5: the `**/` placeholder becomes `(?:.*/)?`. -/
theorem stage5_eq (g : List Piece) :
    (∀ p ∈ g, wfPiece p = true) → List.Chain' (fun a b => wfAdj a b = true) g →
    ∀ fuel, (g.flatMap pieceF4).length ≤ fuel →
      repAll gsSlashMark ['(', '?', ':', '.', '*', '/', ')', '?'] fuel
        (g.flatMap pieceF4) = g.flatMap pieceF5 := by
  induction g with
  | nil =>
    intro _ _ fuel _
    cases fuel <;> rfl
  | cons p g' ih =>
    intro hwf hchain fuel hfuel
    have hwf' : ∀ q ∈ g', wfPiece q = true := fun q hq => hwf q (List.mem_cons_of_mem p hq)
    have hchain' : List.Chain' (fun a b => wfAdj a b = true) g' := hchain.tail
    have hrec : ∀ f', (g'.flatMap pieceF4).length ≤ f' →
        repAll gsSlashMark ['(', '?', ':', '.', '*', '/', ')', '?'] f'
          (g'.flatMap pieceF4) = g'.flatMap pieceF5 :=
      fun f' hf' => ih hwf' hchain' f' hf'
    cases p with
    | plit c =>
      exact stage_cons_safe _ _ pieceF4 pieceF5 (escChar c) g' fuel hfuel
        (escBrace_safe pieceF4 _ (fun c => rfl) rfl rfl (Or.inl rfl) c g') hrec
    | pstar =>
      exact stage_cons_safe _ _ pieceF4 pieceF5 ['[', '^', '/', ']', '*'] g' fuel hfuel
        (noStart_of_head_notin ['[', '^', '/', ']', '*'] (by decide) _) hrec
    | pglobstar =>
      refine stage_cons_safe _ _ pieceF4 pieceF5 gsMark g' fuel hfuel ?_ hrec
      intro k hk
      have hk' : k < 12 := hk
      rcases (by omega :
          k = 0 ∨ k = 1 ∨ k = 2 ∨ k = 3 ∨ k = 4 ∨ k = 5 ∨ k = 6 ∨ k = 7 ∨ k = 8 ∨
            k = 9 ∨ k = 10 ∨ k = 11) with
        rfl | rfl | rfl | rfl | rfl | rfl | rfl | rfl | rfl | rfl | rfl | rfl <;> rfl
    | pglobstarslash =>
      exact stage_cons_hit _ _ pieceF4 pieceF5 g' fuel (by decide) hfuel hrec

/-- Stage 6: the `**` placeholder becomes `.*`, yielding the final body. -/
theorem stage6_eq (g : List Piece) :
    (∀ p ∈ g, wfPiece p = true) → List.Chain' (fun a b => wfAdj a b = true) g →
    ∀ fuel, (g.flatMap pieceF5).length ≤ fuel →
      repAll gsMark ['.', '*'] fuel (g.flatMap pieceF5) = g.flatMap pieceF6 := by
  induction g with
  | nil =>
    intro _ _ fuel _
    cases fuel <;> rfl
  | cons p g' ih =>
    intro hwf hchain fuel hfuel
    have hwf' : ∀ q ∈ g', wfPiece q = true := fun q hq => hwf q (List.mem_cons_of_mem p hq)
    have hchain' : List.Chain' (fun a b => wfAdj a b = true) g' := hchain.tail
    have hrec : ∀ f', (g'.flatMap pieceF5).length ≤ f' →
        repAll gsMark ['.', '*'] f' (g'.flatMap pieceF5) = g'.flatMap pieceF6 :=
      fun f' hf' => ih hwf' hchain' f' hf'
    cases p with
    | plit c =>
      exact stage_cons_safe _ _ pieceF5 pieceF6 (escChar c) g' fuel hfuel
        (escBrace_safe pieceF5 _ (fun c => rfl) rfl rfl (Or.inr rfl) c g') hrec
    | pstar =>
      exact stage_cons_safe _ _ pieceF5 pieceF6 ['[', '^', '/', ']', '*'] g' fuel hfuel
        (noStart_of_head_notin ['[', '^', '/', ']', '*'] (by decide) _) hrec
    | pglobstar =>
      exact stage_cons_hit _ _ pieceF5 pieceF6 g' fuel (by decide) hfuel hrec
    | pglobstarslash =>
      exact stage_cons_safe _ _ pieceF5 pieceF6 ['(', '?', ':', '.', '*', '/', ')', '?']
        g' fuel hfuel
        (noStart_of_head_notin ['(', '?', ':', '.', '*', '/', ')', '?'] (by decide) _) hrec

/-- Stage 1: the escape pass acts piecewise on a glob. -/
theorem stage1_eq (g : List Piece) :
    (rendGlob g).flatMap escChar = g.flatMap pieceEsc := by
  rw [rendGlob]
  induction g with
  | nil => rfl
  | cons p g' ih =>
    rw [List.flatMap_cons, List.flatMap_cons, List.flatMap_append, ih]
    congr 1
    cases p with
    | plit c =>
      show escChar c ++ [] = escChar c
      exact List.append_nil _
    | pstar => rfl
    | pglobstar => rfl
    | pglobstarslash => rfl

/-- The whole replace chain on a well-formed glob. -/
theorem core_eq (g : List Piece) (hwfp : ∀ p ∈ g, wfPiece p = true)
    (hchain : List.Chain' (fun a b => wfAdj a b = true) g) :
    globToRegexCore (String.mk (rendGlob g)) =
      if strStarts (String.mk (rendGlob g)) "*" then String.mk (g.flatMap pieceF6)
      else String.mk ('/' :: g.flatMap pieceF6) := by
  have h1 : (String.mk (rendGlob g)).data.flatMap escChar = g.flatMap pieceEsc :=
    stage1_eq g
  have h2 := stage2_eq g hwfp hchain (g.flatMap pieceEsc).length (Nat.le_refl _)
  have h3 := stage3_eq g hwfp hchain (g.flatMap pieceF2).length (Nat.le_refl _)
  have h4 := stage4_eq g hwfp hchain (g.flatMap pieceF3).length (Nat.le_refl _)
  have h5 := stage5_eq g hwfp hchain (g.flatMap pieceF4).length (Nat.le_refl _)
  have h6 := stage6_eq g hwfp hchain (g.flatMap pieceF5).length (Nat.le_refl _)
  simp only [globToRegexCore, h1, h2, h3, h4, h5, h6]

/-- The raw-token translation of a piece. -/
def pieceTok : Piece → List RE0
  | Piece.plit c => [RE0.lit c]
  | Piece.pstar => [RE0.anyNoSlash]
  | Piece.pglobstar => [RE0.anyStar]
  | Piece.pglobstarslash => [RE0.optDirs]

theorem parseRe0_nil (fuel : Nat) : parseRe0 (fuel + 1) [] = some [] := by
  rw [parseRe0]

theorem parseRe0_esc (fuel : Nat) (c : Char) (r : List Char) :
    parseRe0 (fuel + 1) ('\\' :: c :: r) =
      (parseRe0 fuel r).map (fun rs => RE0.lit c :: rs) := by
  rw [parseRe0]
  show (if '\\' = '\\' then _ else _) = _
  rw [if_pos rfl]

theorem parseRe0_noslash (fuel : Nat) (r : List Char) :
    parseRe0 (fuel + 1) ('[' :: '^' :: '/' :: ']' :: '*' :: r) =
      (parseRe0 fuel r).map (fun rs => RE0.anyNoSlash :: rs) := by
  rw [parseRe0]
  show (if ('[' : Char) = '\\' then _ else _) = _
  rw [if_neg (by decide)]
  show (if ('[' : Char) = '[' then _ else _) = _
  rw [if_pos rfl]
  show (if ('^' = '^' && '/' = '/' && ']' = ']' && '*' = '*') = true then _ else _) = _
  rw [if_pos (by decide)]

theorem parseRe0_optdirs (fuel : Nat) (r : List Char) :
    parseRe0 (fuel + 1) ('(' :: '?' :: ':' :: '.' :: '*' :: '/' :: ')' :: '?' :: r) =
      (parseRe0 fuel r).map (fun rs => RE0.optDirs :: rs) := by
  rw [parseRe0]
  show (if ('(' : Char) = '\\' then _ else _) = _
  rw [if_neg (by decide)]
  show (if ('(' : Char) = '[' then _ else _) = _
  rw [if_neg (by decide)]
  show (if ('(' : Char) = '(' then _ else _) = _
  rw [if_pos rfl]
  show (if ('?' = '?' && ':' = ':' && '.' = '.' && '*' = '*' && '/' = '/' && ')' = ')' &&
      '?' = '?') = true then _ else _) = _
  rw [if_pos (by decide)]

theorem parseRe0_star (fuel : Nat) (r : List Char) :
    parseRe0 (fuel + 1) ('.' :: '*' :: r) =
      (parseRe0 fuel r).map (fun rs => RE0.anyStar :: rs) := by
  rw [parseRe0]
  show (if ('.' : Char) = '\\' then _ else _) = _
  rw [if_neg (by decide)]
  show (if ('.' : Char) = '[' then _ else _) = _
  rw [if_neg (by decide)]
  show (if ('.' : Char) = '(' then _ else _) = _
  rw [if_neg (by decide)]
  show (if ('.' : Char) = '.' then _ else _) = _
  rw [if_pos rfl]
  show (if ('*' : Char) = '*' then _ else _) = _
  rw [if_pos rfl]

theorem parseRe0_bare (fuel : Nat) (c : Char) (r : List Char) (hmeta : reMeta c = false) :
    parseRe0 (fuel + 1) (c :: r) =
      (parseRe0 fuel r).map (fun rs => RE0.lit c :: rs) := by
  have h1 : ¬ c = '\\' := fun h => by rw [h] at hmeta; exact absurd hmeta (by decide)
  have h2 : ¬ c = '[' := fun h => by rw [h] at hmeta; exact absurd hmeta (by decide)
  have h3 : ¬ c = '(' := fun h => by rw [h] at hmeta; exact absurd hmeta (by decide)
  have h4 : ¬ c = '.' := fun h => by rw [h] at hmeta; exact absurd hmeta (by decide)
  have h5 : ¬ c = '?' := fun h => by rw [h] at hmeta; exact absurd hmeta (by decide)
  rw [parseRe0.eq_def]
  show (if c = '\\' then _ else _) = _
  rw [if_neg h1, if_neg h2, if_neg h3, if_neg h4, if_neg h5,
    if_neg (by rw [hmeta]; exact Bool.false_ne_true)]

theorem mergeQ_lit (c : Char) (r : List RE0) (hr : r.head? ≠ some RE0.qmark) :
    mergeQ (RE0.lit c :: r) = (mergeQ r).map (fun rs => RE.lit c :: rs) := by
  cases r with
  | nil => rfl
  | cons t r' =>
    cases t with
    | lit d => rfl
    | qmark => exact absurd rfl hr
    | anyNoSlash => rfl
    | anyStar => rfl
    | optDirs => rfl

theorem reMeta_false {c : Char} (h1 : classChar c = false) (h2 : c ≠ '*')
    (h3 : c ≠ '?') : reMeta c = false := by
  simp only [classChar, Bool.or_eq_false_iff, decide_eq_false_iff_not] at h1
  simp only [reMeta, Bool.or_eq_false_iff, decide_eq_false_iff_not]
  exact ⟨⟨h1, h2⟩, h3⟩

/-- The tokenizer on the emitted body of a well-formed glob. -/
theorem parse0_glob (g : List Piece) :
    (∀ p ∈ g, wfPiece p = true) →
    ∀ fuel, g.length + 1 ≤ fuel →
      parseRe0 fuel (g.flatMap pieceF6) = some (g.flatMap pieceTok) := by
  induction g with
  | nil =>
    intro _ fuel hf
    obtain ⟨f, rfl⟩ : ∃ f, fuel = f + 1 := ⟨fuel - 1, by omega⟩
    exact parseRe0_nil f
  | cons p g' ih =>
    intro hwf fuel hf
    have hwf' : ∀ q ∈ g', wfPiece q = true := fun q hq => hwf q (List.mem_cons_of_mem p hq)
    obtain ⟨f, rfl⟩ : ∃ f, fuel = f + 1 := ⟨fuel - 1, by omega⟩
    have hf' : g'.length + 1 ≤ f := by
      have hlen := hf
      simp only [List.length_cons] at hlen
      omega
    have hih := ih hwf' f hf'
    cases p with
    | plit c =>
      obtain ⟨hc1, hc2⟩ := wfPlit (hwf _ (List.mem_cons_self _ _))
      rw [List.flatMap_cons, List.flatMap_cons]
      by_cases hcl : classChar c = true
      · have hesc : pieceF6 (Piece.plit c) = ['\\', c] := by
          show escChar c = ['\\', c]
          rw [escChar, if_pos hcl]
        rw [hesc]
        show parseRe0 (f + 1) ('\\' :: c :: g'.flatMap pieceF6) =
          some (RE0.lit c :: g'.flatMap pieceTok)
        rw [parseRe0_esc f c _, hih]
        rfl
      · have hesc : pieceF6 (Piece.plit c) = [c] := by
          show escChar c = [c]
          rw [escChar, if_neg hcl]
        rw [hesc]
        have hmeta : reMeta c = false :=
          reMeta_false (by simpa using hcl) hc1 hc2
        show parseRe0 (f + 1) (c :: g'.flatMap pieceF6) =
          some (RE0.lit c :: g'.flatMap pieceTok)
        rw [parseRe0_bare f c _ hmeta, hih]
        rfl
    | pstar =>
      rw [List.flatMap_cons, List.flatMap_cons]
      show parseRe0 (f + 1) ('[' :: '^' :: '/' :: ']' :: '*' :: g'.flatMap pieceF6) =
        some (RE0.anyNoSlash :: g'.flatMap pieceTok)
      rw [parseRe0_noslash f _, hih]
      rfl
    | pglobstar =>
      rw [List.flatMap_cons, List.flatMap_cons]
      show parseRe0 (f + 1) ('.' :: '*' :: g'.flatMap pieceF6) =
        some (RE0.anyStar :: g'.flatMap pieceTok)
      rw [parseRe0_star f _, hih]
      rfl
    | pglobstarslash =>
      rw [List.flatMap_cons, List.flatMap_cons]
      show parseRe0 (f + 1)
          ('(' :: '?' :: ':' :: '.' :: '*' :: '/' :: ')' :: '?' :: g'.flatMap pieceF6) =
        some (RE0.optDirs :: g'.flatMap pieceTok)
      rw [parseRe0_optdirs f _, hih]
      rfl

theorem glob_toks_head (g : List Piece) :
    (g.flatMap pieceTok).head? ≠ some RE0.qmark := by
  cases g with
  | nil => simp
  | cons q g'' =>
    cases q <;> simp [List.flatMap_cons, pieceTok]

/-- The quantifier merge on glob tokens (no bare `?` ever appears). -/
theorem mergeQ_glob (g : List Piece) :
    mergeQ (g.flatMap pieceTok) = some (g.flatMap pieceRe) := by
  induction g with
  | nil => rfl
  | cons p g' ih =>
    cases p with
    | plit c =>
      rw [List.flatMap_cons, List.flatMap_cons]
      show mergeQ (RE0.lit c :: g'.flatMap pieceTok) =
        some (RE.lit c :: g'.flatMap pieceRe)
      rw [mergeQ_lit c _ (glob_toks_head g'), ih]
      rfl
    | pstar =>
      rw [List.flatMap_cons, List.flatMap_cons]
      show mergeQ (RE0.anyNoSlash :: g'.flatMap pieceTok) =
        some (RE.anyNoSlash :: g'.flatMap pieceRe)
      cases hg : g'.flatMap pieceTok with
      | nil =>
        rw [hg] at ih
        simp only [mergeQ] at ih ⊢
        rw [ih]
        rfl
      | cons t r' =>
        rw [hg] at ih
        simp only [mergeQ] at ih ⊢
        rw [ih]
        rfl
    | pglobstar =>
      rw [List.flatMap_cons, List.flatMap_cons]
      show mergeQ (RE0.anyStar :: g'.flatMap pieceTok) =
        some (RE.anyStar :: g'.flatMap pieceRe)
      simp only [mergeQ]
      rw [ih]
      rfl
    | pglobstarslash =>
      rw [List.flatMap_cons, List.flatMap_cons]
      show mergeQ (RE0.optDirs :: g'.flatMap pieceTok) =
        some (RE.optDirs :: g'.flatMap pieceRe)
      simp only [mergeQ]
      rw [ih]
      rfl

theorem pieceF6_len (p : Piece) : 1 ≤ (pieceF6 p).length := by
  cases p with
  | plit c =>
    show 1 ≤ (escChar c).length
    rw [escChar]
    by_cases hcl : classChar c = true
    · rw [if_pos hcl]
      simp
    · rw [if_neg hcl]
      simp
  | pstar => decide
  | pglobstar => decide
  | pglobstarslash => decide

theorem flatMap_len_ge (g : List Piece) : g.length ≤ (g.flatMap pieceF6).length := by
  induction g with
  | nil => simp
  | cons p g' ih =>
    rw [List.flatMap_cons, List.length_append, List.length_cons]
    have := pieceF6_len p
    omega

/-- The full parse of the emitted body. -/
theorem parseRe_glob (g : List Piece) (hwf : ∀ p ∈ g, wfPiece p = true) :
    parseRe (g.flatMap pieceF6) = some (g.flatMap pieceRe) := by
  rw [parseRe]
  rw [parse0_glob g hwf ((g.flatMap pieceF6).length + 1)
    (by have := flatMap_len_ge g; omega)]
  show mergeQ (g.flatMap pieceTok) = _
  exact mergeQ_glob g

/-- The full parse of the emitted body with the `/` prefix. -/
theorem parseRe_glob_slash (g : List Piece) (hwf : ∀ p ∈ g, wfPiece p = true) :
    parseRe ('/' :: g.flatMap pieceF6) = some (RE.lit '/' :: g.flatMap pieceRe) := by
  rw [parseRe]
  show (parseRe0 ((g.flatMap pieceF6).length + 1 + 1) ('/' :: g.flatMap pieceF6)).bind
    mergeQ = _
  rw [parseRe0_bare _ '/' _ (by decide)]
  rw [parse0_glob g hwf ((g.flatMap pieceF6).length + 1)
    (by have := flatMap_len_ge g; omega)]
  show mergeQ (RE0.lit '/' :: g.flatMap pieceTok) = _
  rw [mergeQ_lit '/' _ (glob_toks_head g), mergeQ_glob g]
  rfl

/-- C7 (amended): on the well-formed glob fragment — covering in particular
every shipped default entry-point pattern — the compiled matcher is
exactly the reference interpreter over the intended token translation —
each literal matches itself (metacharacters through their escapes), `*`
becomes the within-segment wildcard `[^/]*`, `**` becomes `.*`, `**/`
becomes the optional-directories form `(?:.*/)?`, a leading `/` literal is
required iff the pattern does not start with `*`, and the match is anchored
at the end iff the pattern ends in a recognized extension.  The match is a
*substring search*: it is not anchored at the start of the path, and the
unescaped `?` leaks quantifier semantics on patterns outside this fragment
(see `c7_counterexample`). -/
theorem c7_amended (g : List Piece) (hwf : WFGlob g) (path : String) :
    globTest (String.mk (rendGlob g)) path =
      some (reTest
        ((if strStarts (String.mk (rendGlob g)) "*" then [] else [RE.lit '/']) ++
          g.flatMap pieceRe)
        (extCheck (String.mk (rendGlob g))) path.data) := by
  obtain ⟨hwfp, hchain⟩ := hwf
  rw [globTest]
  rw [core_eq g hwfp hchain]
  by_cases hst : strStarts (String.mk (rendGlob g)) "*" = true
  · rw [if_pos hst, if_pos hst]
    show (parseRe (g.flatMap pieceF6)).map
      (fun seq => reTest seq (extCheck (String.mk (rendGlob g))) path.data) = _
    rw [parseRe_glob g hwfp]
    rfl
  · rw [if_neg hst, if_neg hst]
    show (parseRe ('/' :: g.flatMap pieceF6)).map
      (fun seq => reTest seq (extCheck (String.mk (rendGlob g))) path.data) = _
    rw [parseRe_glob_slash g hwfp]
    rfl

/-- The shipped default entry-point pattern `pages/**/*.tsx` as a
well-formed piece list (`**/` directly followed by `*`). -/
def gWit : List Piece :=
  [Piece.plit 'p', Piece.plit 'a', Piece.plit 'g', Piece.plit 'e',
   Piece.plit 's', Piece.plit '/', Piece.pglobstarslash, Piece.pstar,
   Piece.plit '.', Piece.plit 't', Piece.plit 's', Piece.plit 'x']

/-- C7 (amended) instantiated on the concrete default pattern
`pages/**/*.tsx`. -/
theorem c7_amended_witness :
    WFGlob gWit ∧
    globTest (String.mk (rendGlob gWit)) "/src/pages/api/user.tsx" =
      some (reTest
        ((if strStarts (String.mk (rendGlob gWit)) "*" then [] else [RE.lit '/']) ++
          gWit.flatMap pieceRe)
        (extCheck (String.mk (rendGlob gWit))) "/src/pages/api/user.tsx".data) :=
  ⟨⟨by decide, by simp [gWit, List.chain'_cons, wfAdj, pieceIsStar]⟩,
   c7_amended gWit ⟨by decide, by simp [gWit, List.chain'_cons, wfAdj, pieceIsStar]⟩
     "/src/pages/api/user.tsx"⟩

end DocMeta
